import Mathlib

/-!
Shallow embedding of the pipeline-lowering phase of
`nes-query-compiler/src/Phases/LowerToCompiledQueryPlanPhase.cpp`.

Shared-pointer identity is modelled by indices: the logical plan stores its
`Pipeline` objects in a list (`PipelinedQueryPlan.nodes`) and a pipeline's
successor list holds indices into that store, so the same node can be the
successor of several predecessors (a DAG, not a tree).  The executable
pipelines created during lowering live in a growing list
(`LoweringContext.execs`); a reference to an `ExecutablePipeline` is an index
into that list, so reference equality is index equality.

The member state of `LowerToCompiledQueryPlanPhase` (the memo map
`pipelineToExecutableMap`, the `sinks` and `sources` vectors) and the
`LoweringContext` parameter that parts of the file use are modelled as one
state record, since the file threads them through the same walk.

The recursion of the source is modelled with explicit fuel; running out of
fuel is a distinguished error, so termination statements say that enough fuel
never produces that error.
-/

namespace LowerPhase

abbrev PipelineId := Nat
abbrev OriginId := Nat

/-- Parser configuration of a source descriptor: parser type plus the two
delimiters, as used by `injectFormatter`. -/
structure ParserConfig where
  parserType : String
  tupleDelimiter : String
  fieldDelimiter : String
  deriving DecidableEq, Repr

/-- Source descriptor: the schema of the logical source and the parser
configuration (the parts of `SourceDescriptor` the lowering phase reads). -/
structure SourceDescriptor where
  schema : String
  parserConfig : ParserConfig
  deriving DecidableEq, Repr

/-- SourcePhysicalOperator payload: its origin id and its descriptor. -/
structure SourceOp where
  originId : OriginId
  descriptor : SourceDescriptor
  deriving DecidableEq, Repr

/-- Root operator of a pipeline.  A source pipeline's root carries a
`SourceOp`, a sink pipeline's root carries the sink descriptor (opaque,
modelled as a string), every other root is an operator chain. -/
inductive RootOp where
  | source (op : SourceOp)
  | sink (descriptor : String)
  | op
  deriving DecidableEq, Repr

/-- Logical pipeline: identity, root operator and the successor edges
(indices into the plan's node store). -/
structure Pipeline where
  pid : PipelineId
  root : RootOp
  succs : List Nat
  deriving DecidableEq, Repr

/-- Modelled from the spec: classification is derived from the root operator
kind (`Pipeline.hpp` is not among the shown sources). -/
def Pipeline.isSourcePipeline (p : Pipeline) : Bool :=
  match p.root with
  | .source _ => true
  | _ => false

/-- Modelled from the spec: a pipeline is a sink pipeline iff its root
operator is a sink operator. -/
def Pipeline.isSinkPipeline (p : Pipeline) : Bool :=
  match p.root with
  | .sink _ => true
  | _ => false

/-- Modelled from the spec: a pipeline is an operator pipeline iff its root
is neither a source nor a sink operator. -/
def Pipeline.isOperatorPipeline (p : Pipeline) : Bool :=
  match p.root with
  | .op => true
  | _ => false

/-- Modelled from the spec: `Util/ExecutionMode.hpp` is not among the shown
sources; the spec fixes `Compiler` and `Interpreter` and calls any other
value invalid, so `OTHER` stands for any such further value. -/
inductive ExecutionMode where
  | COMPILER
  | INTERPRETER
  | OTHER
  deriving DecidableEq, Repr

/-- Modelled from the spec and the four switch cases of `getStage`
(`Util/DumpMode.hpp` is not among the shown sources). -/
inductive DumpMode where
  | NONE
  | CONSOLE
  | FILE
  | FILE_AND_CONSOLE
  deriving DecidableEq, Repr

/-- The nautilus engine options that `getStage` sets. -/
structure NautilusOptions where
  mlirEnableMultithreading : Bool
  engineCompilation : Bool
  dumpAll : Bool
  dumpConsole : Bool
  dumpFile : Bool
  deriving DecidableEq, Repr

/-- Errors of the lowering pass: PRECONDITION and INVARIANT failures of the
source, plus the fuel-exhaustion marker of the embedding. -/
inductive LowerError where
  | precondition
  | invariantViolation
  | outOfFuel
  deriving DecidableEq, Repr

/-- A stage of an executable pipeline: either a compiled stage built by
`getStage` for the pipeline at the given node index, or an input-formatter
task.  The formatter built by the pre-refactor block of `processSource` has
no origin id argument, hence the `Option`. -/
inductive Stage where
  | compiled (pipelineIdx : Nat) (options : NautilusOptions)
  | formatterTask (originId : Option OriginId)
      (parserType schema tupleDelimiter fieldDelimiter : String)
  deriving DecidableEq, Repr

/-- Whether a stage is an input-formatter task. -/
def Stage.isFormatter : Stage → Bool
  | .formatterTask _ _ _ _ _ => true
  | _ => false

/-- Executable pipeline: id copied from the logical pipeline, a stage, and
successor references (indices into the context's `execs` store). -/
structure ExecutablePipeline where
  id : PipelineId
  stage : Stage
  successors : List Nat
  deriving DecidableEq, Repr

/-- Predecessor of a successor edge: either a source's origin id or a
reference to an executable pipeline. -/
inductive Predecessor where
  | origin (o : OriginId)
  | exec (e : Nat)
  deriving DecidableEq, Repr

/-- Sink record of the compiled plan: sink pipeline id, its descriptor and
the accumulated predecessor list (field name as in `CompiledQueryPlan`). -/
structure SinkRecord where
  id : PipelineId
  descriptor : String
  predecessor : List Predecessor
  deriving DecidableEq, Repr

/-- Source record of the compiled plan: origin id, descriptor and the
executable pipelines the source should emit to. -/
structure SourceRecord where
  originId : OriginId
  descriptor : SourceDescriptor
  successors : List Nat
  deriving DecidableEq, Repr

/-- The pipelined query plan handed to `apply`: query id, the node store,
the plan's pipeline list (indices into the store) and the execution mode. -/
structure PipelinedQueryPlan where
  queryId : Nat
  nodes : List Pipeline
  pipelines : List Nat
  executionMode : ExecutionMode
  deriving DecidableEq, Repr

/-- First id strictly above every pipeline id of the plan; used to model the
fresh ids handed out by the global id counter behind `getNextPipelineId`. -/
def PipelinedQueryPlan.freshBase (P : PipelinedQueryPlan) : Nat :=
  (P.nodes.map (fun n => n.pid)).foldr max 0 + 1

/-- The largest successor-list length over the plan's nodes. -/
def PipelinedQueryPlan.maxSuccs (P : PipelinedQueryPlan) : Nat :=
  (P.nodes.map (fun n => n.succs.length)).foldr max 0

/-- Environment of one lowering run: the (read-only) plan and the phase's
dump-mode member `dumpQueryCompilationIntermediateRepresentations`. -/
structure Env where
  plan : PipelinedQueryPlan
  dumpMode : DumpMode
  deriving DecidableEq, Repr

/-- Mutable state of one lowering run: the store of created executable
pipelines, the memo map `pipelineToExecutableMap` (association list, first
match wins), the sink and source records, the plan's pipeline list (mutated
by `removePipeline`) and the fresh-id counter. -/
structure LoweringContext where
  execs : List ExecutablePipeline
  memo : List (PipelineId × Nat)
  sinks : List SinkRecord
  sources : List SourceRecord
  planPipelines : List Nat
  nextId : Nat
  deriving DecidableEq, Repr

/-- Association-list lookup, first match wins. -/
def lookupMemo : List (PipelineId × Nat) → PipelineId → Option Nat
  | [], _ => none
  | (k, v) :: t, p => if k = p then some v else lookupMemo t p

/-- Model of `std::unordered_map::emplace`: insert only if the key is not
present. -/
def emplace (m : List (PipelineId × Nat)) (k : PipelineId) (v : Nat) :
    List (PipelineId × Nat) :=
  match lookupMemo m k with
  | some _ => m
  | none => m ++ [(k, v)]

/-- Update the element at an index of a list, identity when out of range. -/
def updateAt {α : Type} : List α → Nat → (α → α) → List α
  | [], _, _ => []
  | a :: t, 0, f => f a :: t
  | a :: t, i + 1, f => a :: updateAt t i f

/-- Push one successor reference onto the executable pipeline at `eIdx`. -/
def pushSucc (ctx : LoweringContext) (eIdx j : Nat) : LoweringContext :=
  { ctx with execs :=
      updateAt ctx.execs eIdx (fun e => { e with successors := e.successors ++ [j] }) }

/-- Count the executable pipelines carrying a given id. -/
def countIds (l : List ExecutablePipeline) (p : PipelineId) : Nat :=
  l.countP (fun e => e.id == p)

/-- Modelled from the spec: `Util::toLowerCase` (`Util/Strings.hpp` is not
among the shown sources) lower-cases a string character by character. -/
def toLowerCase (s : String) : String := ⟨s.data.map Char.toLower⟩

/-- Modelled from the spec: `provideInputFormatterTask`, called by the
pre-refactor block of `processSource`, is not among the shown sources; per
the spec's formatter factory it builds a format-parsing stage from the
schema and parser configuration (it receives no origin id). -/
def provideInputFormatterTask (schema : String) (cfg : ParserConfig) : Stage :=
  .formatterTask none cfg.parserType schema cfg.tupleDelimiter cfg.fieldDelimiter

/-- Option resolution of `getStage`: the execution-mode switch (aborting on
an unknown backend) followed by the dump-mode switch; multithreaded MLIR
code generation is switched off up front. -/
def resolveOptions (mode : ExecutionMode) (dump : DumpMode) :
    Except LowerError NautilusOptions :=
  match mode with
  | .OTHER => .error .invariantViolation
  | _ =>
    let compilation := match mode with
      | .COMPILER => true
      | _ => false
    let dumps : Bool × Bool × Bool := match dump with
      | .NONE => (false, false, false)
      | .CONSOLE => (true, true, false)
      | .FILE => (true, false, true)
      | .FILE_AND_CONSOLE => (true, true, true)
    .ok { mlirEnableMultithreading := false
          engineCompilation := compilation
          dumpAll := dumps.1
          dumpConsole := dumps.2.1
          dumpFile := dumps.2.2 }

/-- Model of `LowerToCompiledQueryPlanPhase::getStage`: resolve the options
and wrap the pipeline (node index) into a compiled stage. -/
def getStage (mode : ExecutionMode) (dump : DumpMode) (sIdx : Nat) :
    Except LowerError Stage :=
  match resolveOptions mode dump with
  | .error e => .error e
  | .ok o => .ok (.compiled sIdx o)

/-- Append a predecessor to the first sink record with the given id. -/
def appendPred : List SinkRecord → PipelineId → Predecessor → List SinkRecord
  | [], _, _ => []
  | r :: t, p, pred =>
    if r.id = p then { r with predecessor := r.predecessor ++ [pred] } :: t
    else r :: appendPred t p pred

/-- Model of `LowerToCompiledQueryPlanPhase::processSink`: find the sink
record with the pipeline's id, creating it with an empty predecessor list if
absent, then append the predecessor to it. -/
def processSink (pred : Predecessor) (pid : PipelineId) (d : String)
    (ctx : LoweringContext) : LoweringContext :=
  let sinks1 :=
    if ctx.sinks.any (fun r => r.id == pid) then ctx.sinks
    else ctx.sinks ++ [{ id := pid, descriptor := d, predecessor := [] }]
  { ctx with sinks := appendPred sinks1 pid pred }

mutual

/-- Model of `LowerToCompiledQueryPlanPhase::processSuccessor`: the
PRECONDITION admits only sink and operator pipelines; sinks are recorded and
terminate the chain (empty optional), operators are lowered memoized. -/
def processSuccessor (E : Env) (fuel : Nat) (pred : Predecessor) (sIdx : Nat)
    (ctx : LoweringContext) : Except LowerError (Option Nat × LoweringContext) :=
  match fuel with
  | 0 => .error .outOfFuel
  | f + 1 =>
    match E.plan.nodes[sIdx]? with
    | none => .error .invariantViolation
    | some n =>
      match n.root with
      | .sink d => .ok (none, processSink pred n.pid d ctx)
      | .op =>
        match processOperatorPipeline E f sIdx ctx with
        | .error e => .error e
        | .ok (j, ctx') => .ok (some j, ctx')
      | .source _ => .error .precondition
  termination_by structural fuel

/-- Model of `LowerToCompiledQueryPlanPhase::processOperatorPipeline`: memo
hit returns the existing executable pipeline unchanged; otherwise build the
stage, create the executable pipeline, walk the successors (appending every
non-empty result), insert into the memo map and return it. -/
def processOperatorPipeline (E : Env) (fuel : Nat) (sIdx : Nat)
    (ctx : LoweringContext) : Except LowerError (Nat × LoweringContext) :=
  match fuel with
  | 0 => .error .outOfFuel
  | f + 1 =>
    match E.plan.nodes[sIdx]? with
    | none => .error .invariantViolation
    | some n =>
      match lookupMemo ctx.memo n.pid with
      | some e => .ok (e, ctx)
      | none =>
        match getStage E.plan.executionMode E.dumpMode sIdx with
        | .error e => .error e
        | .ok stage =>
          let eIdx := ctx.execs.length
          let ctx1 := { ctx with
            execs := ctx.execs ++ [{ id := n.pid, stage := stage, successors := [] }] }
          match walkSuccessors E f eIdx n.succs ctx1 with
          | .error e => .error e
          | .ok ctx2 => .ok (eIdx, { ctx2 with memo := emplace ctx2.memo n.pid eIdx })
  termination_by structural fuel

/-- The successor loops of `processOperatorPipeline` and of the pre-refactor
block of `processSource`: call `processSuccessor` with the pipeline under
construction as predecessor and push every non-empty result onto it. -/
def walkSuccessors (E : Env) (fuel : Nat) (eIdx : Nat) (ss : List Nat)
    (ctx : LoweringContext) : Except LowerError LoweringContext :=
  match fuel with
  | 0 => .error .outOfFuel
  | f + 1 =>
    match ss with
    | [] => .ok ctx
    | s :: rest =>
      match processSuccessor E f (.exec eIdx) s ctx with
      | .error e => .error e
      | .ok (some j, ctx') => walkSuccessors E f eIdx rest (pushSucc ctx' eIdx j)
      | .ok (none, ctx') => walkSuccessors E f eIdx rest ctx'
  termination_by structural fuel

end

/-- The successor loops of `injectFormatter`: collect the non-empty results
of `processSuccessor` into a list. -/
def collectSuccessors (E : Env) (fuel : Nat) (pred : Predecessor) (ss : List Nat)
    (ctx : LoweringContext) : Except LowerError (List Nat × LoweringContext) :=
  match ss with
  | [] => .ok ([], ctx)
  | s :: rest =>
    match processSuccessor E fuel pred s ctx with
    | .error e => .error e
    | .ok (r, ctx') =>
      match collectSuccessors E fuel pred rest ctx' with
      | .error e => .error e
      | .ok (l, ctx'') =>
        .ok ((match r with | some j => [j] | none => []) ++ l, ctx'')

/-- Model of `injectFormatter`: a raw parser type (case-insensitively)
bypasses formatting and lowers the logical successors directly; otherwise
one input-formatter pipeline carrying the source pipeline's id is created,
the successors are lowered with it as predecessor and assigned to it, and it
is inserted into the memo map. -/
def injectFormatter (E : Env) (fuel : Nat) (n : Pipeline) (srcOp : SourceOp)
    (ctx : LoweringContext) : Except LowerError (List Nat × LoweringContext) :=
  let descriptor := srcOp.descriptor
  if toLowerCase descriptor.parserConfig.parserType = "raw" then
    collectSuccessors E fuel (.origin srcOp.originId) n.succs ctx
  else
    let eIdx := ctx.execs.length
    let stage := Stage.formatterTask (some srcOp.originId)
      descriptor.parserConfig.parserType descriptor.schema
      descriptor.parserConfig.tupleDelimiter descriptor.parserConfig.fieldDelimiter
    let ctx1 := { ctx with
      execs := ctx.execs ++ [{ id := n.pid, stage := stage, successors := [] }] }
    match collectSuccessors E fuel (.exec eIdx) n.succs ctx1 with
    | .error e => .error e
    | .ok (l, ctx2) =>
      let ctx3 := { ctx2 with
        execs := updateAt ctx2.execs eIdx (fun ep => { ep with successors := l }) }
      .ok ([eIdx], { ctx3 with memo := emplace ctx3.memo n.pid eIdx })

/-- Model of `processSource` as the file contains it: the PRECONDITION, the
pre-refactor block (build an input-formatter pipeline unconditionally, walk
the successors onto it, remove the source pipeline from the plan, memoize the
pipeline under a fresh id, append a source record pointing at it) followed by
the post-refactor tail (append a source record whose successors come from
`injectFormatter`). -/
def processSource (E : Env) (fuel : Nat) (sIdx : Nat) (ctx : LoweringContext) :
    Except LowerError LoweringContext :=
  match E.plan.nodes[sIdx]? with
  | none => .error .invariantViolation
  | some n =>
    match n.root with
    | .source srcOp =>
      let eIdx := ctx.execs.length
      let ctx1 := { ctx with
        execs := ctx.execs ++
          [{ id := n.pid
             stage := provideInputFormatterTask srcOp.descriptor.schema
               srcOp.descriptor.parserConfig
             successors := [] }] }
      match walkSuccessors E fuel eIdx n.succs ctx1 with
      | .error e => .error e
      | .ok ctx2 =>
        let ctx3 := { ctx2 with
          planPipelines := ctx2.planPipelines.filter (fun j => j != sIdx) }
        let ctx4 := { ctx3 with
          memo := emplace ctx3.memo ctx3.nextId eIdx
          nextId := ctx3.nextId + 1 }
        let ctx5 := { ctx4 with
          sources := ctx4.sources ++
            [{ originId := srcOp.originId, descriptor := srcOp.descriptor
               successors := [eIdx] }] }
        match injectFormatter E fuel n srcOp ctx5 with
        | .error e => .error e
        | .ok (l, ctx6) =>
          .ok { ctx6 with
            sources := ctx6.sources ++
              [{ originId := srcOp.originId, descriptor := srcOp.descriptor
                 successors := l }] }
    | _ => .error .precondition

/-- The loop of `apply` over the plan's source pipelines. -/
def processSources (E : Env) (fuel : Nat) : List Nat → LoweringContext →
    Except LowerError LoweringContext
  | [], ctx => .ok ctx
  | s :: rest, ctx =>
    match processSource E fuel s ctx with
    | .error e => .error e
    | .ok ctx' => processSources E fuel rest ctx'

/-- Modelled from the spec: `getSourcePipelines` (not among the shown
sources) returns the source-classified pipelines of the plan's list. -/
def getSourcePipelines (E : Env) : List Nat :=
  E.plan.pipelines.filter (fun i =>
    match E.plan.nodes[i]? with
    | some n => n.isSourcePipeline
    | none => false)

/-- Fresh state at the start of one `apply` run. -/
def initialContext (E : Env) : LoweringContext :=
  { execs := [], memo := [], sinks := [], sources := []
    planPipelines := E.plan.pipelines, nextId := E.plan.freshBase }

/-- The compiled query plan returned by `apply`: query id, the executable
pipelines (the memo map's values), sink records and source records. -/
structure CompiledQueryPlan where
  queryId : Nat
  pipelines : List Nat
  sinks : List SinkRecord
  sources : List SourceRecord
  deriving DecidableEq, Repr

/-- Model of `LowerToCompiledQueryPlanPhase::apply` (the public `lower()`
operation): process every source pipeline of the snapshot taken up front,
then assemble the compiled plan from the accumulated state.  The final
`LoweringContext` is returned alongside so that statements can speak about
the executable store and the (possibly mutated) plan pipeline list. -/
def lower (E : Env) (fuel : Nat) :
    Except LowerError (CompiledQueryPlan × LoweringContext) :=
  match processSources E fuel (getSourcePipelines E) (initialContext E) with
  | .error e => .error e
  | .ok ctx =>
    .ok ({ queryId := E.plan.queryId
           pipelines := ctx.memo.map (fun pe => pe.2)
           sinks := ctx.sinks
           sources := ctx.sources }, ctx)

/-! Auxiliary predicates used to state properties of the walk. -/

/-- One executable pipeline extends another: id and stage agree, successors
are only appended. -/
def ExecExtend (e e' : ExecutablePipeline) : Prop :=
  e'.id = e.id ∧ e'.stage = e.stage ∧ ∃ Δ, e'.successors = e.successors ++ Δ

/-- The executable store only grows: every already-created pipeline keeps
its position, id and stage, and its successor list is only appended to. -/
def ExecsExtend (l l' : List ExecutablePipeline) : Prop :=
  l.length ≤ l'.length ∧
  ∀ (j : Nat) (e : ExecutablePipeline), l[j]? = some e →
    ∃ e', l'[j]? = some e' ∧ ExecExtend e e'

/-- Relation between the state before and after any step of the walk: the
executable store extends, the memo map is append-only with every new entry
pointing at a pipeline created during the step, and the fresh-id counter
never decreases. -/
def StepSpec (ctx ctx' : LoweringContext) : Prop :=
  ExecsExtend ctx.execs ctx'.execs ∧
  (∃ Δ, ctx'.memo = ctx.memo ++ Δ ∧ ∀ pe ∈ Δ, ctx.execs.length ≤ pe.2) ∧
  ctx.nextId ≤ ctx'.nextId

/-- Invariant maintained by the whole lowering pass. -/
structure Inv (E : Env) (ctx : LoweringContext) : Prop where
  memoValid : ∀ pe ∈ ctx.memo, pe.2 < ctx.execs.length
  memoKeys : (ctx.memo.map Prod.fst).Nodup
  memoId : ∀ pe ∈ ctx.memo, pe.1 < E.plan.freshBase →
    ∃ e : ExecutablePipeline, ctx.execs[pe.2]? = some e ∧ e.id = pe.1
  execIds : ∀ e ∈ ctx.execs, ∃ (i : Nat) (n : Pipeline),
    E.plan.nodes[i]? = some n ∧ e.id = n.pid ∧ n.isSinkPipeline = false
  succValid : ∀ e ∈ ctx.execs, ∀ j ∈ e.successors, j < ctx.execs.length
  nextIdBase : E.plan.freshBase ≤ ctx.nextId
  sinkIds : (ctx.sinks.map (fun r => r.id)).Nodup

/-- Statement of the basic preservation property for `processSuccessor` at a
given amount of fuel. -/
def PSafeA (fuel : Nat) : Prop :=
  ∀ (E : Env) (pred : Predecessor) (sIdx : Nat) (ctx : LoweringContext)
    (r : Option Nat) (ctx' : LoweringContext), Inv E ctx →
    processSuccessor E fuel pred sIdx ctx = .ok (r, ctx') →
    Inv E ctx' ∧ StepSpec ctx ctx' ∧ ∀ j : Nat, r = some j → j < ctx'.execs.length

/-- Statement of the basic preservation property for
`processOperatorPipeline` at a given amount of fuel. -/
def POpA (fuel : Nat) : Prop :=
  ∀ (E : Env) (sIdx : Nat) (ctx : LoweringContext) (e : Nat)
    (ctx' : LoweringContext), Inv E ctx →
    (∃ n : Pipeline, E.plan.nodes[sIdx]? = some n ∧ n.root = RootOp.op) →
    processOperatorPipeline E fuel sIdx ctx = .ok (e, ctx') →
    Inv E ctx' ∧ StepSpec ctx ctx' ∧ e < ctx'.execs.length

/-- Statement of the basic preservation property for `walkSuccessors` at a
given amount of fuel. -/
def PWalkA (fuel : Nat) : Prop :=
  ∀ (E : Env) (eIdx : Nat) (ss : List Nat) (ctx ctx' : LoweringContext),
    Inv E ctx → walkSuccessors E fuel eIdx ss ctx = .ok ctx' →
    Inv E ctx' ∧ StepSpec ctx ctx'

/-- Statement of the basic preservation property for `collectSuccessors` at a
given amount of fuel. -/
def PCollA (fuel : Nat) : Prop :=
  ∀ (E : Env) (pred : Predecessor) (ss : List Nat) (ctx : LoweringContext)
    (l : List Nat) (ctx' : LoweringContext), Inv E ctx →
    collectSuccessors E fuel pred ss ctx = .ok (l, ctx') →
    Inv E ctx' ∧ StepSpec ctx ctx' ∧ ∀ j ∈ l, j < ctx'.execs.length

/-- There is exactly one executable pipeline carrying id `p` when the memo
map knows `p`, and none otherwise. -/
def CountOK (p : PipelineId) (ctx : LoweringContext) : Prop :=
  countIds ctx.execs p = (if (lookupMemo ctx.memo p).isSome then 1 else 0)

/-- Every memo entry whose key is an original pipeline id is wired: it maps
to an executable pipeline carrying that id, created for a node with that
id, and every operator successor of that node is itself memoized with its
executable pipeline referenced in the entry's successor list. -/
def MemoWired (E : Env) (ctx : LoweringContext) : Prop :=
  ∀ pe ∈ ctx.memo, pe.1 < E.plan.freshBase →
    ∃ (i : Nat) (n : Pipeline) (e : ExecutablePipeline),
      E.plan.nodes[i]? = some n ∧ n.pid = pe.1 ∧
      ctx.execs[pe.2]? = some e ∧ e.id = pe.1 ∧
      ∀ (s : Nat) (m : Pipeline), s ∈ n.succs → E.plan.nodes[s]? = some m →
        m.root = RootOp.op →
        ∃ es : Nat, (m.pid, es) ∈ ctx.memo ∧ es ∈ e.successors

/-- A node index is reachable, along operator pipelines, from a source
pipeline listed in the plan: directly as a successor of such a source, or as
a successor of a reachable operator pipeline. -/
inductive ReachesOp (E : Env) : Nat → Prop where
  | root (si x : Nat) (s : Pipeline) :
      si ∈ E.plan.pipelines → E.plan.nodes[si]? = some s →
      s.isSourcePipeline = true → x ∈ s.succs → ReachesOp E x
  | step (i x : Nat) (n : Pipeline) :
      ReachesOp E i → E.plan.nodes[i]? = some n →
      n.root = RootOp.op → x ∈ n.succs → ReachesOp E x

/-! Concrete plans used to evaluate the model on specific inputs. -/

/-- A csv source feeding a sink (used for the non-raw formatter claim). -/
def envC2 : Env :=
  { plan := { queryId := 2
              nodes := [
                { pid := 0
                  root := .source { originId := 7, descriptor :=
                    { schema := "s", parserConfig :=
                      { parserType := "CSV", tupleDelimiter := "t"
                        fieldDelimiter := "f" } } }
                  succs := [1] },
                { pid := 1, root := .sink "k", succs := [] } ]
              pipelines := [0, 1]
              executionMode := .COMPILER }
    dumpMode := .NONE }

/-- A raw source feeding a sink (used for the frame claim about the input
plan). -/
def envC3 : Env :=
  { plan := { queryId := 3
              nodes := [
                { pid := 0
                  root := .source { originId := 7, descriptor :=
                    { schema := "s", parserConfig :=
                      { parserType := "raw", tupleDelimiter := "t"
                        fieldDelimiter := "f" } } }
                  succs := [1] },
                { pid := 1, root := .sink "k", succs := [] } ]
              pipelines := [0, 1]
              executionMode := .COMPILER }
    dumpMode := .NONE }

/-- An upper-case RAW source feeding a sink (used for the raw-bypass
claim). -/
def envC5 : Env :=
  { plan := { queryId := 5
              nodes := [
                { pid := 0
                  root := .source { originId := 7, descriptor :=
                    { schema := "s", parserConfig :=
                      { parserType := "RAW", tupleDelimiter := "t"
                        fieldDelimiter := "f" } } }
                  succs := [1] },
                { pid := 1, root := .sink "k", succs := [] } ]
              pipelines := [0, 1]
              executionMode := .COMPILER }
    dumpMode := .NONE }

/-- A raw source feeding two operator pipelines that converge on two sink
objects sharing pipeline id 5 but carrying different descriptors. -/
def envC8 : Env :=
  { plan := { queryId := 8
              nodes := [
                { pid := 0
                  root := .source { originId := 7, descriptor :=
                    { schema := "s", parserConfig :=
                      { parserType := "raw", tupleDelimiter := "t"
                        fieldDelimiter := "f" } } }
                  succs := [1, 2] },
                { pid := 1, root := .op, succs := [3] },
                { pid := 2, root := .op, succs := [4] },
                { pid := 5, root := .sink "a", succs := [] },
                { pid := 5, root := .sink "b", succs := [] } ]
              pipelines := [0, 1, 2, 3, 4]
              executionMode := .COMPILER }
    dumpMode := .NONE }

/-- A raw source feeding a sink under an unrecognized execution mode. -/
def envC9 : Env :=
  { plan := { queryId := 9
              nodes := [
                { pid := 0
                  root := .source { originId := 7, descriptor :=
                    { schema := "s", parserConfig :=
                      { parserType := "raw", tupleDelimiter := "t"
                        fieldDelimiter := "f" } } }
                  succs := [1] },
                { pid := 1, root := .sink "k", succs := [] } ]
              pipelines := [0, 1]
              executionMode := .OTHER }
    dumpMode := .NONE }

/-- A raw source feeding two operator pipelines that share one sink (the
sink fan-in scenario). -/
def envC4w : Env :=
  { plan := { queryId := 4
              nodes := [
                { pid := 0
                  root := .source { originId := 7, descriptor :=
                    { schema := "s", parserConfig :=
                      { parserType := "raw", tupleDelimiter := "t"
                        fieldDelimiter := "f" } } }
                  succs := [1, 2] },
                { pid := 1, root := .op, succs := [3] },
                { pid := 2, root := .op, succs := [3] },
                { pid := 3, root := .sink "k", succs := [] } ]
              pipelines := [0, 1, 2, 3]
              executionMode := .COMPILER }
    dumpMode := .NONE }

/-- The compiled plan produced by lowering `envC4w` with fuel 12. -/
def cqpC4w : CompiledQueryPlan :=
  { queryId := 4
    pipelines := [1, 2, 0]
    sinks := [{ id := 3, descriptor := "k"
                predecessor := [Predecessor.exec 1, Predecessor.exec 2] }]
    sources := [
      { originId := 7
        descriptor := { schema := "s", parserConfig :=
          { parserType := "raw", tupleDelimiter := "t", fieldDelimiter := "f" } }
        successors := [0] },
      { originId := 7
        descriptor := { schema := "s", parserConfig :=
          { parserType := "raw", tupleDelimiter := "t", fieldDelimiter := "f" } }
        successors := [1, 2] }] }

/-- The final lowering state produced by lowering `envC4w` with fuel 12. -/
def ctxC4w : LoweringContext :=
  { execs := [
      { id := 0, stage := Stage.formatterTask none "raw" "s" "t" "f"
        successors := [1, 2] },
      { id := 1
        stage := Stage.compiled 1
          { mlirEnableMultithreading := false, engineCompilation := true
            dumpAll := false, dumpConsole := false, dumpFile := false }
        successors := [] },
      { id := 2
        stage := Stage.compiled 2
          { mlirEnableMultithreading := false, engineCompilation := true
            dumpAll := false, dumpConsole := false, dumpFile := false }
        successors := [] }]
    memo := [(1, 1), (2, 2), (4, 0)]
    sinks := [{ id := 3, descriptor := "k"
                predecessor := [Predecessor.exec 1, Predecessor.exec 2] }]
    sources := [
      { originId := 7
        descriptor := { schema := "s", parserConfig :=
          { parserType := "raw", tupleDelimiter := "t", fieldDelimiter := "f" } }
        successors := [0] },
      { originId := 7
        descriptor := { schema := "s", parserConfig :=
          { parserType := "raw", tupleDelimiter := "t", fieldDelimiter := "f" } }
        successors := [1, 2] }]
    planPipelines := [1, 2, 3]
    nextId := 5 }

/-- A raw source feeding one operator pipeline that feeds a sink. -/
def envC6w : Env :=
  { plan := { queryId := 6
              nodes := [
                { pid := 0
                  root := .source { originId := 7, descriptor :=
                    { schema := "s", parserConfig :=
                      { parserType := "raw", tupleDelimiter := "t"
                        fieldDelimiter := "f" } } }
                  succs := [1] },
                { pid := 1, root := .op, succs := [2] },
                { pid := 2, root := .sink "k", succs := [] } ]
              pipelines := [0, 1, 2]
              executionMode := .COMPILER }
    dumpMode := .NONE }

/-- The compiled plan produced by lowering `envC6w` with fuel 12. -/
def cqpC6w : CompiledQueryPlan :=
  { queryId := 6
    pipelines := [1, 0]
    sinks := [{ id := 2, descriptor := "k"
                predecessor := [Predecessor.exec 1] }]
    sources := [
      { originId := 7
        descriptor := { schema := "s", parserConfig :=
          { parserType := "raw", tupleDelimiter := "t", fieldDelimiter := "f" } }
        successors := [0] },
      { originId := 7
        descriptor := { schema := "s", parserConfig :=
          { parserType := "raw", tupleDelimiter := "t", fieldDelimiter := "f" } }
        successors := [1] }] }

/-- The final lowering state produced by lowering `envC6w` with fuel 12. -/
def ctxC6w : LoweringContext :=
  { execs := [
      { id := 0, stage := Stage.formatterTask none "raw" "s" "t" "f"
        successors := [1] },
      { id := 1
        stage := Stage.compiled 1
          { mlirEnableMultithreading := false, engineCompilation := true
            dumpAll := false, dumpConsole := false, dumpFile := false }
        successors := [] }]
    memo := [(1, 1), (3, 0)]
    sinks := [{ id := 2, descriptor := "k"
                predecessor := [Predecessor.exec 1] }]
    sources := [
      { originId := 7
        descriptor := { schema := "s", parserConfig :=
          { parserType := "raw", tupleDelimiter := "t", fieldDelimiter := "f" } }
        successors := [0] },
      { originId := 7
        descriptor := { schema := "s", parserConfig :=
          { parserType := "raw", tupleDelimiter := "t", fieldDelimiter := "f" } }
        successors := [1] }]
    planPipelines := [1, 2]
    nextId := 4 }

/-- An acyclic plan used as the termination witness: a raw source feeding
two operator pipelines that converge on a third operator pipeline. -/
def envC10w : Env :=
  { plan := { queryId := 10
              nodes := [
                { pid := 0
                  root := .source { originId := 7, descriptor :=
                    { schema := "s", parserConfig :=
                      { parserType := "raw", tupleDelimiter := "t"
                        fieldDelimiter := "f" } } }
                  succs := [1, 2] },
                { pid := 1, root := .op, succs := [3] },
                { pid := 2, root := .op, succs := [3] },
                { pid := 3, root := .op, succs := [] } ]
              pipelines := [0, 1, 2, 3]
              executionMode := .COMPILER }
    dumpMode := .NONE }

/-- The compiled plan produced by lowering `envC10w` with fuel 12. -/
def cqpC10w : CompiledQueryPlan :=
  { queryId := 10
    pipelines := [2, 1, 3, 0]
    sinks := []
    sources := [
      { originId := 7
        descriptor := { schema := "s", parserConfig :=
          { parserType := "raw", tupleDelimiter := "t", fieldDelimiter := "f" } }
        successors := [0] },
      { originId := 7
        descriptor := { schema := "s", parserConfig :=
          { parserType := "raw", tupleDelimiter := "t", fieldDelimiter := "f" } }
        successors := [1, 3] }] }

/-- The final lowering state produced by lowering `envC10w` with fuel 12:
the shared operator pipeline (id 3) is created once, at store index 2, and
both of its predecessors (store indices 1 and 3) reference index 2. -/
def ctxC10w : LoweringContext :=
  { execs := [
      { id := 0, stage := Stage.formatterTask none "raw" "s" "t" "f"
        successors := [1, 3] },
      { id := 1
        stage := Stage.compiled 1
          { mlirEnableMultithreading := false, engineCompilation := true
            dumpAll := false, dumpConsole := false, dumpFile := false }
        successors := [2] },
      { id := 3
        stage := Stage.compiled 3
          { mlirEnableMultithreading := false, engineCompilation := true
            dumpAll := false, dumpConsole := false, dumpFile := false }
        successors := [] },
      { id := 2
        stage := Stage.compiled 2
          { mlirEnableMultithreading := false, engineCompilation := true
            dumpAll := false, dumpConsole := false, dumpFile := false }
        successors := [2] }]
    memo := [(3, 2), (1, 1), (2, 3), (4, 0)]
    sinks := []
    sources := [
      { originId := 7
        descriptor := { schema := "s", parserConfig :=
          { parserType := "raw", tupleDelimiter := "t", fieldDelimiter := "f" } }
        successors := [0] },
      { originId := 7
        descriptor := { schema := "s", parserConfig :=
          { parserType := "raw", tupleDelimiter := "t", fieldDelimiter := "f" } }
        successors := [1, 3] }]
    planPipelines := [1, 2, 3]
    nextId := 5 }

/-! Basic lemmas about the container helpers. -/

theorem lookupMemo_cons (a : PipelineId × Nat) (t : List (PipelineId × Nat))
    (p : PipelineId) :
    lookupMemo (a :: t) p = if a.1 = p then some a.2 else lookupMemo t p := by
  obtain ⟨k, v⟩ := a
  rfl

theorem lookupMemo_append_some {m : List (PipelineId × Nat)} {p : PipelineId}
    {v : Nat} (Δ : List (PipelineId × Nat)) (h : lookupMemo m p = some v) :
    lookupMemo (m ++ Δ) p = some v := by
  induction m with
  | nil => simp [lookupMemo] at h
  | cons a t ih =>
    rw [List.cons_append]
    unfold lookupMemo at h ⊢
    by_cases hk : a.1 = p
    · simp [hk] at h ⊢; exact h
    · simp [hk] at h ⊢; exact ih h

theorem lookupMemo_append_none {m : List (PipelineId × Nat)} {p : PipelineId}
    (Δ : List (PipelineId × Nat)) (h : lookupMemo m p = none) :
    lookupMemo (m ++ Δ) p = lookupMemo Δ p := by
  induction m with
  | nil => simp
  | cons a t ih =>
    rw [List.cons_append] at *
    rw [lookupMemo_cons] at h
    rw [lookupMemo_cons]
    by_cases hk : a.1 = p
    · simp [hk] at h
    · simp only [hk, if_false] at h
      rw [if_neg hk]
      exact ih h

theorem lookupMemo_mem {m : List (PipelineId × Nat)} {p : PipelineId} {v : Nat}
    (h : lookupMemo m p = some v) : (p, v) ∈ m := by
  induction m with
  | nil => simp [lookupMemo] at h
  | cons a t ih =>
    obtain ⟨k, w⟩ := a
    rw [lookupMemo_cons] at h
    by_cases hk : k = p
    · simp only [hk, if_true, Option.some_inj] at h
      subst hk
      subst h
      exact List.mem_cons_self _ _
    · simp only [hk, if_false] at h
      exact List.mem_cons_of_mem _ (ih h)

theorem lookupMemo_eq_none_iff {m : List (PipelineId × Nat)} {p : PipelineId} :
    lookupMemo m p = none ↔ p ∉ m.map Prod.fst := by
  induction m with
  | nil => simp [lookupMemo]
  | cons a t ih =>
    obtain ⟨k, w⟩ := a
    rw [lookupMemo_cons]
    by_cases hk : k = p
    · subst hk
      simp
    · rw [if_neg hk, ih]
      simp only [List.map_cons, List.mem_cons]
      constructor
      · intro hnp hor
        rcases hor with h1 | h1
        · exact hk h1.symm
        · exact hnp h1
      · intro hnp h1
        exact hnp (Or.inr h1)

theorem lookupMemo_of_mem_nodup {m : List (PipelineId × Nat)} {p : PipelineId}
    {v : Nat} (hnd : (m.map Prod.fst).Nodup) (h : (p, v) ∈ m) :
    lookupMemo m p = some v := by
  induction m with
  | nil => simp at h
  | cons a t ih =>
    simp only [List.map_cons, List.nodup_cons] at hnd
    unfold lookupMemo
    rcases List.mem_cons.mp h with h1 | h1
    · subst h1; simp
    · by_cases hk : a.1 = p
      · exfalso
        exact hnd.1 (hk ▸ (List.mem_map.mpr ⟨(p, v), h1, rfl⟩))
      · simp [hk]
        exact ih hnd.2 h1

theorem mem_lookupMemo_unique {m : List (PipelineId × Nat)} {p : PipelineId}
    {v w : Nat} (hnd : (m.map Prod.fst).Nodup) (hv : (p, v) ∈ m)
    (hw : (p, w) ∈ m) : v = w := by
  have h1 := lookupMemo_of_mem_nodup hnd hv
  have h2 := lookupMemo_of_mem_nodup hnd hw
  rw [h1] at h2
  exact (Option.some_inj.mp h2)

theorem emplace_of_some {m : List (PipelineId × Nat)} {k : PipelineId} {v0 : Nat}
    (v : Nat) (h : lookupMemo m k = some v0) : emplace m k v = m := by
  unfold emplace
  rw [h]

theorem emplace_of_none {m : List (PipelineId × Nat)} {k : PipelineId}
    (v : Nat) (h : lookupMemo m k = none) : emplace m k v = m ++ [(k, v)] := by
  unfold emplace
  rw [h]

theorem emplace_keys_nodup {m : List (PipelineId × Nat)} {k : PipelineId}
    {v : Nat} (hnd : (m.map Prod.fst).Nodup) :
    (((emplace m k v).map Prod.fst)).Nodup := by
  unfold emplace
  cases h : lookupMemo m k with
  | some w => exact hnd
  | none =>
    rw [List.map_append]
    simp only [List.map_cons, List.map_nil]
    refine List.Nodup.append hnd (List.nodup_singleton _) ?_
    intro a ha hb
    simp at hb
    subst hb
    exact (lookupMemo_eq_none_iff.mp h) ha

theorem updateAt_length {α : Type} (l : List α) (i : Nat) (f : α → α) :
    (updateAt l i f).length = l.length := by
  induction l generalizing i with
  | nil => rfl
  | cons a t ih =>
    cases i with
    | zero => rfl
    | succ j => simp [updateAt, ih]

theorem updateAt_getElem_self {α : Type} (l : List α) (i : Nat) (f : α → α) :
    (updateAt l i f)[i]? = (l[i]?).map f := by
  induction l generalizing i with
  | nil => simp [updateAt]
  | cons a t ih =>
    cases i with
    | zero => simp [updateAt]
    | succ j => simpa [updateAt] using ih j

theorem updateAt_getElem_ne {α : Type} (l : List α) (i j : Nat) (f : α → α)
    (h : j ≠ i) : (updateAt l i f)[j]? = l[j]? := by
  induction l generalizing i j with
  | nil => simp [updateAt]
  | cons a t ih =>
    cases i with
    | zero =>
      cases j with
      | zero => exact absurd rfl h
      | succ j' => simp [updateAt]
    | succ i' =>
      cases j with
      | zero => simp [updateAt]
      | succ j' =>
        simp only [updateAt]
        simpa using ih i' j' (fun hq => h (by omega))

theorem countIds_append (l l' : List ExecutablePipeline) (p : PipelineId) :
    countIds (l ++ l') p = countIds l p + countIds l' p := by
  unfold countIds
  exact List.countP_append _ _ _

theorem countIds_updateAt_of_id (l : List ExecutablePipeline) (i : Nat)
    (f : ExecutablePipeline → ExecutablePipeline)
    (hf : ∀ e, (f e).id = e.id) (p : PipelineId) :
    countIds (updateAt l i f) p = countIds l p := by
  induction l generalizing i with
  | nil => rfl
  | cons a t ih =>
    cases i with
    | zero => simp [updateAt, countIds, List.countP_cons, hf]
    | succ j =>
      have h := ih j
      unfold countIds at h
      simp [updateAt, countIds, List.countP_cons, h]

theorem getElem?_append_l {α : Type} (l l' : List α) (j : Nat)
    (h : j < l.length) : (l ++ l')[j]? = l[j]? := by
  induction l generalizing j with
  | nil => simp at h
  | cons a t ih =>
    cases j with
    | zero => simp
    | succ j' =>
      simp only [List.cons_append, List.getElem?_cons_succ]
      exact ih j' (by simpa using h)

theorem getElem?_snoc_self {α : Type} (l : List α) (e : α) :
    (l ++ [e])[l.length]? = some e := by
  induction l with
  | nil => simp
  | cons a t ih => simp [ih]

theorem updateAt_mem {α : Type} {a : α} {l : List α} {i : Nat} {f : α → α}
    (h : a ∈ updateAt l i f) : a ∈ l ∨ ∃ b, b ∈ l ∧ a = f b := by
  induction l generalizing i with
  | nil => simp [updateAt] at h
  | cons x t ih =>
    cases i with
    | zero =>
      rcases List.mem_cons.mp h with h1 | h1
      · exact Or.inr ⟨x, List.mem_cons_self _ _, h1⟩
      · exact Or.inl (List.mem_cons_of_mem _ h1)
    | succ j =>
      rcases List.mem_cons.mp h with h1 | h1
      · exact Or.inl (h1 ▸ List.mem_cons_self _ _)
      · rcases ih h1 with h2 | ⟨b, hb, hab⟩
        · exact Or.inl (List.mem_cons_of_mem _ h2)
        · exact Or.inr ⟨b, List.mem_cons_of_mem _ hb, hab⟩

theorem ExecExtend_refl (e : ExecutablePipeline) : ExecExtend e e :=
  ⟨rfl, rfl, [], by simp⟩

theorem ExecExtend_trans {e e' e'' : ExecutablePipeline}
    (h1 : ExecExtend e e') (h2 : ExecExtend e' e'') : ExecExtend e e'' := by
  obtain ⟨hi1, hs1, Δ1, hd1⟩ := h1
  obtain ⟨hi2, hs2, Δ2, hd2⟩ := h2
  exact ⟨hi2.trans hi1, hs2.trans hs1, Δ1 ++ Δ2, by rw [hd2, hd1, List.append_assoc]⟩

theorem ExecsExtend_refl (l : List ExecutablePipeline) : ExecsExtend l l :=
  ⟨le_rfl, fun _ e h => ⟨e, h, ExecExtend_refl e⟩⟩

theorem ExecsExtend_trans {l l' l'' : List ExecutablePipeline}
    (h1 : ExecsExtend l l') (h2 : ExecsExtend l' l'') : ExecsExtend l l'' := by
  refine ⟨h1.1.trans h2.1, fun j e h => ?_⟩
  obtain ⟨e', h', he'⟩ := h1.2 j e h
  obtain ⟨e'', h'', he''⟩ := h2.2 j e' h'
  exact ⟨e'', h'', ExecExtend_trans he' he''⟩

theorem StepSpec_refl (ctx : LoweringContext) : StepSpec ctx ctx :=
  ⟨ExecsExtend_refl _, ⟨[], by simp, by simp⟩, le_rfl⟩

theorem StepSpec_trans {ctx ctx' ctx'' : LoweringContext}
    (h1 : StepSpec ctx ctx') (h2 : StepSpec ctx' ctx'') : StepSpec ctx ctx'' := by
  obtain ⟨he1, ⟨Δ1, hm1, hb1⟩, hn1⟩ := h1
  obtain ⟨he2, ⟨Δ2, hm2, hb2⟩, hn2⟩ := h2
  refine ⟨ExecsExtend_trans he1 he2, ⟨Δ1 ++ Δ2, ?_, ?_⟩, hn1.trans hn2⟩
  · rw [hm2, hm1, List.append_assoc]
  · intro pe hpe
    rcases List.mem_append.mp hpe with h | h
    · exact hb1 pe h
    · exact le_trans he1.1 (hb2 pe h)

/-! Small-step lemmas: allocating an executable pipeline, pushing a
successor, recording a sink. -/

theorem alloc_step (ctx : LoweringContext) (e : ExecutablePipeline) :
    StepSpec ctx { ctx with execs := ctx.execs ++ [e] } := by
  refine ⟨⟨by simp, fun j e0 h => ?_⟩, ⟨[], by simp, by simp⟩, le_rfl⟩
  have hj : j < ctx.execs.length := (List.getElem?_eq_some.mp h).1
  exact ⟨e0, by rw [getElem?_append_l _ _ _ hj]; exact h, ExecExtend_refl e0⟩

theorem alloc_inv {E : Env} {ctx : LoweringContext} (hI : Inv E ctx)
    {e : ExecutablePipeline} {i : Nat} {n : Pipeline}
    (hn : E.plan.nodes[i]? = some n) (hid : e.id = n.pid)
    (hns : n.isSinkPipeline = false) (hsu : e.successors = []) :
    Inv E { ctx with execs := ctx.execs ++ [e] } := by
  constructor
  · intro pe hpe
    have := hI.memoValid pe hpe
    simp only [List.length_append, List.length_singleton]
    omega
  · exact hI.memoKeys
  · intro pe hpe hlt
    obtain ⟨e0, h0, hid0⟩ := hI.memoId pe hpe hlt
    have hj : pe.2 < ctx.execs.length := (List.getElem?_eq_some.mp h0).1
    exact ⟨e0, by rw [getElem?_append_l _ _ _ hj]; exact h0, hid0⟩
  · intro e0 he0
    rcases List.mem_append.mp he0 with h | h
    · exact hI.execIds e0 h
    · simp at h
      subst h
      exact ⟨i, n, hn, hid, hns⟩
  · intro e0 he0 j hj
    rcases List.mem_append.mp he0 with h | h
    · have := hI.succValid e0 h j hj
      simp only [List.length_append, List.length_singleton]
      omega
    · simp at h
      subst h
      rw [hsu] at hj
      simp at hj
  · exact hI.nextIdBase
  · exact hI.sinkIds

theorem pushSucc_step (ctx : LoweringContext) (eIdx j : Nat) :
    StepSpec ctx (pushSucc ctx eIdx j) := by
  refine ⟨⟨by simp [pushSucc, updateAt_length], fun j' e0 h => ?_⟩,
    ⟨[], by simp [pushSucc], by simp⟩, le_rfl⟩
  by_cases hj : j' = eIdx
  · subst hj
    refine ⟨{ e0 with successors := e0.successors ++ [j] }, ?_, rfl, rfl, [j], rfl⟩
    show (updateAt ctx.execs j' _)[j']? = _
    rw [updateAt_getElem_self, h]
    rfl
  · refine ⟨e0, ?_, ExecExtend_refl e0⟩
    show (updateAt ctx.execs eIdx _)[j']? = _
    rw [updateAt_getElem_ne _ _ _ _ hj]
    exact h

theorem pushSucc_inv {E : Env} {ctx : LoweringContext} (hI : Inv E ctx)
    (eIdx : Nat) {j : Nat} (hj : j < ctx.execs.length) :
    Inv E (pushSucc ctx eIdx j) := by
  have hlen : (pushSucc ctx eIdx j).execs.length = ctx.execs.length := by
    simp [pushSucc, updateAt_length]
  constructor
  · intro pe hpe
    rw [hlen]
    exact hI.memoValid pe hpe
  · exact hI.memoKeys
  · intro pe hpe hlt
    obtain ⟨e0, h0, hid0⟩ := hI.memoId pe hpe hlt
    by_cases hc : pe.2 = eIdx
    · subst hc
      refine ⟨{ e0 with successors := e0.successors ++ [j] }, ?_, hid0⟩
      show (updateAt ctx.execs pe.2 _)[pe.2]? = _
      rw [updateAt_getElem_self, h0]
      rfl
    · refine ⟨e0, ?_, hid0⟩
      show (updateAt ctx.execs eIdx _)[pe.2]? = _
      rw [updateAt_getElem_ne _ _ _ _ hc]
      exact h0
  · intro e0 he0
    rcases updateAt_mem he0 with h | ⟨b, hb, hab⟩
    · exact hI.execIds e0 h
    · obtain ⟨i, n, hn, hid, hns⟩ := hI.execIds b hb
      exact ⟨i, n, hn, by rw [hab]; exact hid, hns⟩
  · intro e0 he0 j' hj'
    rw [hlen]
    rcases updateAt_mem he0 with h | ⟨b, hb, hab⟩
    · exact hI.succValid e0 h j' hj'
    · subst hab
      simp only at hj'
      rcases List.mem_append.mp hj' with h2 | h2
      · exact hI.succValid b hb j' h2
      · simp at h2
        subst h2
        exact hj
  · exact hI.nextIdBase
  · exact hI.sinkIds

theorem appendPred_id_desc (l : List SinkRecord) (p : PipelineId)
    (pred : Predecessor) :
    (appendPred l p pred).map (fun r => (r.id, r.descriptor)) =
      l.map (fun r => (r.id, r.descriptor)) := by
  induction l with
  | nil => rfl
  | cons r t ih =>
    by_cases hr : r.id = p
    · simp [appendPred, hr]
    · simp [appendPred, hr, ih]

theorem appendPred_ids (l : List SinkRecord) (p : PipelineId)
    (pred : Predecessor) :
    (appendPred l p pred).map (fun r => r.id) = l.map (fun r => r.id) := by
  induction l with
  | nil => rfl
  | cons r t ih =>
    by_cases hr : r.id = p
    · simp [appendPred, hr]
    · simp [appendPred, hr, ih]

theorem sinks_any_iff (l : List SinkRecord) (p : PipelineId) :
    (l.any (fun r => r.id == p)) = true ↔ p ∈ l.map (fun r => r.id) := by
  rw [List.any_eq_true]
  constructor
  · rintro ⟨r, hr, he⟩
    exact List.mem_map.mpr ⟨r, hr, by simpa using he⟩
  · intro h
    obtain ⟨r, hr, he⟩ := List.mem_map.mp h
    exact ⟨r, hr, by simpa using he⟩

theorem processSink_step (pred : Predecessor) (pid : PipelineId) (d : String)
    (ctx : LoweringContext) : StepSpec ctx (processSink pred pid d ctx) :=
  ⟨ExecsExtend_refl _, ⟨[], by simp [processSink], by simp⟩, le_rfl⟩

theorem processSink_inv {E : Env} {ctx : LoweringContext} (hI : Inv E ctx)
    (pred : Predecessor) (pid : PipelineId) (d : String) :
    Inv E (processSink pred pid d ctx) := by
  refine ⟨hI.memoValid, hI.memoKeys, hI.memoId, hI.execIds, hI.succValid,
    hI.nextIdBase, ?_⟩
  show ((appendPred _ pid pred).map (fun r => r.id)).Nodup
  rw [appendPred_ids]
  by_cases hc : ctx.sinks.any (fun r => r.id == pid)
  · simpa [hc] using hI.sinkIds
  · simp only [hc, if_false, Bool.false_eq_true]
    rw [List.map_append]
    refine List.Nodup.append hI.sinkIds (by simp) ?_
    intro a ha hb
    simp at hb
    subst hb
    exact (fun hmem => hc ((sinks_any_iff _ _).mpr hmem)) ha

/-! The basic preservation induction over fuel. -/

theorem famA : ∀ fuel : Nat, PSafeA fuel ∧ POpA fuel ∧ PWalkA fuel ∧ PCollA fuel := by
  intro fuel
  induction fuel with
  | zero =>
    refine ⟨?_, ?_, ?_, ?_⟩
    · intro E pred sIdx ctx r ctx' _ h
      simp [processSuccessor] at h
    · intro E sIdx ctx e ctx' _ _ h
      simp [processOperatorPipeline] at h
    · intro E eIdx ss ctx ctx' _ h
      simp [walkSuccessors] at h
    · intro E pred ss ctx l ctx' hI h
      cases ss with
      | nil =>
        simp only [collectSuccessors] at h
        cases h
        exact ⟨hI, StepSpec_refl _, by simp⟩
      | cons s rest =>
        simp [collectSuccessors, processSuccessor] at h
  | succ f ih =>
    obtain ⟨ihS, ihO, ihW, ihC⟩ := ih
    have hOp : POpA (f + 1) := by
      intro E sIdx ctx e ctx' hI hex h
      obtain ⟨n, hn, hroot⟩ := hex
      rw [processOperatorPipeline] at h
      simp only [hn] at h
      cases hlk : lookupMemo ctx.memo n.pid with
      | some e0 =>
        simp only [hlk] at h
        cases h
        exact ⟨hI, StepSpec_refl _,
          hI.memoValid _ (lookupMemo_mem hlk)⟩
      | none =>
        simp only [hlk] at h
        cases hst : getStage E.plan.executionMode E.dumpMode sIdx with
        | error err =>
          simp only [hst] at h
          cases h
        | ok stage =>
          simp only [hst] at h
          set eIdx := ctx.execs.length with heIdx
          set newExec : ExecutablePipeline :=
            { id := n.pid, stage := stage, successors := [] } with hnew
          set ctx1 : LoweringContext :=
            { ctx with execs := ctx.execs ++ [newExec] } with hctx1
          cases hw : walkSuccessors E f eIdx n.succs ctx1 with
          | error err =>
            simp only [hw] at h
            cases h
          | ok ctx2 =>
            simp only [hw] at h
            injection h with h1
            injection h1 with he hc
            subst he
            subst hc
            have hI1 : Inv E ctx1 :=
              alloc_inv hI hn rfl (by simp [Pipeline.isSinkPipeline, hroot]) rfl
            obtain ⟨hI2, hS2⟩ := ihW E eIdx n.succs ctx1 ctx2 hI1 hw
            obtain ⟨hee, ⟨Δw, hmw, hbw⟩, hni⟩ := hS2
            have hlen1 : ctx1.execs.length = eIdx + 1 := by
              simp [hctx1, heIdx]
            have hlt2 : eIdx < ctx2.execs.length := by
              have := hee.1
              omega
            have hm2 : ctx2.memo = ctx.memo ++ Δw := by
              simpa [hctx1] using hmw
            constructor
            · constructor
              · intro pe hpe
                unfold emplace at hpe
                cases hlk2 : lookupMemo ctx2.memo n.pid with
                | some v =>
                  rw [hlk2] at hpe
                  exact hI2.memoValid pe hpe
                | none =>
                  rw [hlk2] at hpe
                  rcases List.mem_append.mp hpe with h1 | h1
                  · exact hI2.memoValid pe h1
                  · simp at h1
                    subst h1
                    exact hlt2
              · exact emplace_keys_nodup hI2.memoKeys
              · intro pe hpe hltb
                unfold emplace at hpe
                cases hlk2 : lookupMemo ctx2.memo n.pid with
                | some v =>
                  rw [hlk2] at hpe
                  exact hI2.memoId pe hpe hltb
                | none =>
                  rw [hlk2] at hpe
                  rcases List.mem_append.mp hpe with h1 | h1
                  · exact hI2.memoId pe h1 hltb
                  · simp at h1
                    subst h1
                    have h1e : ctx1.execs[eIdx]? = some newExec := by
                      simp only [hctx1]
                      exact getElem?_snoc_self ctx.execs newExec
                    obtain ⟨e', he', hid', _, _⟩ := hee.2 eIdx newExec h1e
                    exact ⟨e', he', by rw [hid']⟩
              · exact hI2.execIds
              · exact hI2.succValid
              · exact hI2.nextIdBase
              · exact hI2.sinkIds
            constructor
            · refine ⟨ExecsExtend_trans (alloc_step ctx newExec).1 hee, ?_, hni⟩
              unfold emplace
              cases hlk2 : lookupMemo ctx2.memo n.pid with
              | some v =>
                refine ⟨Δw, by simpa using hm2, ?_⟩
                intro pe hpe
                have := hbw pe hpe
                rw [hlen1] at this
                omega
              | none =>
                refine ⟨Δw ++ [(n.pid, eIdx)], by simp [hm2], ?_⟩
                intro pe hpe
                rcases List.mem_append.mp hpe with h1 | h1
                · have := hbw pe h1
                  rw [hlen1] at this
                  omega
                · simp at h1
                  subst h1
                  omega
            · exact hlt2
    have hSf : PSafeA (f + 1) := by
      intro E pred sIdx ctx r ctx' hI h
      rw [processSuccessor] at h
      cases hn : E.plan.nodes[sIdx]? with
      | none =>
        simp only [hn] at h
        cases h
      | some n =>
        simp only [hn] at h
        cases hroot : n.root with
        | sink d =>
          simp only [hroot] at h
          cases h
          exact ⟨processSink_inv hI pred n.pid d,
            processSink_step pred n.pid d ctx, by simp⟩
        | op =>
          simp only [hroot] at h
          cases hop : processOperatorPipeline E f sIdx ctx with
          | error err =>
            simp only [hop] at h
            cases h
          | ok pr =>
            obtain ⟨j, ctx''⟩ := pr
            simp only [hop] at h
            cases h
            obtain ⟨hI', hS', hlt'⟩ :=
              ihO E sIdx ctx j _ hI ⟨n, hn, hroot⟩ hop
            exact ⟨hI', hS', fun j0 hj0 => by cases hj0; exact hlt'⟩
        | source srcOp =>
          simp only [hroot] at h
          cases h
    have hW : PWalkA (f + 1) := by
      intro E eIdx ss ctx ctx' hI h
      cases ss with
      | nil =>
        rw [walkSuccessors] at h
        cases h
        exact ⟨hI, StepSpec_refl _⟩
      | cons s rest =>
        rw [walkSuccessors] at h
        cases hps : processSuccessor E f (.exec eIdx) s ctx with
        | error err =>
          simp only [hps] at h
          cases h
        | ok pr =>
          obtain ⟨r, ctxm⟩ := pr
          obtain ⟨hIm, hSm, hjm⟩ := ihS E _ s ctx r ctxm hI hps
          cases r with
          | some j =>
            simp only [hps] at h
            have hIp : Inv E (pushSucc ctxm eIdx j) :=
              pushSucc_inv hIm eIdx (hjm j rfl)
            obtain ⟨hI', hS'⟩ := ihW E eIdx rest (pushSucc ctxm eIdx j) ctx' hIp h
            exact ⟨hI', StepSpec_trans (StepSpec_trans hSm (pushSucc_step ctxm eIdx j)) hS'⟩
          | none =>
            simp only [hps] at h
            obtain ⟨hI', hS'⟩ := ihW E eIdx rest ctxm ctx' hIm h
            exact ⟨hI', StepSpec_trans hSm hS'⟩
    have hC : PCollA (f + 1) := by
      intro E pred ss
      induction ss with
      | nil =>
        intro ctx l ctx' hI h
        simp only [collectSuccessors] at h
        cases h
        exact ⟨hI, StepSpec_refl _, by simp⟩
      | cons s rest ihrest =>
        intro ctx l ctx' hI h
        rw [collectSuccessors] at h
        cases hps : processSuccessor E (f + 1) pred s ctx with
        | error err =>
          simp only [hps] at h
          cases h
        | ok pr =>
          obtain ⟨r, ctxm⟩ := pr
          simp only [hps] at h
          obtain ⟨hIm, hSm, hjm⟩ := hSf E pred s ctx r ctxm hI hps
          cases hcl : collectSuccessors E (f + 1) pred rest ctxm with
          | error err =>
            simp only [hcl] at h
            cases h
          | ok pr2 =>
            obtain ⟨l2, ctx2⟩ := pr2
            simp only [hcl] at h
            cases h
            obtain ⟨hI2, hS2, hl2⟩ := ihrest ctxm l2 _ hIm hcl
            refine ⟨hI2, StepSpec_trans hSm hS2, ?_⟩
            intro j0 hj0
            rcases List.mem_append.mp hj0 with h1 | h1
            · cases r with
              | some j =>
                simp at h1
                subst h1
                exact lt_of_lt_of_le (hjm j0 rfl) hS2.1.1
              | none => simp at h1
            · exact hl2 j0 h1
    exact ⟨hSf, hOp, hW, hC⟩

/-! Preservation corollaries for the source-side functions and the driver. -/

theorem setSuccs_inv {E : Env} {ctx : LoweringContext} (hI : Inv E ctx)
    (eIdx : Nat) {l : List Nat} (hl : ∀ j ∈ l, j < ctx.execs.length) :
    Inv E { ctx with execs := updateAt ctx.execs eIdx (fun ep => { ep with successors := l }) } := by
  have hlen : (updateAt ctx.execs eIdx
      (fun ep => { ep with successors := l })).length = ctx.execs.length :=
    updateAt_length _ _ _
  constructor
  · intro pe hpe
    rw [hlen]
    exact hI.memoValid pe hpe
  · exact hI.memoKeys
  · intro pe hpe hlt
    obtain ⟨e0, h0, hid0⟩ := hI.memoId pe hpe hlt
    by_cases hc : pe.2 = eIdx
    · subst hc
      refine ⟨{ e0 with successors := l }, ?_, hid0⟩
      show (updateAt ctx.execs pe.2 _)[pe.2]? = _
      rw [updateAt_getElem_self, h0]
      rfl
    · refine ⟨e0, ?_, hid0⟩
      show (updateAt ctx.execs eIdx _)[pe.2]? = _
      rw [updateAt_getElem_ne _ _ _ _ hc]
      exact h0
  · intro e0 he0
    rcases updateAt_mem he0 with h | ⟨b, hb, hab⟩
    · exact hI.execIds e0 h
    · obtain ⟨i, n, hn, hid, hns⟩ := hI.execIds b hb
      exact ⟨i, n, hn, by rw [hab]; exact hid, hns⟩
  · intro e0 he0 j' hj'
    rw [hlen]
    rcases updateAt_mem he0 with h | ⟨b, hb, hab⟩
    · exact hI.succValid e0 h j' hj'
    · subst hab
      exact hl j' hj'
  · exact hI.nextIdBase
  · exact hI.sinkIds

theorem injectFormatter_basic {E : Env} {fuel : Nat} {n : Pipeline}
    {srcOp : SourceOp} {ctx : LoweringContext} {l : List Nat}
    {ctx' : LoweringContext} (hI : Inv E ctx) {i : Nat}
    (hn : E.plan.nodes[i]? = some n) (hns : n.isSinkPipeline = false)
    (h : injectFormatter E fuel n srcOp ctx = .ok (l, ctx')) :
    Inv E ctx' ∧ StepSpec ctx ctx' ∧ ∀ j ∈ l, j < ctx'.execs.length := by
  rw [injectFormatter] at h
  by_cases hraw :
      toLowerCase srcOp.descriptor.parserConfig.parserType = "raw"
  · rw [if_pos hraw] at h
    exact (famA fuel).2.2.2 E _ n.succs ctx l ctx' hI h
  · rw [if_neg hraw] at h
    simp only at h
    set eIdx := ctx.execs.length with heIdx
    set newExec : ExecutablePipeline :=
      { id := n.pid
        stage := Stage.formatterTask (some srcOp.originId)
          srcOp.descriptor.parserConfig.parserType srcOp.descriptor.schema
          srcOp.descriptor.parserConfig.tupleDelimiter
          srcOp.descriptor.parserConfig.fieldDelimiter
        successors := [] } with hnew
    set ctx1 : LoweringContext :=
      { ctx with execs := ctx.execs ++ [newExec] } with hctx1
    cases hcl : collectSuccessors E fuel (.exec eIdx) n.succs ctx1 with
    | error err =>
      rw [hcl] at h
      cases h
    | ok pr =>
      obtain ⟨l2, ctx2⟩ := pr
      rw [hcl] at h
      simp only at h
      injection h with h1
      injection h1 with hl hc
      subst hl
      subst hc
      have hI1 : Inv E ctx1 := alloc_inv hI hn rfl hns rfl
      obtain ⟨hI2, hS2, hl2⟩ := (famA fuel).2.2.2 E _ n.succs ctx1 l2 ctx2 hI1 hcl
      obtain ⟨hee, ⟨Δc, hmc, hbc⟩, hni⟩ := hS2
      have hlen1 : ctx1.execs.length = eIdx + 1 := by
        simp [hctx1, heIdx]
      have hlt2 : eIdx < ctx2.execs.length := by
        have := hee.1
        omega
      have hm2 : ctx2.memo = ctx.memo ++ Δc := by
        simpa [hctx1] using hmc
      set ctx3 : LoweringContext := { ctx2 with execs := updateAt ctx2.execs eIdx (fun ep => { ep with successors := l2 }) } with hctx3
      have hI3 : Inv E ctx3 := setSuccs_inv hI2 eIdx hl2
      have hlen3 : ctx3.execs.length = ctx2.execs.length := by
        simp [hctx3, updateAt_length]
      have hid3 : ∃ e3 : ExecutablePipeline,
          ctx3.execs[eIdx]? = some e3 ∧ e3.id = n.pid := by
        have h1e : ctx1.execs[eIdx]? = some newExec := by
          simp only [hctx1]
          exact getElem?_snoc_self ctx.execs newExec
        obtain ⟨e', he', hid', _, _⟩ := hee.2 eIdx newExec h1e
        refine ⟨{ e' with successors := l2 }, ?_, by simp [hid']⟩
        show (updateAt ctx2.execs eIdx _)[eIdx]? = _
        rw [updateAt_getElem_self, he']
        rfl
      refine ⟨?_, ?_, ?_⟩
      · constructor
        · intro pe hpe
          rw [hlen3]
          unfold emplace at hpe
          cases hlk2 : lookupMemo ctx3.memo n.pid with
          | some v =>
            rw [hlk2] at hpe
            have := hI3.memoValid pe hpe
            omega
          | none =>
            rw [hlk2] at hpe
            rcases List.mem_append.mp hpe with h1 | h1
            · have := hI3.memoValid pe h1
              omega
            · simp at h1
              subst h1
              exact hlt2
        · exact emplace_keys_nodup hI3.memoKeys
        · intro pe hpe hltb
          unfold emplace at hpe
          cases hlk2 : lookupMemo ctx3.memo n.pid with
          | some v =>
            rw [hlk2] at hpe
            exact hI3.memoId pe hpe hltb
          | none =>
            rw [hlk2] at hpe
            rcases List.mem_append.mp hpe with h1 | h1
            · exact hI3.memoId pe h1 hltb
            · simp at h1
              subst h1
              exact hid3
        · exact hI3.execIds
        · intro e0 he0 j hj
          rw [hlen3]
          have := hI3.succValid e0 he0 j hj
          omega
        · exact hI3.nextIdBase
        · exact hI3.sinkIds
      · refine ⟨?_, ?_, hni⟩
        · refine ⟨?_, ?_⟩
          · have := hee.1
            rw [hlen3]
            simp only [heIdx] at hlt2 ⊢
            omega
          · intro j e0 h0
            have hj : j < ctx.execs.length := (List.getElem?_eq_some.mp h0).1
            have hj1 : ctx1.execs[j]? = some e0 := by
              simp only [hctx1]
              rw [getElem?_append_l _ _ _ hj]
              exact h0
            obtain ⟨e', he', hex'⟩ := hee.2 j e0 hj1
            refine ⟨e', ?_, hex'⟩
            show (updateAt ctx2.execs eIdx _)[j]? = _
            rw [updateAt_getElem_ne _ _ _ _ (by omega : j ≠ eIdx)]
            exact he'
        · unfold emplace
          cases hlk2 : lookupMemo ctx3.memo n.pid with
          | some v =>
            refine ⟨Δc, by simp [hctx3, hm2], ?_⟩
            intro pe hpe
            have := hbc pe hpe
            rw [hlen1] at this
            omega
          | none =>
            refine ⟨Δc ++ [(n.pid, eIdx)], by simp [hctx3, hm2], ?_⟩
            intro pe hpe
            rcases List.mem_append.mp hpe with h1 | h1
            · have := hbc pe h1
              rw [hlen1] at this
              omega
            · simp at h1
              subst h1
              omega
      · intro j hj
        simp at hj
        subst hj
        rw [hlen3]
        exact hlt2

theorem processSource_basic {E : Env} {fuel sIdx : Nat}
    {ctx ctx' : LoweringContext} (hI : Inv E ctx)
    (h : processSource E fuel sIdx ctx = .ok ctx') :
    Inv E ctx' ∧ StepSpec ctx ctx' := by
  rw [processSource] at h
  cases hn : E.plan.nodes[sIdx]? with
  | none =>
    simp only [hn] at h
    cases h
  | some n =>
    simp only [hn] at h
    cases hroot : n.root with
    | sink d =>
      simp only [hroot] at h
      cases h
    | op =>
      simp only [hroot] at h
      cases h
    | source srcOp =>
      simp only [hroot] at h
      set eIdx := ctx.execs.length with heIdx
      set newExec : ExecutablePipeline :=
        { id := n.pid
          stage := provideInputFormatterTask srcOp.descriptor.schema
            srcOp.descriptor.parserConfig
          successors := [] } with hnew
      set ctx1 : LoweringContext :=
        { ctx with execs := ctx.execs ++ [newExec] } with hctx1
      cases hw : walkSuccessors E fuel eIdx n.succs ctx1 with
      | error err =>
        rw [hw] at h
        cases h
      | ok ctx2 =>
        rw [hw] at h
        simp only at h
        have hns : n.isSinkPipeline = false := by
          simp [Pipeline.isSinkPipeline, hroot]
        have hI1 : Inv E ctx1 := alloc_inv hI hn rfl hns rfl
        obtain ⟨hI2, hS2⟩ := (famA fuel).2.2.1 E eIdx n.succs ctx1 ctx2 hI1 hw
        obtain ⟨hee, ⟨Δw, hmw, hbw⟩, hni⟩ := hS2
        have hlen1 : ctx1.execs.length = eIdx + 1 := by
          simp [hctx1, heIdx]
        have hlt2 : eIdx < ctx2.execs.length := by
          have := hee.1
          omega
        have hm2 : ctx2.memo = ctx.memo ++ Δw := by
          simpa [hctx1] using hmw
        set ctx5 : LoweringContext :=
          { ctx2 with
            planPipelines := ctx2.planPipelines.filter (fun j => j != sIdx)
            memo := emplace ctx2.memo ctx2.nextId eIdx
            nextId := ctx2.nextId + 1
            sources := ctx2.sources ++
              [{ originId := srcOp.originId, descriptor := srcOp.descriptor
                 successors := [eIdx] }] } with hctx5
        have hbase2 : E.plan.freshBase ≤ ctx2.nextId := hI2.nextIdBase
        have hI5 : Inv E ctx5 := by
          constructor
          · intro pe hpe
            show pe.2 < ctx2.execs.length
            have : pe ∈ emplace ctx2.memo ctx2.nextId eIdx := hpe
            unfold emplace at this
            cases hlk2 : lookupMemo ctx2.memo ctx2.nextId with
            | some v =>
              rw [hlk2] at this
              exact hI2.memoValid pe this
            | none =>
              rw [hlk2] at this
              rcases List.mem_append.mp this with h1 | h1
              · exact hI2.memoValid pe h1
              · simp at h1
                subst h1
                exact hlt2
          · exact emplace_keys_nodup hI2.memoKeys
          · intro pe hpe hltb
            have : pe ∈ emplace ctx2.memo ctx2.nextId eIdx := hpe
            unfold emplace at this
            cases hlk2 : lookupMemo ctx2.memo ctx2.nextId with
            | some v =>
              rw [hlk2] at this
              exact hI2.memoId pe this hltb
            | none =>
              rw [hlk2] at this
              rcases List.mem_append.mp this with h1 | h1
              · exact hI2.memoId pe h1 hltb
              · exfalso
                simp at h1
                have hx : ctx2.nextId < E.plan.freshBase := by
                  have h2 := hltb
                  rw [h1] at h2
                  exact h2
                omega
          · exact hI2.execIds
          · exact hI2.succValid
          · show E.plan.freshBase ≤ ctx2.nextId + 1
            omega
          · exact hI2.sinkIds
        cases hif : injectFormatter E fuel n srcOp ctx5 with
        | error err =>
          rw [hif] at h
          cases h
        | ok pr =>
          obtain ⟨l, ctx6⟩ := pr
          rw [hif] at h
          simp only at h
          cases h
          obtain ⟨hI6, hS6, _⟩ := injectFormatter_basic hI5 hn hns hif
          obtain ⟨hee6, ⟨Δ6, hm6, hb6⟩, hni6⟩ := hS6
          constructor
          · exact { memoValid := hI6.memoValid, memoKeys := hI6.memoKeys
                    memoId := hI6.memoId, execIds := hI6.execIds
                    succValid := hI6.succValid, nextIdBase := hI6.nextIdBase
                    sinkIds := hI6.sinkIds }
          · refine ⟨?_, ?_, ?_⟩
            · exact ExecsExtend_trans (ExecsExtend_trans (alloc_step ctx newExec).1 hee) hee6
            · have hm5 : ctx5.memo = emplace ctx2.memo ctx2.nextId eIdx := rfl
              unfold emplace at hm5
              cases hlk2 : lookupMemo ctx2.memo ctx2.nextId with
              | some v =>
                rw [hlk2] at hm5
                refine ⟨Δw ++ Δ6, ?_, ?_⟩
                · show ctx6.memo = ctx.memo ++ (Δw ++ Δ6)
                  rw [hm6, hm5, hm2, List.append_assoc]
                · intro pe hpe
                  rcases List.mem_append.mp hpe with h1 | h1
                  · have := hbw pe h1
                    rw [hlen1] at this
                    omega
                  · have := hb6 pe h1
                    have h5 : ctx5.execs.length = ctx2.execs.length := rfl
                    omega
              | none =>
                rw [hlk2] at hm5
                refine ⟨Δw ++ [(ctx2.nextId, eIdx)] ++ Δ6, ?_, ?_⟩
                · show ctx6.memo = ctx.memo ++ (Δw ++ [(ctx2.nextId, eIdx)] ++ Δ6)
                  rw [hm6, hm5, hm2]
                  simp [List.append_assoc]
                · intro pe hpe
                  rcases List.mem_append.mp hpe with h1 | h1
                  · rcases List.mem_append.mp h1 with h2 | h2
                    · have := hbw pe h2
                      rw [hlen1] at this
                      omega
                    · simp at h2
                      subst h2
                      omega
                  · have := hb6 pe h1
                    have h5 : ctx5.execs.length = ctx2.execs.length := rfl
                    omega
            · show ctx.nextId ≤ ctx6.nextId
              have h5 : ctx5.nextId = ctx2.nextId + 1 := rfl
              have h1n : ctx1.nextId = ctx.nextId := rfl
              omega

theorem processSources_basic {E : Env} {fuel : Nat} :
    ∀ {ss : List Nat} {ctx ctx' : LoweringContext}, Inv E ctx →
    processSources E fuel ss ctx = .ok ctx' →
    Inv E ctx' ∧ StepSpec ctx ctx' := by
  intro ss
  induction ss with
  | nil =>
    intro ctx ctx' hI h
    simp only [processSources] at h
    cases h
    exact ⟨hI, StepSpec_refl _⟩
  | cons s rest ih =>
    intro ctx ctx' hI h
    rw [processSources] at h
    cases hps : processSource E fuel s ctx with
    | error err =>
      rw [hps] at h
      cases h
    | ok ctxm =>
      rw [hps] at h
      obtain ⟨hIm, hSm⟩ := processSource_basic hI hps
      obtain ⟨hI', hS'⟩ := ih hIm h
      exact ⟨hI', StepSpec_trans hSm hS'⟩

theorem initialContext_inv (E : Env) : Inv E (initialContext E) := by
  constructor <;> simp [initialContext]

theorem lower_basic {E : Env} {fuel : Nat} {cqp : CompiledQueryPlan}
    {ctxF : LoweringContext} (h : lower E fuel = .ok (cqp, ctxF)) :
    Inv E ctxF ∧ cqp.sinks = ctxF.sinks ∧ cqp.sources = ctxF.sources ∧
      cqp.pipelines = ctxF.memo.map (fun pe => pe.2) := by
  rw [lower] at h
  cases hps : processSources E fuel (getSourcePipelines E) (initialContext E) with
  | error err =>
    rw [hps] at h
    cases h
  | ok ctx =>
    rw [hps] at h
    simp only at h
    injection h with h1
    injection h1 with hc hctx
    subst hctx
    subst hc
    obtain ⟨hI, _⟩ := processSources_basic (initialContext_inv E) hps
    exact ⟨hI, rfl, rfl, rfl⟩

/-! Characterization lemmas for `processSink`. -/

theorem appendPred_no_match {l : List SinkRecord} {p : PipelineId}
    (pred : Predecessor) (h : ∀ r ∈ l, r.id ≠ p) : appendPred l p pred = l := by
  induction l with
  | nil => rfl
  | cons r t ih =>
    have hr : r.id ≠ p := h r (List.mem_cons_self _ _)
    simp only [appendPred, if_neg hr]
    rw [ih (fun r' hr' => h r' (List.mem_cons_of_mem _ hr'))]

theorem appendPred_append_first {l1 : List SinkRecord} {r : SinkRecord}
    (l2 : List SinkRecord) {p : PipelineId} (pred : Predecessor)
    (h1 : ∀ r' ∈ l1, r'.id ≠ p) (hr : r.id = p) :
    appendPred (l1 ++ r :: l2) p pred =
      l1 ++ { r with predecessor := r.predecessor ++ [pred] } :: l2 := by
  induction l1 with
  | nil => simp [appendPred, hr]
  | cons a t ih =>
    have ha : a.id ≠ p := h1 a (List.mem_cons_self _ _)
    simp only [List.cons_append, appendPred, if_neg ha, List.append_eq]
    rw [ih (fun r' hr' => h1 r' (List.mem_cons_of_mem _ hr'))]

theorem sinks_any_eq_false {l : List SinkRecord} {p : PipelineId} :
    (l.any (fun r => r.id == p)) = false ↔ ∀ r ∈ l, r.id ≠ p := by
  rw [List.any_eq_false]
  constructor
  · intro h r hr
    have := h r hr
    simpa using this
  · intro h r hr
    simpa using h r hr

/-! Claim theorems. -/

/-- C7: stage-option resolution depends only on the execution mode and dump
mode: Compiler enables compilation, Interpreter disables it, dump mode NONE
disables every dump output, FILE_AND_CONSOLE enables both console and file
dump, any other execution mode aborts with an invariant violation, and
multithreaded MLIR code generation is disabled in every resolved option
set. -/
theorem c7_option_resolution :
    (∀ d : DumpMode, (resolveOptions .COMPILER d).toOption.map
      (fun o => (o.engineCompilation, o.mlirEnableMultithreading)) =
        some (true, false)) ∧
    (∀ d : DumpMode, (resolveOptions .INTERPRETER d).toOption.map
      (fun o => (o.engineCompilation, o.mlirEnableMultithreading)) =
        some (false, false)) ∧
    (∀ d : DumpMode, resolveOptions .OTHER d = .error .invariantViolation) ∧
    ((resolveOptions .COMPILER .NONE).toOption.map
      (fun o => (o.dumpAll, o.dumpConsole, o.dumpFile)) =
        some (false, false, false)) ∧
    ((resolveOptions .INTERPRETER .NONE).toOption.map
      (fun o => (o.dumpAll, o.dumpConsole, o.dumpFile)) =
        some (false, false, false)) ∧
    ((resolveOptions .COMPILER .FILE_AND_CONSOLE).toOption.map
      (fun o => (o.dumpConsole, o.dumpFile)) = some (true, true)) ∧
    ((resolveOptions .INTERPRETER .FILE_AND_CONSOLE).toOption.map
      (fun o => (o.dumpConsole, o.dumpFile)) = some (true, true)) ∧
    (∀ (d : DumpMode) (i : Nat), getStage .OTHER d i =
      .error .invariantViolation) := by
  refine ⟨?_, ?_, ?_, rfl, rfl, rfl, rfl, ?_⟩
  · intro d
    cases d <;> rfl
  · intro d
    cases d <;> rfl
  · intro d
    rfl
  · intro d i
    rfl

/-- C8 (counterexample): the plan `envC8` reaches sink pipeline id 5 twice
with the differing descriptors "a" and "b", yet lowering completes normally
and keeps only the first descriptor. -/
theorem c8_counterexample :
    (envC8.plan.nodes[3]?).map (fun n => (n.pid, n.root)) =
      some (5, RootOp.sink "a") ∧
    (envC8.plan.nodes[4]?).map (fun n => (n.pid, n.root)) =
      some (5, RootOp.sink "b") ∧
    (lower envC8 20).toOption.map
      (fun r => r.1.sinks.map (fun s => (s.id, s.descriptor))) =
        some [(5, "a")] := by
  refine ⟨rfl, rfl, ?_⟩
  simp [lower, processSources, getSourcePipelines, initialContext, processSource,
    injectFormatter, collectSuccessors, walkSuccessors, processSuccessor,
    processOperatorPipeline, processSink, toLowerCase, emplace, lookupMemo,
    appendPred, pushSucc, updateAt, getStage, resolveOptions,
    provideInputFormatterTask, envC8, Pipeline.isSourcePipeline,
    Pipeline.isSinkPipeline, Pipeline.isOperatorPipeline,
    PipelinedQueryPlan.freshBase, Except.toOption]

/-- C8 (amended): reaching a sink pipeline id that already has a record is
not detected as an inconsistency: the first record (with the first
descriptor) is reused, the later predecessor is appended to it, the new
descriptor is dropped and no abort occurs. -/
theorem c8_inconsistent_descriptor_kept
    {pred : Predecessor} {pid : PipelineId} {d : String}
    {ctx : LoweringContext} {l1 l2 : List SinkRecord} {r : SinkRecord}
    (hs : ctx.sinks = l1 ++ r :: l2) (h1 : ∀ r' ∈ l1, r'.id ≠ pid)
    (hr : r.id = pid) :
    (processSink pred pid d ctx).sinks =
      l1 ++ { r with predecessor := r.predecessor ++ [pred] } :: l2 := by
  have hany : (ctx.sinks.any (fun x => x.id == pid)) = true := by
    rw [sinks_any_iff]
    rw [hs]
    exact List.mem_map.mpr ⟨r, by simp, hr⟩
  have hstep : (processSink pred pid d ctx).sinks = appendPred ctx.sinks pid pred := by
    simp only [processSink]
    rw [if_pos hany]
  rw [hstep, hs]
  exact appendPred_append_first l2 pred h1 hr

/-- Witness for the amended C8 theorem at a concrete state. -/
theorem c8_inconsistent_descriptor_kept_witness :
    (processSink (.origin 1) 5 "b"
      { execs := [], memo := [],
        sinks := [{ id := 5, descriptor := "a", predecessor := [] }],
        sources := [], planPipelines := [], nextId := 0 }).sinks =
      [{ id := 5, descriptor := "a", predecessor := [Predecessor.origin 1] }] :=
  @c8_inconsistent_descriptor_kept (.origin 1) 5 "b"
    { execs := [], memo := [], sinks := [{ id := 5, descriptor := "a", predecessor := [] }], sources := [], planPipelines := [], nextId := 0 }
    [] []
    { id := 5, descriptor := "a", predecessor := [] }
    rfl (by simp) rfl

/-- C9 (counterexample): under the unrecognized execution mode `OTHER`, the
plan `envC9` (a raw source feeding a sink, so no operator stage is ever
built) is lowered successfully instead of aborting. -/
theorem c9_counterexample :
    envC9.plan.executionMode = ExecutionMode.OTHER ∧
    (lower envC9 10).isOk = true := by
  refine ⟨rfl, ?_⟩
  simp [lower, processSources, getSourcePipelines, initialContext, processSource,
    injectFormatter, collectSuccessors, walkSuccessors, processSuccessor,
    processOperatorPipeline, processSink, toLowerCase, emplace, lookupMemo,
    appendPred, pushSucc, updateAt, getStage, resolveOptions,
    provideInputFormatterTask, envC9, Pipeline.isSourcePipeline,
    Pipeline.isSinkPipeline, Pipeline.isOperatorPipeline,
    PipelinedQueryPlan.freshBase, Except.isOk, Except.toBool]

/-- C9 (amended): a successor pipeline that classifies as neither Operator
nor Sink always aborts `processSuccessor` with a precondition failure, and
an unrecognized execution mode aborts `getStage` (the stage construction
for operator pipelines) with an invariant violation; but the mode is only
consulted when an operator stage is built, so a plan without operator
pipelines lowers successfully under an invalid mode. -/
theorem c9_classification_and_mode_abort :
    (∀ (E : Env) (fuel : Nat) (pred : Predecessor) (sIdx : Nat)
       (ctx : LoweringContext) {n : Pipeline},
       E.plan.nodes[sIdx]? = some n → n.isSourcePipeline = true →
       processSuccessor E (fuel + 1) pred sIdx ctx = .error .precondition) ∧
    (∀ (d : DumpMode) (i : Nat),
       getStage .OTHER d i = .error .invariantViolation) := by
  constructor
  · intro E fuel pred sIdx ctx n hn hsrc
    rw [processSuccessor]
    simp only [hn]
    cases hroot : n.root with
    | source srcOp => rfl
    | sink d => simp [Pipeline.isSourcePipeline, hroot] at hsrc
    | op => simp [Pipeline.isSourcePipeline, hroot] at hsrc
  · intro d i
    rfl

/-- Witness for the amended C9 theorem at the concrete plan `envC9`. -/
theorem c9_classification_and_mode_abort_witness :
    ((envC9.plan.nodes[0]?).map (fun n => n.isSourcePipeline) = some true) ∧
    processSuccessor envC9 1 (.origin 0) 0 (initialContext envC9) =
      .error .precondition ∧
    getStage .OTHER .NONE 0 = .error .invariantViolation :=
  ⟨rfl,
   c9_classification_and_mode_abort.1 envC9 0 (.origin 0) 0
     (initialContext envC9) rfl rfl,
   c9_classification_and_mode_abort.2 .NONE 0⟩

/-- C2 (code evaluated at the failing input): lowering the csv source of
`envC2` creates two formatter-stage executable pipelines, both carrying the
source pipeline's id 0 — the pre-refactor block of `processSource` builds
one and memoizes it under a fresh id, and `injectFormatter` builds the
other and memoizes it under id 0 (where the memo lookup succeeds). -/
theorem c2_two_formatters_created :
    (lower envC2 10).toOption.map (fun r =>
      ((r.2.execs.filter (fun e => e.stage.isFormatter)).map (fun e => e.id),
        lookupMemo r.2.memo 0)) = some ([0, 0], some 1) := by
  simp [lower, processSources, getSourcePipelines, initialContext, processSource,
    injectFormatter, collectSuccessors, walkSuccessors, processSuccessor,
    processOperatorPipeline, processSink, toLowerCase, emplace, lookupMemo,
    appendPred, pushSucc, updateAt, getStage, resolveOptions,
    provideInputFormatterTask, envC2, Pipeline.isSourcePipeline,
    Pipeline.isSinkPipeline, Pipeline.isOperatorPipeline,
    PipelinedQueryPlan.freshBase, Except.toOption, Stage.isFormatter]

/-- C3 (code evaluated at the failing input): `processSource` removes each
processed source pipeline from the input plan's pipeline list via
`removePipeline`, so after lowering `envC3` the plan list [0, 1] has lost
the source pipeline 0. -/
theorem c3_plan_list_mutated :
    envC3.plan.pipelines = [0, 1] ∧
    (lower envC3 10).toOption.map (fun r => r.2.planPipelines) = some [1] := by
  refine ⟨rfl, ?_⟩
  simp [lower, processSources, getSourcePipelines, initialContext, processSource,
    injectFormatter, collectSuccessors, walkSuccessors, processSuccessor,
    processOperatorPipeline, processSink, toLowerCase, emplace, lookupMemo,
    appendPred, pushSucc, updateAt, getStage, resolveOptions,
    provideInputFormatterTask, envC3, Pipeline.isSourcePipeline,
    Pipeline.isSinkPipeline, Pipeline.isOperatorPipeline,
    PipelinedQueryPlan.freshBase, Except.toOption]

/-- C5 (code evaluated at the failing input): even for the raw (upper-case
"RAW") source of `envC5` the pre-refactor block of `processSource` creates
one formatter-stage executable pipeline and records a source record whose
successor list [0] points at it, while the record appended from
`injectFormatter` carries the directly lowered successor list []. -/
theorem c5_raw_formatter_still_created :
    toLowerCase "RAW" = "raw" ∧
    (lower envC5 10).toOption.map (fun r =>
      ((r.2.execs.filter (fun e => e.stage.isFormatter)).length,
        r.1.sources.map (fun s => s.successors))) = some (1, [[0], []]) := by
  refine ⟨rfl, ?_⟩
  simp [lower, processSources, getSourcePipelines, initialContext, processSource,
    injectFormatter, collectSuccessors, walkSuccessors, processSuccessor,
    processOperatorPipeline, processSink, toLowerCase, emplace, lookupMemo,
    appendPred, pushSucc, updateAt, getStage, resolveOptions,
    provideInputFormatterTask, envC5, Pipeline.isSourcePipeline,
    Pipeline.isSinkPipeline, Pipeline.isOperatorPipeline,
    PipelinedQueryPlan.freshBase, Except.toOption, Stage.isFormatter]

/-! Evaluation lemmas for the witness plans. -/

theorem lower_envC4w_eval : lower envC4w 12 = .ok (cqpC4w, ctxC4w) := by
  simp [lower, processSources, getSourcePipelines, initialContext, processSource,
    injectFormatter, collectSuccessors, walkSuccessors, processSuccessor,
    processOperatorPipeline, processSink, toLowerCase, emplace, lookupMemo,
    appendPred, pushSucc, updateAt, getStage, resolveOptions,
    provideInputFormatterTask, envC4w, Pipeline.isSourcePipeline,
    Pipeline.isSinkPipeline, Pipeline.isOperatorPipeline,
    PipelinedQueryPlan.freshBase, cqpC4w, ctxC4w]

theorem lower_envC6w_eval : lower envC6w 12 = .ok (cqpC6w, ctxC6w) := by
  simp [lower, processSources, getSourcePipelines, initialContext, processSource,
    injectFormatter, collectSuccessors, walkSuccessors, processSuccessor,
    processOperatorPipeline, processSink, toLowerCase, emplace, lookupMemo,
    appendPred, pushSucc, updateAt, getStage, resolveOptions,
    provideInputFormatterTask, envC6w, Pipeline.isSourcePipeline,
    Pipeline.isSinkPipeline, Pipeline.isOperatorPipeline,
    PipelinedQueryPlan.freshBase, cqpC6w, ctxC6w]

/-- C4: sink fan-in accumulates, never replaces.  First conjunct: arriving
at a sink id with no existing record appends a fresh record whose
predecessor list holds exactly that arrival.  Second conjunct: arriving at a
sink id that already has a record appends the predecessor at the end of that
record's list, touching nothing else — so the list holds one entry per
arrival, in arrival order.  Third conjunct: after any successful `lower`,
sink ids are pairwise distinct, i.e. exactly one sink record exists per
distinct sink pipeline id. -/
theorem c4_sink_fanin :
    (∀ (pred : Predecessor) (pid : PipelineId) (d : String)
       (ctx : LoweringContext), (∀ r ∈ ctx.sinks, r.id ≠ pid) →
       (processSink pred pid d ctx).sinks =
         ctx.sinks ++ [{ id := pid, descriptor := d, predecessor := [pred] }]) ∧
    (∀ (pred : Predecessor) (pid : PipelineId) (d : String)
       (ctx : LoweringContext) (l1 l2 : List SinkRecord) (r : SinkRecord),
       ctx.sinks = l1 ++ r :: l2 → (∀ r' ∈ l1, r'.id ≠ pid) → r.id = pid →
       (processSink pred pid d ctx).sinks =
         l1 ++ { r with predecessor := r.predecessor ++ [pred] } :: l2) ∧
    (∀ (E : Env) (fuel : Nat) (cqp : CompiledQueryPlan)
       (ctxF : LoweringContext), lower E fuel = .ok (cqp, ctxF) →
       (cqp.sinks.map (fun s => s.id)).Nodup) := by
  refine ⟨?_, ?_, ?_⟩
  · intro pred pid d ctx hnone
    have hany : (ctx.sinks.any (fun x => x.id == pid)) = false :=
      sinks_any_eq_false.mpr hnone
    have hstep : (processSink pred pid d ctx).sinks =
        appendPred (ctx.sinks ++
          [{ id := pid, descriptor := d, predecessor := [] }]) pid pred := by
      simp only [processSink]
      rw [if_neg (by simp [hany])]
    rw [hstep]
    rw [@appendPred_append_first ctx.sinks
      { id := pid, descriptor := d, predecessor := [] } [] pid pred hnone rfl]
    simp
  · intro pred pid d ctx l1 l2 r hs h1 hr
    have hany : (ctx.sinks.any (fun x => x.id == pid)) = true := by
      rw [sinks_any_iff, hs]
      exact List.mem_map.mpr ⟨r, by simp, hr⟩
    have hstep : (processSink pred pid d ctx).sinks =
        appendPred ctx.sinks pid pred := by
      simp only [processSink]
      rw [if_pos hany]
    rw [hstep, hs]
    exact appendPred_append_first l2 pred h1 hr
  · intro E fuel cqp ctxF hok
    obtain ⟨hI, hsk, _, _⟩ := lower_basic hok
    rw [hsk]
    exact hI.sinkIds

/-- Witness for C4 at concrete inputs: a first arrival at sink id 4 creates
the record with that single predecessor; a second arrival at sink id 3
appends to the existing record; and lowering the fan-in plan `envC4w`
yields pairwise distinct sink ids. -/
theorem c4_sink_fanin_witness :
    (processSink (.origin 3) 4 "d"
      { execs := [], memo := [], sinks := [], sources := [],
        planPipelines := [], nextId := 0 }).sinks =
      [{ id := 4, descriptor := "d", predecessor := [Predecessor.origin 3] }] ∧
    (processSink (.exec 9) 3 "x"
      { execs := [], memo := [],
        sinks := [{ id := 3, descriptor := "k", predecessor := [] }],
        sources := [], planPipelines := [], nextId := 0 }).sinks =
      [{ id := 3, descriptor := "k", predecessor := [Predecessor.exec 9] }] ∧
    (cqpC4w.sinks.map (fun s => s.id)).Nodup :=
  ⟨c4_sink_fanin.1 (.origin 3) 4 "d" _ (by simp),
   c4_sink_fanin.2.1 (.exec 9) 3 "x"
     { execs := [], memo := [], sinks := [{ id := 3, descriptor := "k", predecessor := [] }], sources := [], planPipelines := [], nextId := 0 }
     [] []
     { id := 3, descriptor := "k", predecessor := [] }
     rfl (by simp) rfl,
   c4_sink_fanin.2.2 envC4w 12 cqpC4w ctxC4w lower_envC4w_eval⟩

/-- C6: sink pipelines never appear as successor entries.  First conjunct:
`processSuccessor` on a sink-classified pipeline records the predecessor in
the sink record store and returns the empty optional.  Second conjunct:
after any successful `lower`, every entry of every executable pipeline's
successor list references an executable pipeline that was created for a
non-sink logical pipeline. -/
theorem c6_sinks_terminal :
    (∀ (E : Env) (fuel : Nat) (pred : Predecessor) (sIdx : Nat)
       (ctx : LoweringContext) {n : Pipeline} {d : String},
       E.plan.nodes[sIdx]? = some n → n.root = RootOp.sink d →
       processSuccessor E (fuel + 1) pred sIdx ctx =
         .ok (none, processSink pred n.pid d ctx)) ∧
    (∀ (E : Env) (fuel : Nat) (cqp : CompiledQueryPlan)
       (ctxF : LoweringContext), lower E fuel = .ok (cqp, ctxF) →
       ∀ e ∈ ctxF.execs, ∀ j ∈ e.successors,
         ∃ e' : ExecutablePipeline, ctxF.execs[j]? = some e' ∧
           ∃ (i : Nat) (m : Pipeline), E.plan.nodes[i]? = some m ∧
             e'.id = m.pid ∧ m.isSinkPipeline = false) := by
  constructor
  · intro E fuel pred sIdx ctx n d hn hroot
    rw [processSuccessor]
    simp only [hn, hroot]
  · intro E fuel cqp ctxF hok e he j hj
    obtain ⟨hI, _, _, _⟩ := lower_basic hok
    have hjlt : j < ctxF.execs.length := hI.succValid e he j hj
    refine ⟨ctxF.execs[j], List.getElem?_eq_getElem hjlt, ?_⟩
    exact hI.execIds _ (List.getElem_mem hjlt)

/-- Witness for C6: a concrete sink successor returns the empty optional,
and in the lowered state of `envC6w` the formatter pipeline's single
successor entry references the executable pipeline of the operator
pipeline 1 — a non-sink pipeline. -/
theorem c6_sinks_terminal_witness :
    processSuccessor envC6w 3 (.origin 7) 2 (initialContext envC6w) =
      .ok (none, processSink (.origin 7) 2 "k" (initialContext envC6w)) ∧
    (∃ e' : ExecutablePipeline, ctxC6w.execs[1]? = some e' ∧
      ∃ (i : Nat) (m : Pipeline), envC6w.plan.nodes[i]? = some m ∧
        e'.id = m.pid ∧ m.isSinkPipeline = false) :=
  ⟨c6_sinks_terminal.1 envC6w 2 (.origin 7) 2 (initialContext envC6w) rfl rfl,
   c6_sinks_terminal.2 envC6w 12 cqpC6w ctxC6w lower_envC6w_eval
     { id := 0, stage := Stage.formatterTask none "raw" "s" "t" "f", successors := [1] }
     (by simp [ctxC6w]) 1 (by simp)⟩

/-! Fuel-sufficiency: on rank-decreasing (acyclic) plans the walk never
exhausts its fuel. -/

theorem maxSuccs_bound {P : PipelinedQueryPlan} :
    ∀ (i : Nat) (n : Pipeline), P.nodes[i]? = some n →
      n.succs.length ≤ P.maxSuccs := by
  unfold PipelinedQueryPlan.maxSuccs
  have hgen : ∀ (l : List Pipeline) (i : Nat) (n : Pipeline), l[i]? = some n →
      n.succs.length ≤ (l.map (fun m => m.succs.length)).foldr max 0 := by
    intro l
    induction l with
    | nil =>
      intro i n h
      simp at h
    | cons a t ih =>
      intro i n h
      cases i with
      | zero =>
        simp at h
        subst h
        simp only [List.map_cons, List.foldr_cons]
        exact le_max_left _ _
      | succ j =>
        simp only [List.getElem?_cons_succ] at h
        simp only [List.map_cons, List.foldr_cons]
        exact le_trans (ih j n h) (le_max_right _ _)
  exact fun i n h => hgen P.nodes i n h

theorem pid_lt_freshBase {P : PipelinedQueryPlan} :
    ∀ (i : Nat) (n : Pipeline), P.nodes[i]? = some n →
      n.pid < P.freshBase := by
  have hgen : ∀ (l : List Pipeline) (i : Nat) (n : Pipeline), l[i]? = some n →
      n.pid ≤ (l.map (fun m => m.pid)).foldr max 0 := by
    intro l
    induction l with
    | nil =>
      intro i n h
      simp at h
    | cons a t ih =>
      intro i n h
      cases i with
      | zero =>
        simp at h
        subst h
        simp only [List.map_cons, List.foldr_cons]
        exact le_max_left _ _
      | succ j =>
        simp only [List.getElem?_cons_succ] at h
        simp only [List.map_cons, List.foldr_cons]
        exact le_trans (ih j n h) (le_max_right _ _)
  intro i n h
  have h2 := hgen P.nodes i n h
  show n.pid < (P.nodes.map (fun m => m.pid)).foldr max 0 + 1
  exact Nat.lt_succ_of_le h2

theorem getStage_no_oof (mode : ExecutionMode) (dump : DumpMode) (i : Nat) :
    getStage mode dump i ≠ .error .outOfFuel := by
  cases mode <;> cases dump <;> simp [getStage, resolveOptions]

theorem walk_no_oof {E : Env} :
    ∀ (ss : List Nat) (g : Nat) (eIdx : Nat) (ctx : LoweringContext),
    ss.length < g →
    (∀ s ∈ ss, ∀ f' : Nat, g - ss.length - 1 ≤ f' →
      ∀ (pred : Predecessor) (ctx' : LoweringContext),
      processSuccessor E f' pred s ctx' ≠ .error .outOfFuel) →
    walkSuccessors E g eIdx ss ctx ≠ .error .outOfFuel := by
  intro ss
  induction ss with
  | nil =>
    intro g eIdx ctx hg hs
    cases g with
    | zero => omega
    | succ g' =>
      rw [walkSuccessors]
      simp
  | cons s rest ih =>
    intro g eIdx ctx hg hs
    cases g with
    | zero => simp at hg
    | succ g' =>
      rw [walkSuccessors]
      cases hps : processSuccessor E g' (.exec eIdx) s ctx with
      | error err =>
        simp only [hps]
        intro hEq
        cases hEq
        exact hs s (List.mem_cons_self _ _) g' (by simp; omega) (.exec eIdx)
          ctx hps
      | ok pr =>
        obtain ⟨r, ctxm⟩ := pr
        cases r with
        | some j =>
          simp only [hps]
          refine ih g' eIdx (pushSucc ctxm eIdx j) (by simp at hg ⊢; omega) ?_
          intro s' hs' f' hf' pred ctx'
          refine hs s' (List.mem_cons_of_mem _ hs') f' (by simp at hf' ⊢; omega)
            pred ctx'
        | none =>
          simp only [hps]
          refine ih g' eIdx ctxm (by simp at hg ⊢; omega) ?_
          intro s' hs' f' hf' pred ctx'
          refine hs s' (List.mem_cons_of_mem _ hs') f' (by simp at hf' ⊢; omega)
            pred ctx'

theorem processSuccessor_no_oof {E : Env} (rank : Nat → Nat) (W : Nat)
    (hrank : ∀ (i : Nat) (n : Pipeline), E.plan.nodes[i]? = some n →
      ∀ s ∈ n.succs, rank s < rank i)
    (hW : ∀ (i : Nat) (n : Pipeline), E.plan.nodes[i]? = some n →
      n.succs.length ≤ W) :
    ∀ (k : Nat) (i : Nat), rank i < k →
      (∀ (fuel : Nat), (k + 1) * (W + 3) ≤ fuel →
        ∀ (pred : Predecessor) (ctx : LoweringContext),
        processSuccessor E fuel pred i ctx ≠ .error .outOfFuel) ∧
      (∀ (fuel : Nat), (k + 1) * (W + 3) ≤ fuel + 1 →
        ∀ (ctx : LoweringContext),
        processOperatorPipeline E fuel i ctx ≠ .error .outOfFuel) := by
  intro k
  induction k with
  | zero =>
    intro i hi
    exact absurd hi (by omega)
  | succ k ih =>
    intro i hi
    have hprod : (k + 1 + 1) * (W + 3) = (k + 1) * (W + 3) + (W + 3) := by ring
    have hprod1 : 1 * (W + 3) ≤ (k + 1) * (W + 3) :=
      Nat.mul_le_mul_right _ (by omega)
    rw [one_mul] at hprod1
    have hPOP : ∀ (fuel : Nat), (k + 1 + 1) * (W + 3) ≤ fuel + 1 →
        ∀ (ctx : LoweringContext),
        processOperatorPipeline E fuel i ctx ≠ .error .outOfFuel := by
      intro fuel hfuel ctx
      cases fuel with
      | zero => omega
      | succ g =>
        rw [processOperatorPipeline]
        cases hn : E.plan.nodes[i]? with
        | none =>
          simp only [hn]
          simp
        | some n =>
          simp only [hn]
          cases hlk : lookupMemo ctx.memo n.pid with
          | some e =>
            simp only [hlk]
            simp
          | none =>
            simp only [hlk]
            cases hst : getStage E.plan.executionMode E.dumpMode i with
            | error err =>
              simp only [hst]
              intro hEq
              cases hEq
              exact getStage_no_oof _ _ _ hst
            | ok stage =>
              simp only [hst]
              cases hw : walkSuccessors E g ctx.execs.length n.succs
                  ({ ctx with execs := ctx.execs ++
                    [{ id := n.pid, stage := stage, successors := [] }] }) with
              | error err =>
                simp only [hw]
                intro hEq
                cases hEq
                refine walk_no_oof n.succs g ctx.execs.length _ ?_ ?_ hw
                · have := hW i n hn
                  omega
                · intro s hsm f' hf' pred ctx'
                  have hrs : rank s < k := by
                    have h1 := hrank i n hn s hsm
                    omega
                  refine (ih s hrs).1 f' ?_ pred ctx'
                  have := hW i n hn
                  omega
              | ok ctx2 =>
                simp only [hw]
                simp
    refine ⟨?_, hPOP⟩
    intro fuel hfuel pred ctx
    cases fuel with
    | zero => omega
    | succ f =>
      rw [processSuccessor]
      cases hn : E.plan.nodes[i]? with
      | none =>
        simp only [hn]
        simp
      | some n =>
        simp only [hn]
        cases hroot : n.root with
        | sink d =>
          simp only [hroot]
          simp
        | source srcOp =>
          simp only [hroot]
          simp
        | op =>
          simp only [hroot]
          cases hop : processOperatorPipeline E f i ctx with
          | error err =>
            simp only [hop]
            intro hEq
            cases hEq
            exact hPOP f (by omega) ctx hop
          | ok pr =>
            simp only [hop]
            simp

theorem collect_no_oof {E : Env} {fuel : Nat} {pred : Predecessor} :
    ∀ (ss : List Nat) (ctx : LoweringContext),
    (∀ s ∈ ss, ∀ (pred' : Predecessor) (ctx' : LoweringContext),
      processSuccessor E fuel pred' s ctx' ≠ .error .outOfFuel) →
    collectSuccessors E fuel pred ss ctx ≠ .error .outOfFuel := by
  intro ss
  induction ss with
  | nil =>
    intro ctx hs
    rw [collectSuccessors]
    simp
  | cons s rest ih =>
    intro ctx hs
    rw [collectSuccessors]
    cases hps : processSuccessor E fuel pred s ctx with
    | error err =>
      simp only [hps]
      intro hEq
      cases hEq
      exact hs s (List.mem_cons_self _ _) pred ctx hps
    | ok pr =>
      obtain ⟨r, ctxm⟩ := pr
      simp only [hps]
      cases hcl : collectSuccessors E fuel pred rest ctxm with
      | error err =>
        simp only [hcl]
        intro hEq
        cases hEq
        exact ih ctxm (fun s' hs' => hs s' (List.mem_cons_of_mem _ hs')) hcl
      | ok pr2 =>
        simp only [hcl]
        simp

theorem injectFormatter_no_oof {E : Env} {fuel : Nat} {n : Pipeline}
    {srcOp : SourceOp} (ctx : LoweringContext)
    (hs : ∀ s ∈ n.succs, ∀ (pred' : Predecessor) (ctx' : LoweringContext),
      processSuccessor E fuel pred' s ctx' ≠ .error .outOfFuel) :
    injectFormatter E fuel n srcOp ctx ≠ .error .outOfFuel := by
  rw [injectFormatter]
  by_cases hraw : toLowerCase srcOp.descriptor.parserConfig.parserType = "raw"
  · rw [if_pos hraw]
    exact collect_no_oof n.succs ctx hs
  · rw [if_neg hraw]
    simp only []
    cases hcl : collectSuccessors E fuel (.exec ctx.execs.length) n.succs
        ({ ctx with execs := ctx.execs ++
          [{ id := n.pid
             stage := Stage.formatterTask (some srcOp.originId)
               srcOp.descriptor.parserConfig.parserType srcOp.descriptor.schema
               srcOp.descriptor.parserConfig.tupleDelimiter
               srcOp.descriptor.parserConfig.fieldDelimiter
             successors := [] }] }) with
    | error err =>
      simp only [hcl]
      intro hEq
      cases hEq
      exact collect_no_oof n.succs _ hs hcl
    | ok pr =>
      obtain ⟨l, ctx2⟩ := pr
      simp only [hcl]
      simp

theorem processSource_no_oof {E : Env} {fuel sIdx : Nat}
    (ctx : LoweringContext)
    (hwalk : ∀ (n : Pipeline), E.plan.nodes[sIdx]? = some n →
      ∀ (eIdx : Nat) (ctx' : LoweringContext),
      walkSuccessors E fuel eIdx n.succs ctx' ≠ .error .outOfFuel)
    (hps : ∀ (n : Pipeline), E.plan.nodes[sIdx]? = some n →
      ∀ s ∈ n.succs, ∀ (pred' : Predecessor) (ctx' : LoweringContext),
      processSuccessor E fuel pred' s ctx' ≠ .error .outOfFuel) :
    processSource E fuel sIdx ctx ≠ .error .outOfFuel := by
  rw [processSource]
  cases hn : E.plan.nodes[sIdx]? with
  | none =>
    simp only [hn]
    simp
  | some n =>
    simp only [hn]
    cases hroot : n.root with
    | sink d =>
      simp only [hroot]
      simp
    | op =>
      simp only [hroot]
      simp
    | source srcOp =>
      simp only [hroot]
      cases hw : walkSuccessors E fuel ctx.execs.length n.succs
          ({ ctx with execs := ctx.execs ++
            [{ id := n.pid
               stage := provideInputFormatterTask srcOp.descriptor.schema
                 srcOp.descriptor.parserConfig
               successors := [] }] }) with
      | error err =>
        simp only [hw]
        intro hEq
        cases hEq
        exact hwalk n hn _ _ hw
      | ok ctx2 =>
        simp only [hw]
        cases hif : injectFormatter E fuel n srcOp
            ({ { { ctx2 with
              planPipelines := ctx2.planPipelines.filter (fun j => j != sIdx) } with
              memo := emplace ctx2.memo ctx2.nextId ctx.execs.length
              nextId := ctx2.nextId + 1 } with
              sources := ctx2.sources ++
                [{ originId := srcOp.originId, descriptor := srcOp.descriptor
                   successors := [ctx.execs.length] }] }) with
        | error err =>
          simp only [hif]
          intro hEq
          cases hEq
          exact injectFormatter_no_oof _ (hps n hn) hif
        | ok pr =>
          obtain ⟨l, ctx6⟩ := pr
          simp only [hif]
          simp

theorem processSources_no_oof {E : Env} {fuel : Nat} :
    ∀ (ss : List Nat) (ctx : LoweringContext),
    (∀ s ∈ ss, ∀ (ctx' : LoweringContext),
      processSource E fuel s ctx' ≠ .error .outOfFuel) →
    processSources E fuel ss ctx ≠ .error .outOfFuel := by
  intro ss
  induction ss with
  | nil =>
    intro ctx hs
    rw [processSources]
    simp
  | cons s rest ih =>
    intro ctx hs
    rw [processSources]
    cases hpp : processSource E fuel s ctx with
    | error err =>
      simp only [hpp]
      intro hEq
      cases hEq
      exact hs s (List.mem_cons_self _ _) ctx hpp
    | ok ctxm =>
      simp only [hpp]
      exact ih ctxm (fun s' hs' => hs s' (List.mem_cons_of_mem _ hs'))

/-- C10: on every finite acyclic input plan the lowering pass terminates.
Acyclicity is given by a rank function that strictly decreases along every
successor edge and is bounded by K; with the embedding's explicit fuel,
termination of the mutual recursion of `processSuccessor` and
`processOperatorPipeline` is the statement that a fuel budget depending only
on K and the plan's maximal successor-list width is never exhausted. -/
theorem c10_lower_terminates (E : Env) (rank : Nat → Nat) (K : Nat)
    (hrank : ∀ (i : Nat) (n : Pipeline), E.plan.nodes[i]? = some n →
      ∀ s ∈ n.succs, rank s < rank i)
    (hK : ∀ i : Nat, rank i < K)
    (fuel : Nat) (hfuel : (K + 2) * (E.plan.maxSuccs + 3) ≤ fuel) :
    lower E fuel ≠ .error LowerError.outOfFuel := by
  set W := E.plan.maxSuccs with hWdef
  have hW : ∀ (i : Nat) (n : Pipeline), E.plan.nodes[i]? = some n →
      n.succs.length ≤ W := fun i n h => maxSuccs_bound i n h
  have hprod : (K + 2) * (W + 3) = (K + 1) * (W + 3) + (W + 3) := by ring
  have hprod1 : 1 * (W + 3) ≤ (K + 1) * (W + 3) :=
    Nat.mul_le_mul_right _ (by omega)
  rw [one_mul] at hprod1
  have hPS : ∀ (i : Nat) (fuel' : Nat), (K + 1) * (W + 3) ≤ fuel' →
      ∀ (pred : Predecessor) (ctx : LoweringContext),
      processSuccessor E fuel' pred i ctx ≠ .error .outOfFuel := by
    intro i fuel' hf pred ctx
    exact (processSuccessor_no_oof rank W hrank hW K i (hK i)).1 fuel' hf pred ctx
  rw [lower]
  cases hpp : processSources E fuel (getSourcePipelines E) (initialContext E) with
  | error err =>
    simp only [hpp]
    intro hEq
    cases hEq
    refine processSources_no_oof (getSourcePipelines E) (initialContext E)
      ?_ hpp
    intro s hsm ctx'
    refine processSource_no_oof ctx' ?_ ?_
    · intro n hn eIdx ctx''
      refine walk_no_oof n.succs fuel eIdx ctx'' ?_ ?_
      · have := hW s n hn
        omega
      · intro s' hs' f' hf' pred' ctx3
        refine hPS s' f' ?_ pred' ctx3
        have := hW s n hn
        omega
    · intro n hn s' hs' pred' ctx''
      exact hPS s' fuel (by omega) pred' ctx''
  | ok ctx =>
    simp only [hpp]
    simp

/-- Witness for C10 at the concrete acyclic plan `envC10w` with the rank
function 4 - i, rank bound 5 and fuel 35. -/
theorem c10_lower_terminates_witness :
    lower envC10w 35 ≠ .error LowerError.outOfFuel := by
  refine c10_lower_terminates envC10w (fun i => 4 - i) 5 ?_ ?_ 35 ?_
  · intro i n hn s hs
    have hi : i < 4 := by
      have h1 := (List.getElem?_eq_some.mp hn).1
      simpa [envC10w] using h1
    show 4 - s < 4 - i
    interval_cases i
    · simp [envC10w] at hn
      subst hn
      simp at hs
      rcases hs with h | h <;> omega
    · simp [envC10w] at hn
      subst hn
      simp at hs
      omega
    · simp [envC10w] at hn
      subst hn
      simp at hs
      omega
    · simp [envC10w] at hn
      subst hn
      simp at hs
  · intro i
    show 4 - i < 5
    omega
  · simp [envC10w, PipelinedQueryPlan.maxSuccs]

/-! Claim C1 machinery.  First: a walk started strictly below the rank of
every node carrying pipeline id `p` neither creates an executable pipeline
with id `p` nor adds a memo entry for `p`. -/

theorem countIds_snoc (l : List ExecutablePipeline) (e : ExecutablePipeline)
    (p : PipelineId) :
    countIds (l ++ [e]) p = countIds l p + (if e.id = p then 1 else 0) := by
  unfold countIds
  rw [List.countP_append]
  congr 1
  by_cases h : e.id = p
  · simp [List.countP_cons, h]
  · simp [List.countP_cons, h]

theorem lookupMemo_emplace_ne {m : List (PipelineId × Nat)} {k p : PipelineId}
    (v : Nat) (h : k ≠ p) : lookupMemo (emplace m k v) p = lookupMemo m p := by
  unfold emplace
  cases hlk : lookupMemo m k with
  | some w => rfl
  | none =>
    cases hlp : lookupMemo m p with
    | some w => exact lookupMemo_append_some _ hlp
    | none =>
      rw [lookupMemo_append_none _ hlp]
      simp [lookupMemo, h]

theorem pushSucc_counts (ctx : LoweringContext) (eIdx j : Nat)
    (p : PipelineId) :
    countIds (pushSucc ctx eIdx j).execs p = countIds ctx.execs p := by
  show countIds (updateAt ctx.execs eIdx
    (fun e => { e with successors := e.successors ++ [j] })) p = _
  exact countIds_updateAt_of_id ctx.execs eIdx
    (fun e => { e with successors := e.successors ++ [j] }) (fun e => rfl) p

theorem famN {E : Env} (rank : Nat → Nat)
    (hrank : ∀ (i : Nat) (n : Pipeline), E.plan.nodes[i]? = some n →
      ∀ s ∈ n.succs, rank s < rank i)
    (p B : Nat)
    (hp : ∀ (i : Nat) (n : Pipeline), E.plan.nodes[i]? = some n →
      n.pid = p → B ≤ rank i) :
    ∀ fuel : Nat,
      (∀ (pred : Predecessor) (i : Nat) (ctx : LoweringContext)
         (r : Option Nat) (ctx' : LoweringContext), rank i < B →
         processSuccessor E fuel pred i ctx = .ok (r, ctx') →
         countIds ctx'.execs p = countIds ctx.execs p ∧
         lookupMemo ctx'.memo p = lookupMemo ctx.memo p) ∧
      (∀ (i : Nat) (ctx : LoweringContext) (e : Nat)
         (ctx' : LoweringContext), rank i < B →
         processOperatorPipeline E fuel i ctx = .ok (e, ctx') →
         countIds ctx'.execs p = countIds ctx.execs p ∧
         lookupMemo ctx'.memo p = lookupMemo ctx.memo p) ∧
      (∀ (eIdx : Nat) (ss : List Nat) (ctx ctx' : LoweringContext),
         (∀ s ∈ ss, rank s < B) →
         walkSuccessors E fuel eIdx ss ctx = .ok ctx' →
         countIds ctx'.execs p = countIds ctx.execs p ∧
         lookupMemo ctx'.memo p = lookupMemo ctx.memo p) := by
  intro fuel
  induction fuel with
  | zero =>
    refine ⟨?_, ?_, ?_⟩
    · intro pred i ctx r ctx' _ h
      simp [processSuccessor] at h
    · intro i ctx e ctx' _ h
      simp [processOperatorPipeline] at h
    · intro eIdx ss ctx ctx' _ h
      simp [walkSuccessors] at h
  | succ f ih =>
    obtain ⟨ihS, ihO, ihW⟩ := ih
    have hOp : ∀ (i : Nat) (ctx : LoweringContext) (e : Nat)
        (ctx' : LoweringContext), rank i < B →
        processOperatorPipeline E (f + 1) i ctx = .ok (e, ctx') →
        countIds ctx'.execs p = countIds ctx.execs p ∧
        lookupMemo ctx'.memo p = lookupMemo ctx.memo p := by
      intro i ctx e ctx' hlt h
      rw [processOperatorPipeline] at h
      cases hn : E.plan.nodes[i]? with
      | none =>
        simp only [hn] at h
        cases h
      | some n =>
        simp only [hn] at h
        cases hlk : lookupMemo ctx.memo n.pid with
        | some e0 =>
          simp only [hlk] at h
          cases h
          exact ⟨rfl, rfl⟩
        | none =>
          simp only [hlk] at h
          cases hst : getStage E.plan.executionMode E.dumpMode i with
          | error err =>
            simp only [hst] at h
            cases h
          | ok stage =>
            simp only [hst] at h
            have hne : n.pid ≠ p := by
              intro hEq
              exact absurd (hp i n hn hEq) (by omega)
            cases hw : walkSuccessors E f ctx.execs.length n.succs
                ({ ctx with execs := ctx.execs ++
                  [{ id := n.pid, stage := stage, successors := [] }] }) with
            | error err =>
              rw [hw] at h
              cases h
            | ok ctx2 =>
              rw [hw] at h
              injection h with h1
              injection h1 with he hc
              subst he
              subst hc
              obtain ⟨hcw, hlw⟩ := ihW ctx.execs.length n.succs _ ctx2
                (fun s hs => lt_trans (hrank i n hn s hs) hlt) hw
              constructor
              · show countIds ctx2.execs p = _
                rw [hcw]
                rw [countIds_snoc]
                simp [hne]
              · show lookupMemo (emplace ctx2.memo n.pid _) p = _
                rw [lookupMemo_emplace_ne _ hne]
                rw [hlw]
    have hS : ∀ (pred : Predecessor) (i : Nat) (ctx : LoweringContext)
        (r : Option Nat) (ctx' : LoweringContext), rank i < B →
        processSuccessor E (f + 1) pred i ctx = .ok (r, ctx') →
        countIds ctx'.execs p = countIds ctx.execs p ∧
        lookupMemo ctx'.memo p = lookupMemo ctx.memo p := by
      intro pred i ctx r ctx' hlt h
      rw [processSuccessor] at h
      cases hn : E.plan.nodes[i]? with
      | none =>
        simp only [hn] at h
        cases h
      | some n =>
        simp only [hn] at h
        cases hroot : n.root with
        | sink d =>
          simp only [hroot] at h
          cases h
          exact ⟨rfl, by show lookupMemo ctx.memo p = _; rfl⟩
        | op =>
          simp only [hroot] at h
          cases hop : processOperatorPipeline E f i ctx with
          | error err =>
            simp only [hop] at h
            cases h
          | ok pr =>
            obtain ⟨j, ctx''⟩ := pr
            simp only [hop] at h
            cases h
            exact ihO i ctx j _ hlt hop
        | source srcOp =>
          simp only [hroot] at h
          cases h
    refine ⟨hS, hOp, ?_⟩
    intro eIdx ss ctx ctx' hss h
    cases ss with
    | nil =>
      rw [walkSuccessors] at h
      cases h
      exact ⟨rfl, rfl⟩
    | cons s rest =>
      rw [walkSuccessors] at h
      cases hps : processSuccessor E f (.exec eIdx) s ctx with
      | error err =>
        simp only [hps] at h
        cases h
      | ok pr =>
        obtain ⟨r, ctxm⟩ := pr
        obtain ⟨hcm, hlm⟩ :=
          ihS (.exec eIdx) s ctx r ctxm (hss s (List.mem_cons_self _ _)) hps
        cases r with
        | some j =>
          simp only [hps] at h
          obtain ⟨hc', hl'⟩ := ihW eIdx rest (pushSucc ctxm eIdx j) ctx'
            (fun s' hs' => hss s' (List.mem_cons_of_mem _ hs')) h
          constructor
          · rw [hc', pushSucc_counts, hcm]
          · rw [hl']
            show lookupMemo ctxm.memo p = _
            rw [hlm]
        | none =>
          simp only [hps] at h
          obtain ⟨hc', hl'⟩ := ihW eIdx rest ctxm ctx'
            (fun s' hs' => hss s' (List.mem_cons_of_mem _ hs')) h
          exact ⟨by rw [hc', hcm], by rw [hl', hlm]⟩

/-! Claim C1 machinery, part two: the walk preserves the exact-count
invariant for the pipeline id of a fixed operator node `x`. -/

theorem famC {E : Env} (rank : Nat → Nat)
    (hrank : ∀ (i : Nat) (n : Pipeline), E.plan.nodes[i]? = some n →
      ∀ s ∈ n.succs, rank s < rank i)
    (p x : Nat) (nX : Pipeline) (hx : E.plan.nodes[x]? = some nX)
    (hxid : nX.pid = p)
    (huniq : ∀ (i : Nat) (n : Pipeline), E.plan.nodes[i]? = some n →
      n.pid = p → i = x) :
    ∀ fuel : Nat,
      (∀ (pred : Predecessor) (i : Nat) (ctx : LoweringContext)
         (r : Option Nat) (ctx' : LoweringContext), CountOK p ctx →
         processSuccessor E fuel pred i ctx = .ok (r, ctx') →
         CountOK p ctx') ∧
      (∀ (i : Nat) (ctx : LoweringContext) (e : Nat)
         (ctx' : LoweringContext), CountOK p ctx →
         processOperatorPipeline E fuel i ctx = .ok (e, ctx') →
         CountOK p ctx') ∧
      (∀ (eIdx : Nat) (ss : List Nat) (ctx ctx' : LoweringContext),
         CountOK p ctx → walkSuccessors E fuel eIdx ss ctx = .ok ctx' →
         CountOK p ctx') ∧
      (∀ (pred : Predecessor) (ss : List Nat) (ctx : LoweringContext)
         (l : List Nat) (ctx' : LoweringContext), CountOK p ctx →
         collectSuccessors E fuel pred ss ctx = .ok (l, ctx') →
         CountOK p ctx') := by
  intro fuel
  induction fuel with
  | zero =>
    refine ⟨?_, ?_, ?_, ?_⟩
    · intro pred i ctx r ctx' _ h
      simp [processSuccessor] at h
    · intro i ctx e ctx' _ h
      simp [processOperatorPipeline] at h
    · intro eIdx ss ctx ctx' _ h
      simp [walkSuccessors] at h
    · intro pred ss ctx l ctx' hC h
      cases ss with
      | nil =>
        rw [collectSuccessors] at h
        cases h
        exact hC
      | cons s rest =>
        simp [collectSuccessors, processSuccessor] at h
  | succ f ih =>
    obtain ⟨ihS, ihO, ihW, ihC⟩ := ih
    have hOp : ∀ (i : Nat) (ctx : LoweringContext) (e : Nat)
        (ctx' : LoweringContext), CountOK p ctx →
        processOperatorPipeline E (f + 1) i ctx = .ok (e, ctx') →
        CountOK p ctx' := by
      intro i ctx e ctx' hC h
      rw [processOperatorPipeline] at h
      cases hn : E.plan.nodes[i]? with
      | none =>
        simp only [hn] at h
        cases h
      | some n =>
        simp only [hn] at h
        cases hlk : lookupMemo ctx.memo n.pid with
        | some e0 =>
          simp only [hlk] at h
          cases h
          exact hC
        | none =>
          simp only [hlk] at h
          cases hst : getStage E.plan.executionMode E.dumpMode i with
          | error err =>
            simp only [hst] at h
            cases h
          | ok stage =>
            simp only [hst] at h
            cases hw : walkSuccessors E f ctx.execs.length n.succs
                ({ ctx with execs := ctx.execs ++
                  [{ id := n.pid, stage := stage, successors := [] }] }) with
            | error err =>
              rw [hw] at h
              cases h
            | ok ctx2 =>
              rw [hw] at h
              injection h with h1
              injection h1 with he hc
              subst he
              subst hc
              by_cases hpid : n.pid = p
              · have hix : i = x := huniq i n hn hpid
                subst hix
                have hlkp : lookupMemo ctx.memo p = none := hpid ▸ hlk
                have hcnt0 : countIds ctx.execs p = 0 := by
                  have := hC
                  unfold CountOK at this
                  rw [hlkp] at this
                  simpa using this
                have hp2 : ∀ (i' : Nat) (n' : Pipeline),
                    E.plan.nodes[i']? = some n' → n'.pid = p →
                    rank i ≤ rank i' := by
                  intro i' n' h' hp'
                  rw [huniq i' n' h' hp']
                have hNW := (famN rank hrank p (rank i) hp2 f).2.2
                  ctx.execs.length n.succs _ ctx2
                  (fun s hs => hrank i n hn s hs) hw
                obtain ⟨hcw, hlw⟩ := hNW
                have hc1 : countIds ctx2.execs p = 1 := by
                  rw [hcw, countIds_snoc]
                  simp [hpid, hcnt0]
                have hl2 : lookupMemo ctx2.memo p = none := by
                  rw [hlw]
                  show lookupMemo ctx.memo p = none
                  exact hlkp
                unfold CountOK
                show countIds ctx2.execs p = _
                rw [hc1]
                have hemp : lookupMemo
                    (emplace ctx2.memo n.pid ctx.execs.length) p
                    = some ctx.execs.length := by
                  rw [hpid]
                  rw [emplace_of_none _ hl2]
                  rw [lookupMemo_append_none _ hl2]
                  simp [lookupMemo]
                rw [hemp]
                simp
              · have hCin : CountOK p ({ ctx with execs := ctx.execs ++
                    [{ id := n.pid, stage := stage, successors := [] }] }) := by
                  unfold CountOK at hC ⊢
                  show countIds (ctx.execs ++ _) p = _
                  rw [countIds_snoc]
                  simp only [hpid, if_false]
                  show countIds ctx.execs p + 0 = _
                  rw [Nat.add_zero]
                  exact hC
                have hC2 := ihW ctx.execs.length n.succs _ ctx2 hCin hw
                unfold CountOK at hC2 ⊢
                show countIds ctx2.execs p = _
                rw [lookupMemo_emplace_ne _ hpid]
                exact hC2
    have hS : ∀ (pred : Predecessor) (i : Nat) (ctx : LoweringContext)
        (r : Option Nat) (ctx' : LoweringContext), CountOK p ctx →
        processSuccessor E (f + 1) pred i ctx = .ok (r, ctx') →
        CountOK p ctx' := by
      intro pred i ctx r ctx' hC h
      rw [processSuccessor] at h
      cases hn : E.plan.nodes[i]? with
      | none =>
        simp only [hn] at h
        cases h
      | some n =>
        simp only [hn] at h
        cases hroot : n.root with
        | sink d =>
          simp only [hroot] at h
          cases h
          exact hC
        | op =>
          simp only [hroot] at h
          cases hop : processOperatorPipeline E f i ctx with
          | error err =>
            simp only [hop] at h
            cases h
          | ok pr =>
            obtain ⟨j, ctx''⟩ := pr
            simp only [hop] at h
            cases h
            exact ihO i ctx j _ hC hop
        | source srcOp =>
          simp only [hroot] at h
          cases h
    have hWp : ∀ (eIdx : Nat) (ss : List Nat) (ctx ctx' : LoweringContext),
        CountOK p ctx → walkSuccessors E (f + 1) eIdx ss ctx = .ok ctx' →
        CountOK p ctx' := by
      intro eIdx ss ctx ctx' hC h
      cases ss with
      | nil =>
        rw [walkSuccessors] at h
        cases h
        exact hC
      | cons s rest =>
        rw [walkSuccessors] at h
        cases hps : processSuccessor E f (.exec eIdx) s ctx with
        | error err =>
          simp only [hps] at h
          cases h
        | ok pr =>
          obtain ⟨r, ctxm⟩ := pr
          have hCm := ihS (.exec eIdx) s ctx r ctxm hC hps
          cases r with
          | some j =>
            simp only [hps] at h
            refine ihW eIdx rest (pushSucc ctxm eIdx j) ctx' ?_ h
            unfold CountOK at hCm ⊢
            rw [pushSucc_counts]
            exact hCm
          | none =>
            simp only [hps] at h
            exact ihW eIdx rest ctxm ctx' hCm h
    refine ⟨hS, hOp, hWp, ?_⟩
    intro pred ss ctx l ctx' hC h
    induction ss generalizing ctx l with
    | nil =>
      rw [collectSuccessors] at h
      cases h
      exact hC
    | cons s rest ihrest =>
      rw [collectSuccessors] at h
      cases hps : processSuccessor E (f + 1) pred s ctx with
      | error err =>
        simp only [hps] at h
        cases h
      | ok pr =>
        obtain ⟨r, ctxm⟩ := pr
        simp only [hps] at h
        have hCm := hS pred s ctx r ctxm hC hps
        cases hcl : collectSuccessors E (f + 1) pred rest ctxm with
        | error err =>
          simp only [hcl] at h
          cases h
        | ok pr2 =>
          obtain ⟨l2, ctx2⟩ := pr2
          simp only [hcl] at h
          cases h
          exact ihrest ctxm l2 hCm hcl

/-! Claim C1 machinery, part three: memo entries persist, with their value,
through every step of the walk (no invariant needed: the memo map is only
ever changed by `emplace`). -/

theorem lookup_emplace_persist {m : List (PipelineId × Nat)} {q : PipelineId}
    {v : Nat} (k : PipelineId) (w : Nat) (h : lookupMemo m q = some v) :
    lookupMemo (emplace m k w) q = some v := by
  unfold emplace
  cases hk : lookupMemo m k with
  | some u => exact h
  | none => exact lookupMemo_append_some _ h

theorem famM {E : Env} : ∀ fuel : Nat,
    (∀ (pred : Predecessor) (i : Nat) (ctx : LoweringContext)
       (r : Option Nat) (ctx' : LoweringContext) (q : PipelineId) (v : Nat),
       lookupMemo ctx.memo q = some v →
       processSuccessor E fuel pred i ctx = .ok (r, ctx') →
       lookupMemo ctx'.memo q = some v) ∧
    (∀ (i : Nat) (ctx : LoweringContext) (e : Nat) (ctx' : LoweringContext)
       (q : PipelineId) (v : Nat),
       lookupMemo ctx.memo q = some v →
       processOperatorPipeline E fuel i ctx = .ok (e, ctx') →
       lookupMemo ctx'.memo q = some v) ∧
    (∀ (eIdx : Nat) (ss : List Nat) (ctx ctx' : LoweringContext)
       (q : PipelineId) (v : Nat),
       lookupMemo ctx.memo q = some v →
       walkSuccessors E fuel eIdx ss ctx = .ok ctx' →
       lookupMemo ctx'.memo q = some v) ∧
    (∀ (pred : Predecessor) (ss : List Nat) (ctx : LoweringContext)
       (l : List Nat) (ctx' : LoweringContext) (q : PipelineId) (v : Nat),
       lookupMemo ctx.memo q = some v →
       collectSuccessors E fuel pred ss ctx = .ok (l, ctx') →
       lookupMemo ctx'.memo q = some v) := by
  intro fuel
  induction fuel with
  | zero =>
    refine ⟨?_, ?_, ?_, ?_⟩
    · intro pred i ctx r ctx' q v _ h
      simp [processSuccessor] at h
    · intro i ctx e ctx' q v _ h
      simp [processOperatorPipeline] at h
    · intro eIdx ss ctx ctx' q v _ h
      simp [walkSuccessors] at h
    · intro pred ss ctx l ctx' q v hq h
      cases ss with
      | nil =>
        rw [collectSuccessors] at h
        cases h
        exact hq
      | cons s rest =>
        simp [collectSuccessors, processSuccessor] at h
  | succ f ih =>
    obtain ⟨ihS, ihO, ihW, ihC⟩ := ih
    have hOp : ∀ (i : Nat) (ctx : LoweringContext) (e : Nat)
        (ctx' : LoweringContext) (q : PipelineId) (v : Nat),
        lookupMemo ctx.memo q = some v →
        processOperatorPipeline E (f + 1) i ctx = .ok (e, ctx') →
        lookupMemo ctx'.memo q = some v := by
      intro i ctx e ctx' q v hq h
      rw [processOperatorPipeline] at h
      cases hn : E.plan.nodes[i]? with
      | none =>
        simp only [hn] at h
        cases h
      | some n =>
        simp only [hn] at h
        cases hlk : lookupMemo ctx.memo n.pid with
        | some e0 =>
          simp only [hlk] at h
          cases h
          exact hq
        | none =>
          simp only [hlk] at h
          cases hst : getStage E.plan.executionMode E.dumpMode i with
          | error err =>
            simp only [hst] at h
            cases h
          | ok stage =>
            simp only [hst] at h
            cases hw : walkSuccessors E f ctx.execs.length n.succs
                ({ ctx with execs := ctx.execs ++
                  [{ id := n.pid, stage := stage, successors := [] }] }) with
            | error err =>
              rw [hw] at h
              cases h
            | ok ctx2 =>
              rw [hw] at h
              injection h with h1
              injection h1 with he hc
              subst he
              subst hc
              have h2 : lookupMemo ctx2.memo q = some v :=
                ihW ctx.execs.length n.succs
                  ({ ctx with execs := ctx.execs ++
                    [{ id := n.pid, stage := stage, successors := [] }] })
                  ctx2 q v hq hw
              show lookupMemo (emplace ctx2.memo n.pid _) q = some v
              exact lookup_emplace_persist _ _ h2
    have hS : ∀ (pred : Predecessor) (i : Nat) (ctx : LoweringContext)
        (r : Option Nat) (ctx' : LoweringContext) (q : PipelineId) (v : Nat),
        lookupMemo ctx.memo q = some v →
        processSuccessor E (f + 1) pred i ctx = .ok (r, ctx') →
        lookupMemo ctx'.memo q = some v := by
      intro pred i ctx r ctx' q v hq h
      rw [processSuccessor] at h
      cases hn : E.plan.nodes[i]? with
      | none =>
        simp only [hn] at h
        cases h
      | some n =>
        simp only [hn] at h
        cases hroot : n.root with
        | sink d =>
          simp only [hroot] at h
          cases h
          exact hq
        | op =>
          simp only [hroot] at h
          cases hop : processOperatorPipeline E f i ctx with
          | error err =>
            simp only [hop] at h
            cases h
          | ok pr =>
            obtain ⟨j, ctx''⟩ := pr
            simp only [hop] at h
            cases h
            exact ihO i ctx j _ q v hq hop
        | source srcOp =>
          simp only [hroot] at h
          cases h
    have hWp : ∀ (eIdx : Nat) (ss : List Nat) (ctx ctx' : LoweringContext)
        (q : PipelineId) (v : Nat),
        lookupMemo ctx.memo q = some v →
        walkSuccessors E (f + 1) eIdx ss ctx = .ok ctx' →
        lookupMemo ctx'.memo q = some v := by
      intro eIdx ss ctx ctx' q v hq h
      cases ss with
      | nil =>
        rw [walkSuccessors] at h
        cases h
        exact hq
      | cons s rest =>
        rw [walkSuccessors] at h
        cases hps : processSuccessor E f (.exec eIdx) s ctx with
        | error err =>
          simp only [hps] at h
          cases h
        | ok pr =>
          obtain ⟨r, ctxm⟩ := pr
          have hqm := ihS (.exec eIdx) s ctx r ctxm q v hq hps
          cases r with
          | some j =>
            simp only [hps] at h
            exact ihW eIdx rest (pushSucc ctxm eIdx j) ctx' q v hqm h
          | none =>
            simp only [hps] at h
            exact ihW eIdx rest ctxm ctx' q v hqm h
    refine ⟨hS, hOp, hWp, ?_⟩
    intro pred ss ctx l ctx' q v hq h
    induction ss generalizing ctx l with
    | nil =>
      rw [collectSuccessors] at h
      cases h
      exact hq
    | cons s rest ihrest =>
      rw [collectSuccessors] at h
      cases hps : processSuccessor E (f + 1) pred s ctx with
      | error err =>
        simp only [hps] at h
        cases h
      | ok pr =>
        obtain ⟨r, ctxm⟩ := pr
        simp only [hps] at h
        have hqm := hS pred s ctx r ctxm q v hq hps
        cases hcl : collectSuccessors E (f + 1) pred rest ctxm with
        | error err =>
          simp only [hcl] at h
          cases h
        | ok pr2 =>
          obtain ⟨l2, ctx2⟩ := pr2
          simp only [hcl] at h
          cases h
          exact ihrest ctxm l2 hqm hcl

theorem injectFormatter_persist {E : Env} {fuel : Nat} {n : Pipeline}
    {srcOp : SourceOp} {ctx : LoweringContext} {l : List Nat}
    {ctx' : LoweringContext} {q : PipelineId} {v : Nat}
    (hq : lookupMemo ctx.memo q = some v)
    (h : injectFormatter E fuel n srcOp ctx = .ok (l, ctx')) :
    lookupMemo ctx'.memo q = some v := by
  rw [injectFormatter] at h
  by_cases hraw :
      toLowerCase srcOp.descriptor.parserConfig.parserType = "raw"
  · rw [if_pos hraw] at h
    exact (famM fuel).2.2.2 _ n.succs ctx l ctx' q v hq h
  · rw [if_neg hraw] at h
    simp only at h
    cases hcl : collectSuccessors E fuel (.exec ctx.execs.length) n.succs
        ({ ctx with execs := ctx.execs ++
          [{ id := n.pid
             stage := Stage.formatterTask (some srcOp.originId)
               srcOp.descriptor.parserConfig.parserType srcOp.descriptor.schema
               srcOp.descriptor.parserConfig.tupleDelimiter
               srcOp.descriptor.parserConfig.fieldDelimiter
             successors := [] }] }) with
    | error err =>
      rw [hcl] at h
      cases h
    | ok pr =>
      obtain ⟨l2, ctx2⟩ := pr
      rw [hcl] at h
      simp only at h
      injection h with h1
      injection h1 with hl hc
      subst hl
      subst hc
      have h2 : lookupMemo ctx2.memo q = some v :=
        (famM fuel).2.2.2 (.exec ctx.execs.length) n.succs
          ({ ctx with execs := ctx.execs ++
            [{ id := n.pid
               stage := Stage.formatterTask (some srcOp.originId)
                 srcOp.descriptor.parserConfig.parserType srcOp.descriptor.schema
                 srcOp.descriptor.parserConfig.tupleDelimiter
                 srcOp.descriptor.parserConfig.fieldDelimiter
               successors := [] }] })
          l2 ctx2 q v hq hcl
      show lookupMemo (emplace ctx2.memo n.pid _) q = some v
      exact lookup_emplace_persist _ _ h2

theorem processSource_persist {E : Env} {fuel sIdx : Nat}
    {ctx ctx' : LoweringContext} {q : PipelineId} {v : Nat}
    (hq : lookupMemo ctx.memo q = some v)
    (h : processSource E fuel sIdx ctx = .ok ctx') :
    lookupMemo ctx'.memo q = some v := by
  rw [processSource] at h
  cases hn : E.plan.nodes[sIdx]? with
  | none =>
    simp only [hn] at h
    cases h
  | some n =>
    simp only [hn] at h
    cases hroot : n.root with
    | sink d =>
      simp only [hroot] at h
      cases h
    | op =>
      simp only [hroot] at h
      cases h
    | source srcOp =>
      simp only [hroot] at h
      cases hw : walkSuccessors E fuel ctx.execs.length n.succs
          ({ ctx with execs := ctx.execs ++
            [{ id := n.pid
               stage := provideInputFormatterTask srcOp.descriptor.schema
                 srcOp.descriptor.parserConfig
               successors := [] }] }) with
      | error err =>
        rw [hw] at h
        cases h
      | ok ctx2 =>
        rw [hw] at h
        simp only at h
        have h2 : lookupMemo ctx2.memo q = some v :=
          (famM fuel).2.2.1 ctx.execs.length n.succs
            ({ ctx with execs := ctx.execs ++
              [{ id := n.pid
                 stage := provideInputFormatterTask srcOp.descriptor.schema
                   srcOp.descriptor.parserConfig
                 successors := [] }] })
            ctx2 q v hq hw
        cases hinj : injectFormatter E fuel n srcOp
            ({ ctx2 with
               planPipelines := ctx2.planPipelines.filter (fun j => j != sIdx)
               memo := emplace ctx2.memo ctx2.nextId ctx.execs.length
               nextId := ctx2.nextId + 1
               sources := ctx2.sources ++
                 [{ originId := srcOp.originId, descriptor := srcOp.descriptor
                    successors := [ctx.execs.length] }] }) with
        | error err =>
          rw [hinj] at h
          cases h
        | ok pr =>
          obtain ⟨l, ctx6⟩ := pr
          rw [hinj] at h
          simp only at h
          injection h with hc
          subst hc
          have h5 : lookupMemo (emplace ctx2.memo ctx2.nextId
              ctx.execs.length) q = some v :=
            lookup_emplace_persist _ _ h2
          show lookupMemo ctx6.memo q = some v
          exact injectFormatter_persist h5 hinj

theorem processSources_persist {E : Env} {fuel : Nat} :
    ∀ {ss : List Nat} {ctx ctx' : LoweringContext} {q : PipelineId} {v : Nat},
    lookupMemo ctx.memo q = some v →
    processSources E fuel ss ctx = .ok ctx' →
    lookupMemo ctx'.memo q = some v := by
  intro ss
  induction ss with
  | nil =>
    intro ctx ctx' q v hq h
    simp only [processSources] at h
    cases h
    exact hq
  | cons s rest ih =>
    intro ctx ctx' q v hq h
    rw [processSources] at h
    cases hps : processSource E fuel s ctx with
    | error err =>
      rw [hps] at h
      cases h
    | ok ctxm =>
      rw [hps] at h
      exact ih (processSource_persist hq hps) h

/-! Claim C1 machinery, part four: a successful `processOperatorPipeline`
leaves the pipeline's id in the memo map, bound to the returned executable
pipeline, and the successor walks wire every operator successor into the
predecessor's successor list. -/

theorem pOP_lookup {E : Env} (rank : Nat → Nat)
    (hrank : ∀ (i : Nat) (n : Pipeline), E.plan.nodes[i]? = some n →
      ∀ s ∈ n.succs, rank s < rank i)
    (hu : ∀ (i j : Nat) (n m : Pipeline), E.plan.nodes[i]? = some n →
      E.plan.nodes[j]? = some m → n.pid = m.pid → i = j) :
    ∀ (fuel i : Nat) (n : Pipeline) (ctx : LoweringContext)
      (e : Nat) (ctx' : LoweringContext), E.plan.nodes[i]? = some n →
      processOperatorPipeline E fuel i ctx = .ok (e, ctx') →
      lookupMemo ctx'.memo n.pid = some e := by
  intro fuel i n ctx e ctx' hn h
  cases fuel with
  | zero => simp [processOperatorPipeline] at h
  | succ f =>
    rw [processOperatorPipeline] at h
    simp only [hn] at h
    cases hlk : lookupMemo ctx.memo n.pid with
    | some e0 =>
      simp only [hlk] at h
      injection h with h1
      injection h1 with he hc
      subst he
      subst hc
      exact hlk
    | none =>
      simp only [hlk] at h
      cases hst : getStage E.plan.executionMode E.dumpMode i with
      | error err =>
        simp only [hst] at h
        cases h
      | ok stage =>
        simp only [hst] at h
        cases hw : walkSuccessors E f ctx.execs.length n.succs
            ({ ctx with execs := ctx.execs ++
              [{ id := n.pid, stage := stage, successors := [] }] }) with
        | error err =>
          rw [hw] at h
          cases h
        | ok ctx2 =>
          rw [hw] at h
          injection h with h1
          injection h1 with he hc
          subst he
          subst hc
          have hp : ∀ (i' : Nat) (n' : Pipeline), E.plan.nodes[i']? = some n' →
              n'.pid = n.pid → rank i ≤ rank i' := by
            intro i' n' h' hp'
            rw [hu i' i n' n h' hn hp']
          have hNW := (famN rank hrank n.pid (rank i) hp f).2.2
            ctx.execs.length n.succs _ ctx2
            (fun s hs => hrank i n hn s hs) hw
          have hl2 : lookupMemo ctx2.memo n.pid = none := by
            rw [hNW.2]
            exact hlk
          show lookupMemo (emplace ctx2.memo n.pid ctx.execs.length) n.pid
            = some ctx.execs.length
          rw [emplace_of_none _ hl2, lookupMemo_append_none _ hl2]
          simp [lookupMemo]

theorem pS_lookup {E : Env} (rank : Nat → Nat)
    (hrank : ∀ (i : Nat) (n : Pipeline), E.plan.nodes[i]? = some n →
      ∀ s ∈ n.succs, rank s < rank i)
    (hu : ∀ (i j : Nat) (n m : Pipeline), E.plan.nodes[i]? = some n →
      E.plan.nodes[j]? = some m → n.pid = m.pid → i = j) :
    ∀ (fuel : Nat) (pred : Predecessor) (i : Nat) (n : Pipeline)
      (ctx : LoweringContext) (r : Option Nat) (ctx' : LoweringContext),
      E.plan.nodes[i]? = some n → n.root = RootOp.op →
      processSuccessor E fuel pred i ctx = .ok (r, ctx') →
      ∃ j : Nat, r = some j ∧ lookupMemo ctx'.memo n.pid = some j := by
  intro fuel pred i n ctx r ctx' hn hroot h
  cases fuel with
  | zero => simp [processSuccessor] at h
  | succ f =>
    rw [processSuccessor] at h
    simp only [hn, hroot] at h
    cases hop : processOperatorPipeline E f i ctx with
    | error err =>
      simp only [hop] at h
      cases h
    | ok pr =>
      obtain ⟨j, ctx''⟩ := pr
      simp only [hop] at h
      injection h with h1
      injection h1 with hr hc
      subst hr
      subst hc
      exact ⟨j, rfl, pOP_lookup rank hrank hu f i n ctx j _ hn hop⟩

theorem walk_wired {E : Env} (rank : Nat → Nat)
    (hrank : ∀ (i : Nat) (n : Pipeline), E.plan.nodes[i]? = some n →
      ∀ s ∈ n.succs, rank s < rank i)
    (hu : ∀ (i j : Nat) (n m : Pipeline), E.plan.nodes[i]? = some n →
      E.plan.nodes[j]? = some m → n.pid = m.pid → i = j) :
    ∀ (fuel eIdx : Nat) (ss : List Nat) (ctx ctx' : LoweringContext),
      Inv E ctx → eIdx < ctx.execs.length →
      walkSuccessors E fuel eIdx ss ctx = .ok ctx' →
      ∀ s ∈ ss, ∀ m : Pipeline, E.plan.nodes[s]? = some m →
        m.root = RootOp.op →
        ∃ j : Nat, lookupMemo ctx'.memo m.pid = some j ∧
          ∃ e : ExecutablePipeline, ctx'.execs[eIdx]? = some e ∧
            j ∈ e.successors := by
  intro fuel
  induction fuel with
  | zero =>
    intro eIdx ss ctx ctx' _ _ h
    simp [walkSuccessors] at h
  | succ f ih =>
    intro eIdx ss ctx ctx' hI hlt h s hs m hm hroot
    cases ss with
    | nil => simp at hs
    | cons s0 rest =>
      rw [walkSuccessors] at h
      cases hps : processSuccessor E f (.exec eIdx) s0 ctx with
      | error err =>
        simp only [hps] at h
        cases h
      | ok pr =>
        obtain ⟨r, ctxm⟩ := pr
        obtain ⟨hIm, hSm, hrb⟩ := (famA f).1 E (.exec eIdx) s0 ctx r ctxm hI hps
        have hltm : eIdx < ctxm.execs.length := lt_of_lt_of_le hlt hSm.1.1
        rcases List.mem_cons.mp hs with hs0 | hsrest
        · subst hs0
          obtain ⟨j, hr, hlkm⟩ :=
            pS_lookup rank hrank hu f (.exec eIdx) s m ctx r ctxm hm hroot hps
          subst hr
          simp only [hps] at h
          have hjlt : j < ctxm.execs.length := hrb j rfl
          have hIp : Inv E (pushSucc ctxm eIdx j) := pushSucc_inv hIm eIdx hjlt
          obtain ⟨hI', hS'⟩ := (famA f).2.2.1 E eIdx rest _ ctx' hIp h
          obtain ⟨hee', ⟨Δ, hmΔ, _⟩, _⟩ := hS'
          refine ⟨j, ?_, ?_⟩
          · rw [hmΔ]
            exact lookupMemo_append_some Δ
              (show lookupMemo ctxm.memo m.pid = some j from hlkm)
          · obtain ⟨em, hem⟩ : ∃ em : ExecutablePipeline,
                ctxm.execs[eIdx]? = some em :=
              ⟨ctxm.execs[eIdx], List.getElem?_eq_getElem hltm⟩
            have hpe : (pushSucc ctxm eIdx j).execs[eIdx]? =
                some { em with successors := em.successors ++ [j] } := by
              show (updateAt ctxm.execs eIdx _)[eIdx]? = _
              rw [updateAt_getElem_self, hem]
              rfl
            obtain ⟨e', he', _, _, Δs, hsu⟩ := hee'.2 eIdx _ hpe
            refine ⟨e', he', ?_⟩
            rw [hsu]
            refine List.mem_append.mpr (Or.inl ?_)
            exact List.mem_append.mpr (Or.inr (List.mem_singleton.mpr rfl))
        · cases r with
          | some j =>
            simp only [hps] at h
            have hjlt : j < ctxm.execs.length := hrb j rfl
            have hIp : Inv E (pushSucc ctxm eIdx j) := pushSucc_inv hIm eIdx hjlt
            have hltp : eIdx < (pushSucc ctxm eIdx j).execs.length := by
              show eIdx < (updateAt ctxm.execs eIdx _).length
              rw [updateAt_length]
              exact hltm
            exact ih eIdx rest _ ctx' hIp hltp h s hsrest m hm hroot
          | none =>
            simp only [hps] at h
            exact ih eIdx rest ctxm ctx' hIm hltm h s hsrest m hm hroot

theorem coll_wired {E : Env} (rank : Nat → Nat)
    (hrank : ∀ (i : Nat) (n : Pipeline), E.plan.nodes[i]? = some n →
      ∀ s ∈ n.succs, rank s < rank i)
    (hu : ∀ (i j : Nat) (n m : Pipeline), E.plan.nodes[i]? = some n →
      E.plan.nodes[j]? = some m → n.pid = m.pid → i = j) :
    ∀ (fuel : Nat) (pred : Predecessor) (ss : List Nat)
      (ctx : LoweringContext) (l : List Nat) (ctx' : LoweringContext),
      Inv E ctx →
      collectSuccessors E fuel pred ss ctx = .ok (l, ctx') →
      ∀ s ∈ ss, ∀ m : Pipeline, E.plan.nodes[s]? = some m →
        m.root = RootOp.op →
        ∃ j : Nat, lookupMemo ctx'.memo m.pid = some j ∧ j ∈ l := by
  intro fuel pred ss
  induction ss with
  | nil =>
    intro ctx l ctx' _ h s hs
    simp at hs
  | cons s0 rest ih =>
    intro ctx l ctx' hI h s hs m hm hroot
    rw [collectSuccessors] at h
    cases hps : processSuccessor E fuel pred s0 ctx with
    | error err =>
      simp only [hps] at h
      cases h
    | ok pr =>
      obtain ⟨r, ctxm⟩ := pr
      simp only [hps] at h
      obtain ⟨hIm, hSm, _⟩ := (famA fuel).1 E pred s0 ctx r ctxm hI hps
      cases hcl : collectSuccessors E fuel pred rest ctxm with
      | error err =>
        simp only [hcl] at h
        cases h
      | ok pr2 =>
        obtain ⟨l2, ctx2⟩ := pr2
        simp only [hcl] at h
        injection h with h1
        injection h1 with hl hc
        subst hl
        subst hc
        rcases List.mem_cons.mp hs with hs0 | hsrest
        · subst hs0
          obtain ⟨j, hr, hlkm⟩ :=
            pS_lookup rank hrank hu fuel pred s m ctx r ctxm hm hroot hps
          subst hr
          obtain ⟨_, hS2, _⟩ := (famA fuel).2.2.2 E pred rest ctxm l2 ctx2 hIm hcl
          obtain ⟨_, ⟨Δ, hmΔ, _⟩, _⟩ := hS2
          refine ⟨j, ?_, ?_⟩
          · rw [hmΔ]
            exact lookupMemo_append_some Δ hlkm
          · simp
        · obtain ⟨j, hlk2, hjl⟩ := ih ctxm l2 ctx2 hIm hcl s hsrest m hm hroot
          exact ⟨j, hlk2, by simp [hjl]⟩

/-! Claim C1 machinery, part five: the wiring invariant `MemoWired` is
preserved by every step of the walk. -/

theorem memoWired_alloc {E : Env} {ctx : LoweringContext}
    (hI : Inv E ctx) (hW : MemoWired E ctx) (e : ExecutablePipeline) :
    MemoWired E { ctx with execs := ctx.execs ++ [e] } := by
  intro pe hpe hlt
  obtain ⟨i, n, e0, hn, hpid, he0, hid0, hcl⟩ := hW pe hpe hlt
  have hv : pe.2 < ctx.execs.length := hI.memoValid pe hpe
  exact ⟨i, n, e0, hn, hpid,
    by rw [getElem?_append_l _ _ _ hv]; exact he0, hid0, hcl⟩

theorem memoWired_pushSucc {E : Env} {ctx : LoweringContext}
    (hW : MemoWired E ctx) (eIdx j : Nat) :
    MemoWired E (pushSucc ctx eIdx j) := by
  intro pe hpe hlt
  obtain ⟨i, n, e0, hn, hpid, he0, hid0, hcl⟩ := hW pe hpe hlt
  by_cases hc : pe.2 = eIdx
  · subst hc
    refine ⟨i, n, { e0 with successors := e0.successors ++ [j] }, hn, hpid,
      ?_, hid0, ?_⟩
    · show (updateAt ctx.execs pe.2 _)[pe.2]? = _
      rw [updateAt_getElem_self, he0]
      rfl
    · intro s m hs hm hroot
      obtain ⟨es, hes, hins⟩ := hcl s m hs hm hroot
      exact ⟨es, hes, List.mem_append.mpr (Or.inl hins)⟩
  · refine ⟨i, n, e0, hn, hpid, ?_, hid0, hcl⟩
    show (updateAt ctx.execs eIdx _)[pe.2]? = _
    rw [updateAt_getElem_ne _ _ _ _ hc]
    exact he0

theorem memoWired_extend_high {E : Env} {ctx ctx' : LoweringContext}
    (hW : MemoWired E ctx) (hex : ctx'.execs = ctx.execs)
    (Δ : List (PipelineId × Nat)) (hmem : ctx'.memo = ctx.memo ++ Δ)
    (hb : ∀ pe ∈ Δ, E.plan.freshBase ≤ pe.1) : MemoWired E ctx' := by
  intro pe hpe hlt
  rw [hmem] at hpe
  rcases List.mem_append.mp hpe with hold | hnew
  · obtain ⟨i, n, e0, hn, hpid, he0, hid0, hcl⟩ := hW pe hold hlt
    refine ⟨i, n, e0, hn, hpid, by rw [hex]; exact he0, hid0, ?_⟩
    intro s m hs hm hroot
    obtain ⟨es, hes, hins⟩ := hcl s m hs hm hroot
    exact ⟨es, by rw [hmem]; exact List.mem_append.mpr (Or.inl hes), hins⟩
  · exact absurd hlt (Nat.not_lt.mpr (hb pe hnew))

theorem famB {E : Env} (rank : Nat → Nat)
    (hrank : ∀ (i : Nat) (n : Pipeline), E.plan.nodes[i]? = some n →
      ∀ s ∈ n.succs, rank s < rank i)
    (hu : ∀ (i j : Nat) (n m : Pipeline), E.plan.nodes[i]? = some n →
      E.plan.nodes[j]? = some m → n.pid = m.pid → i = j) :
    ∀ fuel : Nat,
      (∀ (pred : Predecessor) (i : Nat) (ctx : LoweringContext)
         (r : Option Nat) (ctx' : LoweringContext), Inv E ctx →
         MemoWired E ctx →
         processSuccessor E fuel pred i ctx = .ok (r, ctx') →
         MemoWired E ctx') ∧
      (∀ (i : Nat) (ctx : LoweringContext) (e : Nat) (ctx' : LoweringContext),
         Inv E ctx → MemoWired E ctx →
         (∃ n : Pipeline, E.plan.nodes[i]? = some n ∧ n.root = RootOp.op) →
         processOperatorPipeline E fuel i ctx = .ok (e, ctx') →
         MemoWired E ctx') ∧
      (∀ (eIdx : Nat) (ss : List Nat) (ctx ctx' : LoweringContext),
         Inv E ctx → MemoWired E ctx →
         walkSuccessors E fuel eIdx ss ctx = .ok ctx' →
         MemoWired E ctx') ∧
      (∀ (pred : Predecessor) (ss : List Nat) (ctx : LoweringContext)
         (l : List Nat) (ctx' : LoweringContext), Inv E ctx →
         MemoWired E ctx →
         collectSuccessors E fuel pred ss ctx = .ok (l, ctx') →
         MemoWired E ctx') := by
  intro fuel
  induction fuel with
  | zero =>
    refine ⟨?_, ?_, ?_, ?_⟩
    · intro pred i ctx r ctx' _ _ h
      simp [processSuccessor] at h
    · intro i ctx e ctx' _ _ _ h
      simp [processOperatorPipeline] at h
    · intro eIdx ss ctx ctx' _ _ h
      simp [walkSuccessors] at h
    · intro pred ss ctx l ctx' _ hW h
      cases ss with
      | nil =>
        rw [collectSuccessors] at h
        cases h
        exact hW
      | cons s rest =>
        simp [collectSuccessors, processSuccessor] at h
  | succ f ih =>
    obtain ⟨ihS, ihO, ihW, ihC⟩ := ih
    have hOp : ∀ (i : Nat) (ctx : LoweringContext) (e : Nat)
        (ctx' : LoweringContext), Inv E ctx → MemoWired E ctx →
        (∃ n : Pipeline, E.plan.nodes[i]? = some n ∧ n.root = RootOp.op) →
        processOperatorPipeline E (f + 1) i ctx = .ok (e, ctx') →
        MemoWired E ctx' := by
      intro i ctx e ctx' hI hW hex h
      rw [processOperatorPipeline] at h
      cases hn : E.plan.nodes[i]? with
      | none =>
        simp only [hn] at h
        cases h
      | some n =>
        simp only [hn] at h
        cases hlk : lookupMemo ctx.memo n.pid with
        | some e0 =>
          simp only [hlk] at h
          cases h
          exact hW
        | none =>
          simp only [hlk] at h
          cases hst : getStage E.plan.executionMode E.dumpMode i with
          | error err =>
            simp only [hst] at h
            cases h
          | ok stage =>
            simp only [hst] at h
            cases hw : walkSuccessors E f ctx.execs.length n.succs
                ({ ctx with execs := ctx.execs ++
                  [{ id := n.pid, stage := stage, successors := [] }] }) with
            | error err =>
              rw [hw] at h
              cases h
            | ok ctx2 =>
              rw [hw] at h
              injection h with h1
              injection h1 with he hc
              subst he
              subst hc
              obtain ⟨n', hn', hroot'⟩ := hex
              rw [hn] at hn'
              injection hn' with hne
              subst hne
              have hns : n.isSinkPipeline = false := by
                simp [Pipeline.isSinkPipeline, hroot']
              have hI1 : Inv E ({ ctx with execs := ctx.execs ++
                  [{ id := n.pid, stage := stage, successors := [] }] }) :=
                alloc_inv hI hn rfl hns rfl
              have hW1 : MemoWired E ({ ctx with execs := ctx.execs ++
                  [{ id := n.pid, stage := stage, successors := [] }] }) :=
                memoWired_alloc hI hW _
              obtain ⟨hI2, hS2⟩ :=
                (famA f).2.2.1 E ctx.execs.length n.succs _ ctx2 hI1 hw
              have hW2 : MemoWired E ctx2 :=
                ihW ctx.execs.length n.succs _ ctx2 hI1 hW1 hw
              have hww := walk_wired rank hrank hu f ctx.execs.length
                n.succs _ ctx2 hI1 (by simp) hw
              have hp : ∀ (i' : Nat) (m' : Pipeline),
                  E.plan.nodes[i']? = some m' → m'.pid = n.pid →
                  rank i ≤ rank i' := by
                intro i' m' h' hp'
                rw [hu i' i m' n h' hn hp']
              have hNW := (famN rank hrank n.pid (rank i) hp f).2.2
                ctx.execs.length n.succs _ ctx2
                (fun s hs => hrank i n hn s hs) hw
              have hl2 : lookupMemo ctx2.memo n.pid = none := by
                rw [hNW.2]
                exact hlk
              have hemm : emplace ctx2.memo n.pid ctx.execs.length =
                  ctx2.memo ++ [(n.pid, ctx.execs.length)] :=
                emplace_of_none _ hl2
              intro pe hpe hlt
              have hpe2 : pe ∈ ctx2.memo ++ [(n.pid, ctx.execs.length)] := by
                rw [← hemm]
                exact hpe
              rcases List.mem_append.mp hpe2 with hold | hnew
              · obtain ⟨i0, n0, e0, hn0, hpid0, he0, hid0, hcl⟩ :=
                  hW2 pe hold hlt
                refine ⟨i0, n0, e0, hn0, hpid0, he0, hid0, ?_⟩
                intro s m hs hm hroot
                obtain ⟨es, hes, hins⟩ := hcl s m hs hm hroot
                refine ⟨es, ?_, hins⟩
                show (m.pid, es) ∈ emplace ctx2.memo n.pid ctx.execs.length
                rw [hemm]
                exact List.mem_append.mpr (Or.inl hes)
              · have hpee : pe = (n.pid, ctx.execs.length) :=
                  List.mem_singleton.mp hnew
                subst hpee
                have h1e : ({ ctx with execs := ctx.execs ++
                    [{ id := n.pid, stage := stage, successors := [] }]
                    } : LoweringContext).execs[ctx.execs.length]? =
                    some { id := n.pid, stage := stage, successors := [] } :=
                  getElem?_snoc_self ctx.execs _
                obtain ⟨e', he', hid', _, Δs, hsu⟩ := hS2.1.2 _ _ h1e
                refine ⟨i, n, e', hn, rfl, he', hid', ?_⟩
                intro s m hs hm hroot
                obtain ⟨j, hlkj, e'', he'', hjin⟩ := hww s hs m hm hroot
                rw [he'] at he''
                injection he'' with hee
                subst hee
                refine ⟨j, ?_, hjin⟩
                show (m.pid, j) ∈ emplace ctx2.memo n.pid ctx.execs.length
                rw [hemm]
                exact List.mem_append.mpr (Or.inl (lookupMemo_mem hlkj))
    have hS : ∀ (pred : Predecessor) (i : Nat) (ctx : LoweringContext)
        (r : Option Nat) (ctx' : LoweringContext), Inv E ctx →
        MemoWired E ctx →
        processSuccessor E (f + 1) pred i ctx = .ok (r, ctx') →
        MemoWired E ctx' := by
      intro pred i ctx r ctx' hI hW h
      rw [processSuccessor] at h
      cases hn : E.plan.nodes[i]? with
      | none =>
        simp only [hn] at h
        cases h
      | some n =>
        simp only [hn] at h
        cases hroot : n.root with
        | sink d =>
          simp only [hroot] at h
          cases h
          exact hW
        | op =>
          simp only [hroot] at h
          cases hop : processOperatorPipeline E f i ctx with
          | error err =>
            simp only [hop] at h
            cases h
          | ok pr =>
            obtain ⟨j, ctx''⟩ := pr
            simp only [hop] at h
            cases h
            exact ihO i ctx j _ hI hW ⟨n, hn, hroot⟩ hop
        | source srcOp =>
          simp only [hroot] at h
          cases h
    have hWp : ∀ (eIdx : Nat) (ss : List Nat) (ctx ctx' : LoweringContext),
        Inv E ctx → MemoWired E ctx →
        walkSuccessors E (f + 1) eIdx ss ctx = .ok ctx' →
        MemoWired E ctx' := by
      intro eIdx ss ctx ctx' hI hW h
      cases ss with
      | nil =>
        rw [walkSuccessors] at h
        cases h
        exact hW
      | cons s rest =>
        rw [walkSuccessors] at h
        cases hps : processSuccessor E f (.exec eIdx) s ctx with
        | error err =>
          simp only [hps] at h
          cases h
        | ok pr =>
          obtain ⟨r, ctxm⟩ := pr
          obtain ⟨hIm, _, hrb⟩ := (famA f).1 E (.exec eIdx) s ctx r ctxm hI hps
          have hWm := ihS (.exec eIdx) s ctx r ctxm hI hW hps
          cases r with
          | some j =>
            simp only [hps] at h
            have hjlt : j < ctxm.execs.length := hrb j rfl
            exact ihW eIdx rest _ ctx' (pushSucc_inv hIm eIdx hjlt)
              (memoWired_pushSucc hWm eIdx j) h
          | none =>
            simp only [hps] at h
            exact ihW eIdx rest ctxm ctx' hIm hWm h
    refine ⟨hS, hOp, hWp, ?_⟩
    intro pred ss ctx l ctx' hI hW h
    induction ss generalizing ctx l with
    | nil =>
      rw [collectSuccessors] at h
      cases h
      exact hW
    | cons s rest ihrest =>
      rw [collectSuccessors] at h
      cases hps : processSuccessor E (f + 1) pred s ctx with
      | error err =>
        simp only [hps] at h
        cases h
      | ok pr =>
        obtain ⟨r, ctxm⟩ := pr
        simp only [hps] at h
        obtain ⟨hIm, _, _⟩ := (famA (f + 1)).1 E pred s ctx r ctxm hI hps
        have hWm := hS pred s ctx r ctxm hI hW hps
        cases hcl : collectSuccessors E (f + 1) pred rest ctxm with
        | error err =>
          simp only [hcl] at h
          cases h
        | ok pr2 =>
          obtain ⟨l2, ctx2⟩ := pr2
          simp only [hcl] at h
          cases h
          exact ihrest ctxm l2 hIm hWm hcl

theorem injectFormatter_wired {E : Env} (rank : Nat → Nat)
    (hrank : ∀ (i : Nat) (n : Pipeline), E.plan.nodes[i]? = some n →
      ∀ s ∈ n.succs, rank s < rank i)
    (hu : ∀ (i j : Nat) (n m : Pipeline), E.plan.nodes[i]? = some n →
      E.plan.nodes[j]? = some m → n.pid = m.pid → i = j)
    {fuel sIdx : Nat} {n : Pipeline} {srcOp : SourceOp}
    {ctx : LoweringContext} {l : List Nat} {ctx' : LoweringContext}
    (hI : Inv E ctx) (hW : MemoWired E ctx)
    (hn : E.plan.nodes[sIdx]? = some n) (hns : n.isSinkPipeline = false)
    (h : injectFormatter E fuel n srcOp ctx = .ok (l, ctx')) :
    MemoWired E ctx' := by
  rw [injectFormatter] at h
  by_cases hraw :
      toLowerCase srcOp.descriptor.parserConfig.parserType = "raw"
  · rw [if_pos hraw] at h
    exact (famB rank hrank hu fuel).2.2.2 _ n.succs ctx l ctx' hI hW h
  · rw [if_neg hraw] at h
    simp only at h
    set eIdx := ctx.execs.length with heIdx
    set newExec : ExecutablePipeline :=
      { id := n.pid
        stage := Stage.formatterTask (some srcOp.originId)
          srcOp.descriptor.parserConfig.parserType srcOp.descriptor.schema
          srcOp.descriptor.parserConfig.tupleDelimiter
          srcOp.descriptor.parserConfig.fieldDelimiter
        successors := [] } with hnew
    set ctx1 : LoweringContext :=
      { ctx with execs := ctx.execs ++ [newExec] } with hctx1
    cases hcl : collectSuccessors E fuel (.exec eIdx) n.succs ctx1 with
    | error err =>
      rw [hcl] at h
      cases h
    | ok pr =>
      obtain ⟨l2, ctx2⟩ := pr
      rw [hcl] at h
      simp only at h
      injection h with h1
      injection h1 with hl hc
      subst hl
      subst hc
      have hI1 : Inv E ctx1 := alloc_inv hI hn rfl hns rfl
      have hW1 : MemoWired E ctx1 := memoWired_alloc hI hW newExec
      obtain ⟨hI2, hS2, hl2b⟩ := (famA fuel).2.2.2 E _ n.succs ctx1 l2 ctx2 hI1 hcl
      have hW2 : MemoWired E ctx2 :=
        (famB rank hrank hu fuel).2.2.2 _ n.succs ctx1 l2 ctx2 hI1 hW1 hcl
      obtain ⟨hee, ⟨Δc, hmc, hbc⟩, _⟩ := hS2
      have hlen1 : ctx1.execs.length = eIdx + 1 := by
        simp [hctx1, heIdx]
      have hm2 : ctx2.memo = ctx.memo ++ Δc := by
        simpa [hctx1] using hmc
      have hcw := coll_wired rank hrank hu fuel (.exec eIdx) n.succs ctx1 l2
        ctx2 hI1 hcl
      set ctx3 : LoweringContext := { ctx2 with execs := updateAt ctx2.execs eIdx (fun ep => { ep with successors := l2 }) } with hctx3
      have hne3 : ∀ pe ∈ ctx2.memo, pe.2 ≠ eIdx := by
        intro pe hpe
        rw [hm2] at hpe
        rcases List.mem_append.mp hpe with h1 | h1
        · have := hI.memoValid pe h1
          omega
        · have := hbc pe h1
          rw [hlen1] at this
          omega
      have hW3 : MemoWired E ctx3 := by
        intro pe hpe hlt
        obtain ⟨i0, n0, e0, hn0, hpid0, he0, hid0, hcl0⟩ := hW2 pe hpe hlt
        refine ⟨i0, n0, e0, hn0, hpid0, ?_, hid0, hcl0⟩
        show (updateAt ctx2.execs eIdx _)[pe.2]? = _
        rw [updateAt_getElem_ne _ _ _ _ (hne3 pe hpe)]
        exact he0
      have h1e : ctx1.execs[eIdx]? = some newExec := by
        simp only [hctx1]
        exact getElem?_snoc_self ctx.execs newExec
      obtain ⟨e', he', hid', _, _⟩ := hee.2 eIdx newExec h1e
      have he3 : ctx3.execs[eIdx]? = some { e' with successors := l2 } := by
        show (updateAt ctx2.execs eIdx _)[eIdx]? = _
        rw [updateAt_getElem_self, he']
        rfl
      cases hlf : lookupMemo ctx2.memo n.pid with
      | some w =>
        have hemm : emplace ctx3.memo n.pid eIdx = ctx3.memo :=
          emplace_of_some _ (show lookupMemo ctx2.memo n.pid = some w from hlf)
        intro pe hpe hlt
        have hpe2 : pe ∈ ctx3.memo := by
          rw [← hemm]
          exact hpe
        obtain ⟨i0, n0, e0, hn0, hpid0, he0, hid0, hcl0⟩ := hW3 pe hpe2 hlt
        refine ⟨i0, n0, e0, hn0, hpid0, he0, hid0, ?_⟩
        intro s m hs hm hroot
        obtain ⟨es, hes, hins⟩ := hcl0 s m hs hm hroot
        refine ⟨es, ?_, hins⟩
        show (m.pid, es) ∈ emplace ctx3.memo n.pid eIdx
        rw [hemm]
        exact hes
      | none =>
        have hemm : emplace ctx3.memo n.pid eIdx =
            ctx3.memo ++ [(n.pid, eIdx)] :=
          emplace_of_none _ (show lookupMemo ctx2.memo n.pid = none from hlf)
        intro pe hpe hlt
        have hpe2 : pe ∈ ctx3.memo ++ [(n.pid, eIdx)] := by
          rw [← hemm]
          exact hpe
        rcases List.mem_append.mp hpe2 with hold | hnew2
        · obtain ⟨i0, n0, e0, hn0, hpid0, he0, hid0, hcl0⟩ := hW3 pe hold hlt
          refine ⟨i0, n0, e0, hn0, hpid0, he0, hid0, ?_⟩
          intro s m hs hm hroot
          obtain ⟨es, hes, hins⟩ := hcl0 s m hs hm hroot
          refine ⟨es, ?_, hins⟩
          show (m.pid, es) ∈ emplace ctx3.memo n.pid eIdx
          rw [hemm]
          exact List.mem_append.mpr (Or.inl hes)
        · have hpee : pe = (n.pid, eIdx) := List.mem_singleton.mp hnew2
          subst hpee
          refine ⟨sIdx, n, { e' with successors := l2 }, hn, rfl, he3, ?_, ?_⟩
          · show e'.id = n.pid
            rw [hid']
          · intro s m hs hm hroot
            obtain ⟨j, hlkj, hjl⟩ := hcw s hs m hm hroot
            refine ⟨j, ?_, hjl⟩
            show (m.pid, j) ∈ emplace ctx3.memo n.pid eIdx
            rw [hemm]
            exact List.mem_append.mpr (Or.inl (lookupMemo_mem hlkj))

theorem processSource_wired {E : Env} (rank : Nat → Nat)
    (hrank : ∀ (i : Nat) (n : Pipeline), E.plan.nodes[i]? = some n →
      ∀ s ∈ n.succs, rank s < rank i)
    (hu : ∀ (i j : Nat) (n m : Pipeline), E.plan.nodes[i]? = some n →
      E.plan.nodes[j]? = some m → n.pid = m.pid → i = j)
    {fuel sIdx : Nat} {ctx ctx' : LoweringContext}
    (hI : Inv E ctx) (hW : MemoWired E ctx)
    (h : processSource E fuel sIdx ctx = .ok ctx') : MemoWired E ctx' := by
  rw [processSource] at h
  cases hn : E.plan.nodes[sIdx]? with
  | none =>
    simp only [hn] at h
    cases h
  | some n =>
    simp only [hn] at h
    cases hroot : n.root with
    | sink d =>
      simp only [hroot] at h
      cases h
    | op =>
      simp only [hroot] at h
      cases h
    | source srcOp =>
      simp only [hroot] at h
      set eIdx := ctx.execs.length with heIdx
      set newExec : ExecutablePipeline :=
        { id := n.pid
          stage := provideInputFormatterTask srcOp.descriptor.schema
            srcOp.descriptor.parserConfig
          successors := [] } with hnew
      set ctx1 : LoweringContext :=
        { ctx with execs := ctx.execs ++ [newExec] } with hctx1
      cases hw : walkSuccessors E fuel eIdx n.succs ctx1 with
      | error err =>
        rw [hw] at h
        cases h
      | ok ctx2 =>
        rw [hw] at h
        simp only at h
        have hns : n.isSinkPipeline = false := by
          simp [Pipeline.isSinkPipeline, hroot]
        have hI1 : Inv E ctx1 := alloc_inv hI hn rfl hns rfl
        have hW1 : MemoWired E ctx1 := memoWired_alloc hI hW newExec
        obtain ⟨hI2, hS2⟩ := (famA fuel).2.2.1 E eIdx n.succs ctx1 ctx2 hI1 hw
        have hW2 : MemoWired E ctx2 :=
          (famB rank hrank hu fuel).2.2.1 eIdx n.succs ctx1 ctx2 hI1 hW1 hw
        obtain ⟨hee, ⟨Δw, hmw, hbw⟩, hni⟩ := hS2
        have hlen1 : ctx1.execs.length = eIdx + 1 := by
          simp [hctx1, heIdx]
        have hlt2 : eIdx < ctx2.execs.length := by
          have := hee.1
          omega
        have hm2 : ctx2.memo = ctx.memo ++ Δw := by
          simpa [hctx1] using hmw
        set ctx5 : LoweringContext :=
          { ctx2 with
            planPipelines := ctx2.planPipelines.filter (fun j => j != sIdx)
            memo := emplace ctx2.memo ctx2.nextId eIdx
            nextId := ctx2.nextId + 1
            sources := ctx2.sources ++
              [{ originId := srcOp.originId, descriptor := srcOp.descriptor
                 successors := [eIdx] }] } with hctx5
        have hbase2 : E.plan.freshBase ≤ ctx2.nextId := hI2.nextIdBase
        have hW5 : MemoWired E ctx5 := by
          cases hlk2 : lookupMemo ctx2.memo ctx2.nextId with
          | some v =>
            refine memoWired_extend_high hW2 rfl [] ?_ (by simp)
            show emplace ctx2.memo ctx2.nextId eIdx = ctx2.memo ++ []
            rw [List.append_nil]
            exact emplace_of_some _ hlk2
          | none =>
            refine memoWired_extend_high hW2 rfl [(ctx2.nextId, eIdx)] ?_ ?_
            · exact emplace_of_none _ hlk2
            · intro pe hpe
              have : pe = (ctx2.nextId, eIdx) := List.mem_singleton.mp hpe
              subst this
              exact hbase2
        have hI5 : Inv E ctx5 := by
          constructor
          · intro pe hpe
            show pe.2 < ctx2.execs.length
            have : pe ∈ emplace ctx2.memo ctx2.nextId eIdx := hpe
            unfold emplace at this
            cases hlk2 : lookupMemo ctx2.memo ctx2.nextId with
            | some v =>
              rw [hlk2] at this
              exact hI2.memoValid pe this
            | none =>
              rw [hlk2] at this
              rcases List.mem_append.mp this with h1 | h1
              · exact hI2.memoValid pe h1
              · simp at h1
                subst h1
                exact hlt2
          · exact emplace_keys_nodup hI2.memoKeys
          · intro pe hpe hltb
            have : pe ∈ emplace ctx2.memo ctx2.nextId eIdx := hpe
            unfold emplace at this
            cases hlk2 : lookupMemo ctx2.memo ctx2.nextId with
            | some v =>
              rw [hlk2] at this
              exact hI2.memoId pe this hltb
            | none =>
              rw [hlk2] at this
              rcases List.mem_append.mp this with h1 | h1
              · exact hI2.memoId pe h1 hltb
              · exfalso
                simp at h1
                have hx : ctx2.nextId < E.plan.freshBase := by
                  have h2 := hltb
                  rw [h1] at h2
                  exact h2
                omega
          · exact hI2.execIds
          · exact hI2.succValid
          · show E.plan.freshBase ≤ ctx2.nextId + 1
            omega
          · exact hI2.sinkIds
        cases hif : injectFormatter E fuel n srcOp ctx5 with
        | error err =>
          rw [hif] at h
          cases h
        | ok pr =>
          obtain ⟨l, ctx6⟩ := pr
          rw [hif] at h
          simp only at h
          cases h
          have hW6 : MemoWired E ctx6 :=
            injectFormatter_wired rank hrank hu hI5 hW5 hn hns hif
          intro pe hpe hlt
          obtain ⟨i0, n0, e0, hn0, hpid0, he0, hid0, hcl0⟩ := hW6 pe hpe hlt
          exact ⟨i0, n0, e0, hn0, hpid0, he0, hid0, hcl0⟩

theorem processSources_wired {E : Env} (rank : Nat → Nat)
    (hrank : ∀ (i : Nat) (n : Pipeline), E.plan.nodes[i]? = some n →
      ∀ s ∈ n.succs, rank s < rank i)
    (hu : ∀ (i j : Nat) (n m : Pipeline), E.plan.nodes[i]? = some n →
      E.plan.nodes[j]? = some m → n.pid = m.pid → i = j)
    {fuel : Nat} :
    ∀ {ss : List Nat} {ctx ctx' : LoweringContext}, Inv E ctx →
    MemoWired E ctx → processSources E fuel ss ctx = .ok ctx' →
    MemoWired E ctx' := by
  intro ss
  induction ss with
  | nil =>
    intro ctx ctx' _ hW h
    simp only [processSources] at h
    cases h
    exact hW
  | cons s rest ih =>
    intro ctx ctx' hI hW h
    rw [processSources] at h
    cases hps : processSource E fuel s ctx with
    | error err =>
      rw [hps] at h
      cases h
    | ok ctxm =>
      rw [hps] at h
      obtain ⟨hIm, _⟩ := processSource_basic hI hps
      exact ih hIm (processSource_wired rank hrank hu hI hW hps) h

theorem lower_wired {E : Env} (rank : Nat → Nat)
    (hrank : ∀ (i : Nat) (n : Pipeline), E.plan.nodes[i]? = some n →
      ∀ s ∈ n.succs, rank s < rank i)
    (hu : ∀ (i j : Nat) (n m : Pipeline), E.plan.nodes[i]? = some n →
      E.plan.nodes[j]? = some m → n.pid = m.pid → i = j)
    {fuel : Nat} {cqp : CompiledQueryPlan} {ctxF : LoweringContext}
    (h : lower E fuel = .ok (cqp, ctxF)) : MemoWired E ctxF := by
  rw [lower] at h
  cases hps : processSources E fuel (getSourcePipelines E)
      (initialContext E) with
  | error err =>
    rw [hps] at h
    cases h
  | ok ctx =>
    rw [hps] at h
    simp only at h
    injection h with h1
    injection h1 with hc hctx
    subst hctx
    have hW0 : MemoWired E (initialContext E) := by
      intro pe hpe hlt
      simp [initialContext] at hpe
    exact processSources_wired rank hrank hu (initialContext_inv E) hW0 hps

/-! Claim C1 machinery, part six: the exact-count invariant for the fixed
operator node's id is preserved by the source-level phases. -/

theorem injectFormatter_countOK {E : Env} (rank : Nat → Nat)
    (hrank : ∀ (i : Nat) (n : Pipeline), E.plan.nodes[i]? = some n →
      ∀ s ∈ n.succs, rank s < rank i)
    (p x : Nat) (nX : Pipeline) (hx : E.plan.nodes[x]? = some nX)
    (hxid : nX.pid = p)
    (huniq : ∀ (i : Nat) (n : Pipeline), E.plan.nodes[i]? = some n →
      n.pid = p → i = x)
    {fuel : Nat} {n : Pipeline} {srcOp : SourceOp}
    {ctx : LoweringContext} {l : List Nat} {ctx' : LoweringContext}
    (hnep : n.pid ≠ p) (hC : CountOK p ctx)
    (h : injectFormatter E fuel n srcOp ctx = .ok (l, ctx')) :
    CountOK p ctx' := by
  rw [injectFormatter] at h
  by_cases hraw :
      toLowerCase srcOp.descriptor.parserConfig.parserType = "raw"
  · rw [if_pos hraw] at h
    exact (famC rank hrank p x nX hx hxid huniq fuel).2.2.2
      _ n.succs ctx l ctx' hC h
  · rw [if_neg hraw] at h
    simp only at h
    set eIdx := ctx.execs.length with heIdx
    set newExec : ExecutablePipeline :=
      { id := n.pid
        stage := Stage.formatterTask (some srcOp.originId)
          srcOp.descriptor.parserConfig.parserType srcOp.descriptor.schema
          srcOp.descriptor.parserConfig.tupleDelimiter
          srcOp.descriptor.parserConfig.fieldDelimiter
        successors := [] } with hnew
    set ctx1 : LoweringContext :=
      { ctx with execs := ctx.execs ++ [newExec] } with hctx1
    cases hcl : collectSuccessors E fuel (.exec eIdx) n.succs ctx1 with
    | error err =>
      rw [hcl] at h
      cases h
    | ok pr =>
      obtain ⟨l2, ctx2⟩ := pr
      rw [hcl] at h
      simp only at h
      injection h with h1
      injection h1 with hl hc
      subst hl
      subst hc
      have hC1 : CountOK p ctx1 := by
        unfold CountOK at hC ⊢
        show countIds (ctx.execs ++ [newExec]) p =
          if (lookupMemo ctx.memo p).isSome then 1 else 0
        rw [countIds_snoc]
        have hz : (if newExec.id = p then 1 else 0) = 0 := by
          simp [hnew, hnep]
        rw [hz, Nat.add_zero]
        exact hC
      have hC2 : CountOK p ctx2 :=
        (famC rank hrank p x nX hx hxid huniq fuel).2.2.2
          _ n.succs ctx1 l2 ctx2 hC1 hcl
      unfold CountOK at hC2 ⊢
      show countIds (updateAt ctx2.execs eIdx
          (fun ep => { ep with successors := l2 })) p =
        if (lookupMemo (emplace ctx2.memo n.pid eIdx) p).isSome
          then 1 else 0
      rw [countIds_updateAt_of_id ctx2.execs eIdx
        (fun ep => { ep with successors := l2 }) (fun e => rfl) p]
      rw [lookupMemo_emplace_ne _ hnep]
      exact hC2

theorem processSource_countOK {E : Env} (rank : Nat → Nat)
    (hrank : ∀ (i : Nat) (n : Pipeline), E.plan.nodes[i]? = some n →
      ∀ s ∈ n.succs, rank s < rank i)
    (p x : Nat) (nX : Pipeline) (hx : E.plan.nodes[x]? = some nX)
    (hxid : nX.pid = p) (hxroot : nX.root = RootOp.op)
    (huniq : ∀ (i : Nat) (n : Pipeline), E.plan.nodes[i]? = some n →
      n.pid = p → i = x)
    {fuel sIdx : Nat} {ctx ctx' : LoweringContext} (hI : Inv E ctx)
    (hC : CountOK p ctx)
    (h : processSource E fuel sIdx ctx = .ok ctx') : CountOK p ctx' := by
  rw [processSource] at h
  cases hn : E.plan.nodes[sIdx]? with
  | none =>
    simp only [hn] at h
    cases h
  | some n =>
    simp only [hn] at h
    cases hroot : n.root with
    | sink d =>
      simp only [hroot] at h
      cases h
    | op =>
      simp only [hroot] at h
      cases h
    | source srcOp =>
      simp only [hroot] at h
      have hnep : n.pid ≠ p := by
        intro hEq
        have hix := huniq sIdx n hn hEq
        subst hix
        rw [hx] at hn
        injection hn with hh
        rw [← hh] at hroot
        rw [hxroot] at hroot
        cases hroot
      set eIdx := ctx.execs.length with heIdx
      set newExec : ExecutablePipeline :=
        { id := n.pid
          stage := provideInputFormatterTask srcOp.descriptor.schema
            srcOp.descriptor.parserConfig
          successors := [] } with hnew
      set ctx1 : LoweringContext :=
        { ctx with execs := ctx.execs ++ [newExec] } with hctx1
      cases hw : walkSuccessors E fuel eIdx n.succs ctx1 with
      | error err =>
        rw [hw] at h
        cases h
      | ok ctx2 =>
        rw [hw] at h
        simp only at h
        have hns : n.isSinkPipeline = false := by
          simp [Pipeline.isSinkPipeline, hroot]
        have hI1 : Inv E ctx1 := alloc_inv hI hn rfl hns rfl
        obtain ⟨hI2, _⟩ := (famA fuel).2.2.1 E eIdx n.succs ctx1 ctx2 hI1 hw
        have hC1 : CountOK p ctx1 := by
          unfold CountOK at hC ⊢
          show countIds (ctx.execs ++ [newExec]) p =
            if (lookupMemo ctx.memo p).isSome then 1 else 0
          rw [countIds_snoc]
          have hz : (if newExec.id = p then 1 else 0) = 0 := by
            simp [hnew, hnep]
          rw [hz, Nat.add_zero]
          exact hC
        have hC2 : CountOK p ctx2 :=
          (famC rank hrank p x nX hx hxid huniq fuel).2.2.1
            eIdx n.succs ctx1 ctx2 hC1 hw
        have hplt : p < E.plan.freshBase := by
          rw [← hxid]
          exact pid_lt_freshBase x nX hx
        have hkne : ctx2.nextId ≠ p := by
          have := hI2.nextIdBase
          omega
        set ctx5 : LoweringContext :=
          { ctx2 with
            planPipelines := ctx2.planPipelines.filter (fun j => j != sIdx)
            memo := emplace ctx2.memo ctx2.nextId eIdx
            nextId := ctx2.nextId + 1
            sources := ctx2.sources ++
              [{ originId := srcOp.originId, descriptor := srcOp.descriptor
                 successors := [eIdx] }] } with hctx5
        have hC5 : CountOK p ctx5 := by
          unfold CountOK at hC2 ⊢
          show countIds ctx2.execs p =
            if (lookupMemo (emplace ctx2.memo ctx2.nextId eIdx) p).isSome
              then 1 else 0
          rw [lookupMemo_emplace_ne _ hkne]
          exact hC2
        cases hif : injectFormatter E fuel n srcOp ctx5 with
        | error err =>
          rw [hif] at h
          cases h
        | ok pr =>
          obtain ⟨l, ctx6⟩ := pr
          rw [hif] at h
          simp only at h
          cases h
          have hC6 : CountOK p ctx6 :=
            injectFormatter_countOK rank hrank p x nX hx hxid huniq
              hnep hC5 hif
          unfold CountOK at hC6 ⊢
          exact hC6

theorem processSources_countOK {E : Env} (rank : Nat → Nat)
    (hrank : ∀ (i : Nat) (n : Pipeline), E.plan.nodes[i]? = some n →
      ∀ s ∈ n.succs, rank s < rank i)
    (p x : Nat) (nX : Pipeline) (hx : E.plan.nodes[x]? = some nX)
    (hxid : nX.pid = p) (hxroot : nX.root = RootOp.op)
    (huniq : ∀ (i : Nat) (n : Pipeline), E.plan.nodes[i]? = some n →
      n.pid = p → i = x)
    {fuel : Nat} :
    ∀ {ss : List Nat} {ctx ctx' : LoweringContext}, Inv E ctx →
    CountOK p ctx → processSources E fuel ss ctx = .ok ctx' →
    CountOK p ctx' := by
  intro ss
  induction ss with
  | nil =>
    intro ctx ctx' _ hC h
    simp only [processSources] at h
    cases h
    exact hC
  | cons s rest ih =>
    intro ctx ctx' hI hC h
    rw [processSources] at h
    cases hps : processSource E fuel s ctx with
    | error err =>
      rw [hps] at h
      cases h
    | ok ctxm =>
      rw [hps] at h
      obtain ⟨hIm, _⟩ := processSource_basic hI hps
      exact ih hIm
        (processSource_countOK rank hrank p x nX hx hxid hxroot huniq
          hI hC hps) h

theorem lower_countOK {E : Env} (rank : Nat → Nat)
    (hrank : ∀ (i : Nat) (n : Pipeline), E.plan.nodes[i]? = some n →
      ∀ s ∈ n.succs, rank s < rank i)
    (p x : Nat) (nX : Pipeline) (hx : E.plan.nodes[x]? = some nX)
    (hxid : nX.pid = p) (hxroot : nX.root = RootOp.op)
    (huniq : ∀ (i : Nat) (n : Pipeline), E.plan.nodes[i]? = some n →
      n.pid = p → i = x)
    {fuel : Nat} {cqp : CompiledQueryPlan} {ctxF : LoweringContext}
    (h : lower E fuel = .ok (cqp, ctxF)) : CountOK p ctxF := by
  rw [lower] at h
  cases hps : processSources E fuel (getSourcePipelines E)
      (initialContext E) with
  | error err =>
    rw [hps] at h
    cases h
  | ok ctx =>
    rw [hps] at h
    simp only at h
    injection h with h1
    injection h1 with hc hctx
    subst hctx
    have hC0 : CountOK p (initialContext E) := by
      unfold CountOK
      simp [initialContext, countIds, lookupMemo]
    exact processSources_countOK rank hrank p x nX hx hxid hxroot huniq
      (initialContext_inv E) hC0 hps

/-! Claim C1 machinery, part seven: completeness — every operator pipeline
reachable from a listed source pipeline ends up in the memo map. -/

theorem processSource_succ_lookup {E : Env} (rank : Nat → Nat)
    (hrank : ∀ (i : Nat) (n : Pipeline), E.plan.nodes[i]? = some n →
      ∀ s ∈ n.succs, rank s < rank i)
    (hu : ∀ (i j : Nat) (n m : Pipeline), E.plan.nodes[i]? = some n →
      E.plan.nodes[j]? = some m → n.pid = m.pid → i = j)
    {fuel sIdx : Nat} {ctx ctx' : LoweringContext} (hI : Inv E ctx)
    (h : processSource E fuel sIdx ctx = .ok ctx')
    {n : Pipeline} (hn : E.plan.nodes[sIdx]? = some n)
    {y : Nat} (hy : y ∈ n.succs) {m : Pipeline}
    (hm : E.plan.nodes[y]? = some m) (hmroot : m.root = RootOp.op) :
    ∃ j : Nat, lookupMemo ctx'.memo m.pid = some j := by
  rw [processSource] at h
  simp only [hn] at h
  cases hroot : n.root with
  | sink d =>
    simp only [hroot] at h
    cases h
  | op =>
    simp only [hroot] at h
    cases h
  | source srcOp =>
    simp only [hroot] at h
    set eIdx := ctx.execs.length with heIdx
    set newExec : ExecutablePipeline :=
      { id := n.pid
        stage := provideInputFormatterTask srcOp.descriptor.schema
          srcOp.descriptor.parserConfig
        successors := [] } with hnew
    set ctx1 : LoweringContext :=
      { ctx with execs := ctx.execs ++ [newExec] } with hctx1
    cases hw : walkSuccessors E fuel eIdx n.succs ctx1 with
    | error err =>
      rw [hw] at h
      cases h
    | ok ctx2 =>
      rw [hw] at h
      simp only at h
      have hns : n.isSinkPipeline = false := by
        simp [Pipeline.isSinkPipeline, hroot]
      have hI1 : Inv E ctx1 := alloc_inv hI hn rfl hns rfl
      have hlt1 : eIdx < ctx1.execs.length := by
        simp [hctx1, heIdx]
      obtain ⟨j, hlkj, _⟩ := walk_wired rank hrank hu fuel eIdx n.succs
        ctx1 ctx2 hI1 hlt1 hw y hy m hm hmroot
      have h5 : lookupMemo (emplace ctx2.memo ctx2.nextId eIdx) m.pid
          = some j := lookup_emplace_persist _ _ hlkj
      cases hif : injectFormatter E fuel n srcOp
          ({ ctx2 with
             planPipelines := ctx2.planPipelines.filter (fun j2 => j2 != sIdx)
             memo := emplace ctx2.memo ctx2.nextId eIdx
             nextId := ctx2.nextId + 1
             sources := ctx2.sources ++
               [{ originId := srcOp.originId, descriptor := srcOp.descriptor
                  successors := [eIdx] }] }) with
      | error err =>
        rw [hif] at h
        cases h
      | ok pr =>
        obtain ⟨l, ctx6⟩ := pr
        rw [hif] at h
        simp only at h
        cases h
        refine ⟨j, ?_⟩
        show lookupMemo ctx6.memo m.pid = some j
        exact injectFormatter_persist h5 hif

theorem processSources_succ_lookup {E : Env} (rank : Nat → Nat)
    (hrank : ∀ (i : Nat) (n : Pipeline), E.plan.nodes[i]? = some n →
      ∀ s ∈ n.succs, rank s < rank i)
    (hu : ∀ (i j : Nat) (n m : Pipeline), E.plan.nodes[i]? = some n →
      E.plan.nodes[j]? = some m → n.pid = m.pid → i = j)
    {fuel : Nat} :
    ∀ {ss : List Nat} {ctx ctx' : LoweringContext}, Inv E ctx →
    processSources E fuel ss ctx = .ok ctx' →
    ∀ {si : Nat}, si ∈ ss → ∀ {n : Pipeline},
    E.plan.nodes[si]? = some n →
    ∀ {y : Nat}, y ∈ n.succs → ∀ {m : Pipeline},
    E.plan.nodes[y]? = some m → m.root = RootOp.op →
    ∃ j : Nat, lookupMemo ctx'.memo m.pid = some j := by
  intro ss
  induction ss with
  | nil =>
    intro ctx ctx' _ h si hsi
    simp at hsi
  | cons s0 rest ih =>
    intro ctx ctx' hI h si hsi n hn y hy m hm hroot
    rw [processSources] at h
    cases hps : processSource E fuel s0 ctx with
    | error err =>
      rw [hps] at h
      cases h
    | ok ctxm =>
      rw [hps] at h
      obtain ⟨hIm, _⟩ := processSource_basic hI hps
      rcases List.mem_cons.mp hsi with hs0 | hsrest
      · subst hs0
        obtain ⟨j, hlkj⟩ :=
          processSource_succ_lookup rank hrank hu hI hps hn hy hm hroot
        exact ⟨j, processSources_persist hlkj h⟩
      · exact ih hIm h hsrest hn hy hm hroot

theorem lower_complete {E : Env} (rank : Nat → Nat)
    (hrank : ∀ (i : Nat) (n : Pipeline), E.plan.nodes[i]? = some n →
      ∀ s ∈ n.succs, rank s < rank i)
    (hu : ∀ (i j : Nat) (n m : Pipeline), E.plan.nodes[i]? = some n →
      E.plan.nodes[j]? = some m → n.pid = m.pid → i = j)
    {fuel : Nat} {cqp : CompiledQueryPlan} {ctxF : LoweringContext}
    (hlow : lower E fuel = .ok (cqp, ctxF)) :
    ∀ y : Nat, ReachesOp E y → ∀ m : Pipeline, E.plan.nodes[y]? = some m →
      m.root = RootOp.op → ∃ j, lookupMemo ctxF.memo m.pid = some j := by
  rw [lower] at hlow
  cases hps : processSources E fuel (getSourcePipelines E)
      (initialContext E) with
  | error err =>
    rw [hps] at hlow
    cases hlow
  | ok ctx =>
    rw [hps] at hlow
    simp only at hlow
    injection hlow with h1
    injection h1 with hc hctx
    subst hctx
    have hW0 : MemoWired E (initialContext E) := by
      intro pe hpe hlt
      simp [initialContext] at hpe
    have hWF : MemoWired E ctx :=
      processSources_wired rank hrank hu (initialContext_inv E) hW0 hps
    have hIF : Inv E ctx :=
      (processSources_basic (initialContext_inv E) hps).1
    intro y hr
    induction hr with
    | root si y0 s hsi hnod hsrc hy0 =>
      intro m hm hroot
      have hsi2 : si ∈ getSourcePipelines E := by
        unfold getSourcePipelines
        refine List.mem_filter.mpr ⟨hsi, ?_⟩
        rw [hnod]
        exact hsrc
      exact processSources_succ_lookup rank hrank hu
        (initialContext_inv E) hps hsi2 hnod hy0 hm hroot
    | step i y0 nI hri hnI hIroot hy0 ih =>
      intro m hm hroot
      obtain ⟨ei, hlki⟩ := ih nI hnI hIroot
      have hmemi : (nI.pid, ei) ∈ ctx.memo := lookupMemo_mem hlki
      have hplt : nI.pid < E.plan.freshBase := pid_lt_freshBase i nI hnI
      obtain ⟨i0, n0, e0, hn0, hpid0, he0, hid0, hcl0⟩ :=
        hWF (nI.pid, ei) hmemi hplt
      have hii : i0 = i := hu i0 i n0 nI hn0 hnI hpid0
      subst hii
      rw [hnI] at hn0
      injection hn0 with hnn
      subst hnn
      obtain ⟨es, hes, _⟩ := hcl0 y0 m hy0 hm hroot
      exact ⟨es, lookupMemo_of_mem_nodup hIF.memoKeys hes⟩

/-- A later encounter of a memoized operator pipeline is a pure memo hit:
the memoized executable pipeline index is returned and the state is left
entirely unchanged (in particular the pipeline's successors are not walked
again). -/
theorem pOP_memo_hit {E : Env} {x : Nat} {nX : Pipeline}
    (hx : E.plan.nodes[x]? = some nX) (ex : Nat) :
    ∀ (fuel : Nat) (ctx : LoweringContext),
      lookupMemo ctx.memo nX.pid = some ex →
      processOperatorPipeline E (fuel + 1) x ctx = .ok (ex, ctx) := by
  intro fuel ctx hlk
  rw [processOperatorPipeline]
  simp only [hx, hlk]

/-- C1: on an acyclic input plan (witnessed by a rank function strictly
decreasing along successor edges) whose pipeline ids are pairwise distinct,
for any operator pipeline X reachable from a listed source pipeline, a
successful `lower` run creates exactly one executable pipeline carrying X's
PipelineId; the memo map binds X's id to that instance, any later encounter
of X resolves through the memo map to exactly that instance with the state
left untouched (so X's successors are not re-walked), and every lowered
predecessor of X references that same instance in its successor list. -/
theorem c1_memoized_instance (E : Env) (rank : Nat → Nat)
    (hrank : ∀ (i : Nat) (n : Pipeline), E.plan.nodes[i]? = some n →
      ∀ s ∈ n.succs, rank s < rank i)
    (hu : ∀ (i j : Nat) (n m : Pipeline), E.plan.nodes[i]? = some n →
      E.plan.nodes[j]? = some m → n.pid = m.pid → i = j)
    (x : Nat) (nX : Pipeline) (hx : E.plan.nodes[x]? = some nX)
    (hxroot : nX.root = RootOp.op) (hreach : ReachesOp E x)
    {fuel : Nat} {cqp : CompiledQueryPlan} {ctxF : LoweringContext}
    (hlow : lower E fuel = .ok (cqp, ctxF)) :
    ∃ ex : Nat,
      lookupMemo ctxF.memo nX.pid = some ex ∧
      countIds ctxF.execs nX.pid = 1 ∧
      (∃ e : ExecutablePipeline, ctxF.execs[ex]? = some e ∧ e.id = nX.pid) ∧
      (∀ (fuel' : Nat) (ctx : LoweringContext),
        lookupMemo ctx.memo nX.pid = some ex →
        processOperatorPipeline E (fuel' + 1) x ctx = .ok (ex, ctx)) ∧
      (∀ (i : Nat) (n : Pipeline) (ei : Nat), E.plan.nodes[i]? = some n →
        x ∈ n.succs → lookupMemo ctxF.memo n.pid = some ei →
        ∃ e : ExecutablePipeline, ctxF.execs[ei]? = some e ∧
          e.id = n.pid ∧ ex ∈ e.successors) := by
  obtain ⟨ex, hlk⟩ := lower_complete rank hrank hu hlow x hreach nX hx hxroot
  have huniq : ∀ (i : Nat) (n : Pipeline), E.plan.nodes[i]? = some n →
      n.pid = nX.pid → i = x := fun i n h hp => hu i x n nX h hx hp
  have hC : CountOK nX.pid ctxF :=
    lower_countOK rank hrank nX.pid x nX hx rfl hxroot huniq hlow
  have hIF : Inv E ctxF := (lower_basic hlow).1
  have hWF : MemoWired E ctxF := lower_wired rank hrank hu hlow
  refine ⟨ex, hlk, ?_, ?_, ?_, ?_⟩
  · unfold CountOK at hC
    rw [hlk] at hC
    simpa using hC
  · exact hIF.memoId (nX.pid, ex) (lookupMemo_mem hlk)
      (pid_lt_freshBase x nX hx)
  · exact fun fuel' ctx hl => pOP_memo_hit hx ex fuel' ctx hl
  · intro i n ei hni hxin hlki
    have hplt : n.pid < E.plan.freshBase := pid_lt_freshBase i n hni
    obtain ⟨i0, n0, e0, hn0, hpid0, he0, hid0, hcl0⟩ :=
      hWF (n.pid, ei) (lookupMemo_mem hlki) hplt
    have hii : i0 = i := hu i0 i n0 n hn0 hni hpid0
    subst hii
    rw [hni] at hn0
    injection hn0 with hnn
    subst hnn
    obtain ⟨es, hes, hins⟩ := hcl0 x nX hxin hx hxroot
    have hlkes : lookupMemo ctxF.memo nX.pid = some es :=
      lookupMemo_of_mem_nodup hIF.memoKeys hes
    rw [hlk] at hlkes
    injection hlkes with hee
    subst hee
    exact ⟨e0, he0, hid0, hins⟩

theorem lower_envC10w_eval : lower envC10w 12 = .ok (cqpC10w, ctxC10w) := by
  simp [lower, processSources, getSourcePipelines, initialContext, processSource,
    injectFormatter, collectSuccessors, walkSuccessors, processSuccessor,
    processOperatorPipeline, processSink, toLowerCase, emplace, lookupMemo,
    appendPred, pushSucc, updateAt, getStage, resolveOptions,
    provideInputFormatterTask, envC10w, Pipeline.isSourcePipeline,
    Pipeline.isSinkPipeline, Pipeline.isOperatorPipeline,
    PipelinedQueryPlan.freshBase, cqpC10w, ctxC10w]

/-- Witness for C1 at the diamond plan `envC10w`: the shared operator
pipeline (id 3, reached from the listed source through both operator
predecessors) is memoized at store index 2, exactly one executable pipeline
carries id 3, later encounters are state-preserving memo hits, and both
predecessors reference index 2 in their successor lists. -/
theorem c1_memoized_instance_witness :
    ∃ ex : Nat,
      lookupMemo ctxC10w.memo 3 = some ex ∧
      countIds ctxC10w.execs 3 = 1 ∧
      (∃ e : ExecutablePipeline, ctxC10w.execs[ex]? = some e ∧ e.id = 3) ∧
      (∀ (fuel' : Nat) (ctx : LoweringContext),
        lookupMemo ctx.memo 3 = some ex →
        processOperatorPipeline envC10w (fuel' + 1) 3 ctx = .ok (ex, ctx)) ∧
      (∀ (i : Nat) (n : Pipeline) (ei : Nat),
        envC10w.plan.nodes[i]? = some n →
        3 ∈ n.succs → lookupMemo ctxC10w.memo n.pid = some ei →
        ∃ e : ExecutablePipeline, ctxC10w.execs[ei]? = some e ∧
          e.id = n.pid ∧ ex ∈ e.successors) := by
  refine c1_memoized_instance envC10w (fun i => 4 - i) ?_ ?_ 3
    { pid := 3, root := RootOp.op, succs := [] } ?_ rfl ?_ lower_envC10w_eval
  · intro i n hn s hs
    have hi : i < 4 := by
      have h1 := (List.getElem?_eq_some.mp hn).1
      simpa [envC10w] using h1
    show 4 - s < 4 - i
    interval_cases i
    · simp [envC10w] at hn
      subst hn
      simp at hs
      rcases hs with h | h <;> omega
    · simp [envC10w] at hn
      subst hn
      simp at hs
      omega
    · simp [envC10w] at hn
      subst hn
      simp at hs
      omega
    · simp [envC10w] at hn
      subst hn
      simp at hs
  · intro i j n m hn hm hpid
    have hi : i < 4 := by
      have h1 := (List.getElem?_eq_some.mp hn).1
      simpa [envC10w] using h1
    have hj : j < 4 := by
      have h1 := (List.getElem?_eq_some.mp hm).1
      simpa [envC10w] using h1
    interval_cases i <;> interval_cases j <;>
      (simp [envC10w] at hn hm
       subst hn
       subst hm
       first
        | rfl
        | simp at hpid)
  · rfl
  · refine ReachesOp.step 1 3 { pid := 1, root := RootOp.op, succs := [3] }
      ?_ rfl rfl (by simp)
    exact ReachesOp.root 0 1
      { pid := 0
        root := .source { originId := 7, descriptor :=
          { schema := "s", parserConfig :=
            { parserType := "raw", tupleDelimiter := "t"
              fieldDelimiter := "f" } } }
        succs := [1, 2] }
      (by simp [envC10w]) rfl rfl (by simp)

end LowerPhase
